import Mathlib

/-!
# StringUtils (src/utils/string_utils.cpp): a shallow embedding

Conventions of the embedding.

* A narrow string (std::string) is a `List Char`; a `char` is the Lean character with the
  same code.  A wide string (irr::core::stringw) is a `List Int`, one 32-bit `wchar_t`
  value per element.
* Sizes and indices are natural numbers: strings are taken to be shorter than 2^31
  characters, so that the `int` / `unsigned int` casts of sizes in the source are the
  identity.
* A C++ exception (caught by the `catch` blocks, which log and call `exit(1)`) is the
  result `none`; a loop that has not finished when its fuel is used up is `none` too.
-/

namespace StringUtils

/-! ## std::string primitives -/

/-- The constructor `std::string(s, pos, n)` / `s.substr(pos, n)`: throws `out_of_range`
when `pos > s.size()`. -/
def substr (s : List Char) (pos n : Nat) : Option (List Char) :=
  if pos > s.length then none else some ((s.drop pos).take n)

/-- The call `s.substr(pos)` / `std::string(s, pos)`: the rest of the string from `pos`. -/
def substrFrom (s : List Char) (pos : Nat) : Option (List Char) :=
  if pos > s.length then none else some (s.drop pos)

/-- Scan of `std::string::find(c, ·)` over the characters from index `k` on. -/
def findAux (c : Char) : List Char → Nat → Option Nat
  | [], _ => none
  | x :: xs, k => if x = c then some k else findAux c xs (k + 1)

/-- The call `s.find(c, start)`; `none` is `std::string::npos`. -/
def find (s : List Char) (c : Char) (start : Nat) : Option Nat :=
  findAux c (s.drop start) start

/-- The operator `s[i]` of std::string: the terminating NUL at `i = s.size()`. -/
def charAt (s : List Char) (i : Nat) : Char :=
  s.getD i (Char.ofNat 0)

/-! ## split (std::string) -/

/-- The `while` loop of `split(const std::string&, char, bool)`: `start` and `result` are
the loop variables, the first argument is the fuel. -/
def splitLoop (s : List Char) (c : Char) (keepSplitChar : Bool) :
    Nat → Nat → List (List Char) → Option (List (List Char))
  | 0, _, _ => none
  | fuel + 1, start, result =>
    if start < s.length then
      match find s c start with
      | some i =>
        if keepSplitChar then
          -- int from = (int)start-1; if (from < 0) from = 0;
          let frm := start - 1
          (substr s frm (i - frm)).bind fun seg =>
            splitLoop s c keepSplitChar fuel (i + 1) (result ++ [seg])
        else
          (substr s start (i - start)).bind fun seg =>
            splitLoop s c keepSplitChar fuel (i + 1) (result ++ [seg])
      | none =>
        -- end of string reached
        if keepSplitChar && start != 0 then
          (substrFrom s (start - 1)).map fun seg => result ++ [seg]
        else
          (substrFrom s start).map fun seg => result ++ [seg]
    else some result

/-- The function `split(const std::string& s, char c, bool keepSplitChar)`. -/
def split (s : List Char) (c : Char) (keepSplitChar : Bool) : Option (List (List Char)) :=
  splitLoop s c keepSplitChar (s.length + 1) 0 []

/-! ### A structural description of what the split loops compute -/

/-- One left-to-right pass: `cur` is the segment being collected. -/
def fieldsGo {α : Type} [DecidableEq α] (c : α) (keep : Bool) : List α → List α → List (List α)
  | [], cur => [cur]
  | x :: xs, cur =>
    if x = c then
      cur :: (if xs.isEmpty then [] else fieldsGo c keep xs (if keep then [c] else []))
    else fieldsGo c keep xs (cur ++ [x])

/-- The segments of `s`: nothing for the empty string, and nothing after a final delimiter. -/
def fields {α : Type} [DecidableEq α] (c : α) (keep : Bool) (s : List α) : List (List α) :=
  if s.isEmpty then [] else fieldsGo c keep s []

/-! ## insertValues (std::string) -/

/-- The text appended for a missing value. -/
def qq : List Char := ['?', '?']

/-- The `for` loop of `insertValues(const std::string&, std::vector<std::string>&)` over the
segments `sv[i]`, with the loop variables `insertValID` and `new_string`. -/
def insertValuesLoop (all_vals : List (List Char)) :
    List (List Char) → Nat → List Char → Option (List Char)
  | [], _, new_string => some new_string
  | seg :: rest, insertValID, new_string =>
    if charAt seg 0 ≠ '%' then
      insertValuesLoop all_vals rest insertValID (new_string ++ seg)
    else if charAt seg 1 = 's' ∨ charAt seg 1 = 'd' ∨ charAt seg 1 = 'i' ∨ charAt seg 1 = 'f' then
      if insertValID ≥ all_vals.length then
        (substrFrom seg 2).bind fun t =>
          insertValuesLoop all_vals rest (insertValID + 1) (new_string ++ (qq ++ t))
      else
        (substrFrom seg 2).bind fun t =>
          insertValuesLoop all_vals rest (insertValID + 1)
            (new_string ++ (all_vals.getD insertValID [] ++ t))
    else if '0' ≤ charAt seg 1 ∧ charAt seg 1 ≤ '9' then
      let index := (charAt seg 1).toNat - ('0').toNat
      if index ≥ all_vals.length then
        (substrFrom seg 2).bind fun t =>
          insertValuesLoop all_vals rest insertValID (new_string ++ (qq ++ t))
      else
        (substrFrom seg 2).bind fun t =>
          insertValuesLoop all_vals rest insertValID (new_string ++ (all_vals.getD index [] ++ t))
    else
      insertValuesLoop all_vals rest insertValID (new_string ++ seg)

/-- The function `insertValues(const std::string &s, std::vector<std::string>& all_vals)`. -/
def insertValues (s : List Char) (all_vals : List (List Char)) : Option (List Char) :=
  (split s '%' true).bind fun sv => insertValuesLoop all_vals sv 0 []

/-! ### The vocabulary of the claims about insertValues -/

/-- A segment that is a positional placeholder: `%s`, `%d`, `%i` or `%f`, then text. -/
def isPositional (seg : List Char) : Bool :=
  decide (charAt seg 0 = '%' ∧
    (charAt seg 1 = 's' ∨ charAt seg 1 = 'd' ∨ charAt seg 1 = 'i' ∨ charAt seg 1 = 'f'))

/-- A segment that is an indexed placeholder: `%` and a decimal digit, then text. -/
def isIndexed (seg : List Char) : Bool :=
  decide (charAt seg 0 = '%' ∧ '0' ≤ charAt seg 1 ∧ charAt seg 1 ≤ '9')

/-- The index named by an indexed placeholder. -/
def indexOfSeg (seg : List Char) : Nat :=
  (charAt seg 1).toNat - ('0').toNat

/-- The turn of segment `i`: how many positional placeholders stand before it. -/
def turn (segs : List (List Char)) (i : Nat) : Nat :=
  (segs.take i).countP isPositional

/-- What one segment adds to the result when the cursor is `k`. -/
def segOut (all_vals : List (List Char)) (k : Nat) (seg : List Char) : List Char :=
  if isPositional seg then
    (if k ≥ all_vals.length then qq else all_vals.getD k []) ++ seg.drop 2
  else if isIndexed seg then
    (if indexOfSeg seg ≥ all_vals.length then qq else all_vals.getD (indexOfSeg seg) [])
      ++ seg.drop 2
  else seg

/-- The additions of all segments, the cursor starting at `k`. -/
def outs (all_vals : List (List Char)) : List (List Char) → Nat → List (List Char)
  | [], _ => []
  | seg :: rest, k =>
    segOut all_vals k seg :: outs all_vals rest (if isPositional seg then k + 1 else k)

/-- The form `%<digit>$` followed by at least one more character, which only the wide
insertValues treats specially. -/
def dollarForm (seg : List Char) : Prop :=
  charAt seg 0 = '%' ∧ ('0' ≤ charAt seg 1 ∧ charAt seg 1 ≤ '9') ∧ seg.length ≥ 4
    ∧ charAt seg 2 = '$'

/-! ## irr::core::stringw primitives (Irrlicht, irrString.h) -/

/-- The code of a narrow character converted to `wchar_t` (ASCII: the same code). -/
def wch (c : Char) : Int := (c.toNat : Int)

/-- A narrow ASCII text as a wide string. -/
def widen (s : List Char) : List Int := s.map wch

/-- Irrlicht `subString(begin, length)`: empty when `length <= 0` or `begin >= size()`,
and `length` is clamped to the end of the string; it never throws. -/
def subString (s : List Int) (begin : Nat) (length : Int) : List Int :=
  if length ≤ 0 ∨ begin ≥ s.length then [] else (s.drop begin).take length.toNat

/-- Scan of Irrlicht `findNext` over the characters from index `k` on. -/
def findNextAux (c : Int) : List Int → Nat → Int
  | [], _ => -1
  | x :: xs, k => if x = c then (k : Int) else findNextAux c xs (k + 1)

/-- Irrlicht `findNext(c, startPos)`: the index of the next `c`, or -1. -/
def findNext (s : List Int) (c : Int) (startPos : Nat) : Int :=
  findNextAux c (s.drop startPos) startPos

/-- The operator `s[i]` of Irrlicht strings: the terminating 0 at `i = s.size()`. -/
def wcharAt (s : List Int) (i : Nat) : Int :=
  s.getD i 0

/-- The characters of `s.c_str()` as read by a C-string consumer: up to the first 0. -/
def c_str (s : List Int) : List Int :=
  s.takeWhile fun x => x ≠ 0

/-- Irrlicht `isdigit`. -/
def isdigit (c : Int) : Bool :=
  decide (wch '0' ≤ c ∧ c ≤ wch '9')

/-! ## split (irr::core::stringw) -/

/-- The `while` loop of `split(const irr::core::stringw&, char, bool)`. -/
def splitWLoop (s : List Int) (c : Char) (keepSplitChar : Bool) :
    Nat → Nat → List (List Int) → Option (List (List Int))
  | 0, _, _ => none
  | fuel + 1, start, result =>
    if start < s.length then
      let i := findNext s (wch c) start
      if i ≠ -1 then
        if keepSplitChar then
          let frm := start - 1
          splitWLoop s c keepSplitChar fuel (i + 1).toNat
            (result ++ [subString s frm (i - (frm : Int))])
        else
          splitWLoop s c keepSplitChar fuel (i + 1).toNat
            (result ++ [subString s start (i - (start : Int))])
      else
        if keepSplitChar && start != 0 then
          some (result ++ [subString s (start - 1) ((s.length : Int) - (start : Int) + 1)])
        else
          some (result ++ [subString s start ((s.length : Int) - (start : Int))])
    else some result

/-- The function `split(const irr::core::stringw& s, char c, bool keepSplitChar)`. -/
def splitW (s : List Int) (c : Char) (keepSplitChar : Bool) : Option (List (List Int)) :=
  splitWLoop s c keepSplitChar (s.length + 1) 0 []

/-! ## insertValues (irr::core::stringw) -/

/-- The `for` loop of `insertValues(const irr::core::stringw&, std::vector<stringw>&)`. -/
def insertValuesWLoop (all_vals : List (List Int)) :
    List (List Int) → Nat → List Int → List Int
  | [], _, new_string => new_string
  | seg :: rest, insertValID, new_string =>
    if wcharAt seg 0 ≠ wch '%' then
      insertValuesWLoop all_vals rest insertValID (new_string ++ seg)
    else if wcharAt seg 1 = wch 's' ∨ wcharAt seg 1 = wch 'd' ∨ wcharAt seg 1 = wch 'i'
        ∨ wcharAt seg 1 = wch 'f' then
      if insertValID ≥ all_vals.length then
        insertValuesWLoop all_vals rest (insertValID + 1)
          (new_string ++ widen qq ++ subString seg 2 ((seg.length : Int) - 2))
      else
        insertValuesWLoop all_vals rest (insertValID + 1)
          (new_string ++ c_str (all_vals.getD insertValID []) ++ subString seg 2 ((seg.length : Int) - 2))
    else if isdigit (wcharAt seg 1) then
      let rest0 := subString seg 2 ((seg.length : Int) - 2)
      let dollar := decide (seg.length ≥ 4 ∧ wcharAt seg 2 = wch '$')
      let rest1 := if dollar then subString seg 4 ((seg.length : Int) - 4) else rest0
      let delta : Int := if dollar then -1 else 0
      -- const unsigned int index = ...[1] - '0' + delta
      let index := ((wcharAt seg 1 - wch '0' + delta) % 2 ^ 32).toNat
      if index ≥ all_vals.length then
        insertValuesWLoop all_vals rest insertValID (new_string ++ widen qq ++ rest1)
      else
        insertValuesWLoop all_vals rest insertValID
          (new_string ++ (all_vals.getD index [] ++ rest1))
    else
      insertValuesWLoop all_vals rest insertValID (new_string ++ seg)

/-- The function `insertValues(const irr::core::stringw &s, std::vector<stringw>& all_vals)`. -/
def insertValuesW (s : List Int) (all_vals : List (List Int)) : Option (List Int) :=
  (splitW s '%' true).map fun sv => insertValuesWLoop all_vals sv 0 []

/-! ## Integer formatting and scanning (C and C++ standard library) -/

/-- The digit character of `d` in upper case: `0`..`9`, `A`..`F`. -/
def digitChar (d : Nat) : Char :=
  if d < 10 then Char.ofNat (48 + d) else Char.ofNat (55 + d)

/-- Digits of `n` in `base`, most significant first, in front of `acc`. -/
def toDigitsCore (base : Nat) : Nat → Nat → List Char → List Char
  | 0, _, acc => acc
  | fuel + 1, n, acc =>
    let acc1 := digitChar (n % base) :: acc
    if n / base = 0 then acc1 else toDigitsCore base fuel (n / base) acc1

/-- An unsigned number printed in `base` without leading zeros (`0` for zero). -/
def toDigits (base n : Nat) : List Char :=
  toDigitsCore base (n + 1) n []

/-- The upper-case hexadecimal digits. -/
def hexChars : List Char := "0123456789ABCDEF".toList

/-- The 32-bit two's complement value with the bits of `n`. -/
def toInt32 (n : Int) : Int :=
  let r := n % 2 ^ 32
  if r < 2 ^ 31 then r else r - 2 ^ 32

/-- The output of `stream << std::hex << std::uppercase << v` for an `int` (a promoted
`wchar_t`): the hexadecimal digits of the value read as unsigned. -/
def streamHexUpper (v : Int) : List Char :=
  toDigits 16 (v % 2 ^ 32).toNat

/-- C `isspace` in the C locale. -/
def isspace (c : Char) : Bool :=
  c = ' ' || (9 ≤ c.toNat && c.toNat ≤ 13)

/-- The value of a digit character in bases up to 16 (both cases of the letters). -/
def digitValue (c : Char) : Option Nat :=
  if '0' ≤ c ∧ c ≤ '9' then some (c.toNat - 48)
  else if 'a' ≤ c ∧ c ≤ 'f' then some (c.toNat - 87)
  else if 'A' ≤ c ∧ c ≤ 'F' then some (c.toNat - 55)
  else none

/-- A digit of the given base. -/
def isDigitOf (base : Nat) (c : Char) : Bool :=
  match digitValue c with
  | some d => decide (d < base)
  | none => false

/-- The number spelled by digits of the given base. -/
def digitsValue (base : Nat) (ds : List Char) : Nat :=
  ds.foldl (fun a c => a * base + (digitValue c).getD 0) 0

/-- The conversions `%x` (`hex = true`) and `%i` (`hex = false`) of glibc `sscanf` into an
`int`, for a format holding just that conversion: `none` when the call does not return 1.
White space is skipped, a sign is read, a leading `0` is a digit, a following `x` or `X` is
skipped (and selects base 16 for `%i`, a leading `0` alone selects base 8), then the digits
of the base are read; the value saturates like `strtoul` / `strtol` on 64 bits and its low
32 bits are stored. -/
def sscanfInt (hex : Bool) (str : List Char) : Option Int :=
  let s1 := str.dropWhile isspace
  let neg := decide (s1.head? = some '-')
  let s2 := if s1.head? = some '-' ∨ s1.head? = some '+' then s1.tail else s1
  let zero := decide (s2.head? = some '0')
  let s3 := if zero then s2.tail else s2
  let hasX := zero && decide (s3.head? = some 'x' ∨ s3.head? = some 'X')
  let s4 := if hasX then s3.tail else s3
  let base := if hex || hasX then 16 else if zero then 8 else 10
  let ds := s4.takeWhile (isDigitOf base)
  if !zero && ds.isEmpty then none
  else
    let m := digitsValue base ds
    if hex then
      let v : Int := if m ≥ 2 ^ 64 then 2 ^ 64 - 1 else if neg then (- (m : Int)) % 2 ^ 64 else m
      some (toInt32 v)
    else
      let v : Int :=
        if neg then (if m > 2 ^ 63 then - 2 ^ 63 else - (m : Int))
        else (if m ≥ 2 ^ 63 then 2 ^ 63 - 1 else m)
      some (toInt32 v)

/-! ## xmlDecode and xmlEncode -/

/-- The conversion `wchar_t(ch)` of a (signed) `char`. -/
def charToWide (c : Char) : Int :=
  if c.toNat < 128 then (c.toNat : Int) else (c.toNat : Int) - 256

/-- The states of the scanner in `xmlDecode`. -/
inductive DecodeState where
  | NORMAL
  | ENTITY_PREAMBLE
  | ENTITY_BODY
  deriving DecidableEq, Repr

/-- The `for` loop of `xmlDecode` with its variables `state`, `entity`, `isHex`, `output`. -/
def xmlDecodeLoop : List Char → DecodeState → List Char → Bool → List Int → List Int
  | [], _, _, _, output => output
  | ch :: rest, DecodeState.NORMAL, entity, isHex, output =>
    if ch = '&' then xmlDecodeLoop rest DecodeState.ENTITY_PREAMBLE [] false output
    else xmlDecodeLoop rest DecodeState.NORMAL entity isHex (output ++ [charToWide ch])
  | ch :: rest, DecodeState.ENTITY_PREAMBLE, entity, isHex, output =>
    if ch ≠ '#' then
      xmlDecodeLoop rest DecodeState.NORMAL entity isHex (output ++ [wch '&'] ++ [charToWide ch])
    else xmlDecodeLoop rest DecodeState.ENTITY_BODY entity isHex output
  | ch :: rest, DecodeState.ENTITY_BODY, entity, isHex, output =>
    if ch = 'x' ∧ entity.length = 0 then
      xmlDecodeLoop rest DecodeState.ENTITY_BODY entity true output
    else if ch = ';' then
      match sscanfInt isHex entity with
      | some c => xmlDecodeLoop rest DecodeState.NORMAL entity isHex (output ++ [c])
      | none => xmlDecodeLoop rest DecodeState.NORMAL entity isHex output
    else xmlDecodeLoop rest DecodeState.ENTITY_BODY (entity ++ [ch]) isHex output

/-- The function `xmlDecode(const std::string& input)`. -/
def xmlDecode (input : List Char) : List Int :=
  xmlDecodeLoop input DecodeState.NORMAL [] false []

/-- The text `xmlEncode` writes for one character. -/
def xmlEncodeChar (ch : Int) : List Char :=
  if ch ≥ 128 ∨ ch = wch '&' ∨ ch = wch '<' ∨ ch = wch '>' ∨ ch = wch (Char.ofNat 34)
      ∨ ch = wch ' ' then
    ['&', '#', 'x'] ++ streamHexUpper ch ++ [';']
  else
    -- irr::c8 c = (char)(s[i]);
    [Char.ofNat (ch % 256).toNat]

/-- The function `xmlEncode(const irr::core::stringw &s)`. -/
def xmlEncode : List Int → List Char
  | [] => []
  | ch :: rest => xmlEncodeChar ch ++ xmlEncode rest

/-! ## Single-precision arithmetic (IEEE 754 binary32, round to nearest even) -/

/-- A `float`: the finite value `m * 2 ^ e`, an infinity or a NaN.  The sign of zero is not
tracked (the only comparison made is `time < 0.0f`). -/
inductive F32 where
  | finite (m : Int) (e : Int)
  | inf (neg : Bool)
  | nan
  deriving DecidableEq, Repr

/-- The number of binary digits of `n`; the first argument is the fuel. -/
def bitLengthCore : Nat → Nat → Nat
  | 0, _ => 0
  | fuel + 1, n => if n = 0 then 0 else bitLengthCore fuel (n / 2) + 1

/-- The number of binary digits of `n`. -/
def bitLength (n : Nat) : Nat :=
  bitLengthCore n n

/-- The exact value `m * 2 ^ e` rounded to the nearest binary32 number, ties to even:
24 significant bits, least exponent -149, overflow to infinity. -/
def F32.round (m : Int) (e : Int) : F32 :=
  let a := m.natAbs
  if a = 0 then F32.finite 0 0
  else
    let e1 := max (e + (bitLength a : Int) - 24) (-149)
    if e1 ≤ e then
      if e + (bitLength a : Int) > 128 then F32.inf (decide (m < 0)) else F32.finite m e
    else
      let k := (e1 - e).toNat
      let q := a / 2 ^ k
      let r := a % 2 ^ k
      let half := 2 ^ (k - 1)
      let q1 := if r > half ∨ (r = half ∧ q % 2 = 1) then q + 1 else q
      if e1 + (bitLength q1 : Int) > 128 then F32.inf (decide (m < 0))
      else F32.finite (if m < 0 then - (q1 : Int) else (q1 : Int)) e1

/-- The conversion `(float) n` of an `int`. -/
def F32.ofInt (n : Int) : F32 :=
  F32.round n 0

/-- The comparison `x < 0.0f`. -/
def F32.ltZero : F32 → Bool
  | F32.finite m _ => decide (m < 0)
  | F32.inf neg => neg
  | F32.nan => false

/-- Single-precision multiplication. -/
def F32.mul : F32 → F32 → F32
  | F32.finite m1 e1, F32.finite m2 e2 => F32.round (m1 * m2) (e1 + e2)
  | F32.finite m _, F32.inf neg =>
    if m = 0 then F32.nan else F32.inf (xor (decide (m < 0)) neg)
  | F32.inf neg, F32.finite m _ =>
    if m = 0 then F32.nan else F32.inf (xor (decide (m < 0)) neg)
  | F32.inf n1, F32.inf n2 => F32.inf (xor n1 n2)
  | _, _ => F32.nan

/-- Single-precision addition. -/
def F32.add : F32 → F32 → F32
  | F32.finite m1 e1, F32.finite m2 e2 =>
    let e0 := min e1 e2
    F32.round (m1 * 2 ^ (e1 - e0).toNat + m2 * 2 ^ (e2 - e0).toNat) e0
  | F32.finite _ _, F32.inf neg => F32.inf neg
  | F32.inf neg, F32.finite _ _ => F32.inf neg
  | F32.inf n1, F32.inf n2 => if n1 = n2 then F32.inf n1 else F32.nan
  | _, _ => F32.nan

/-- The cast `(int) x`: truncation toward zero; a value outside the range of `int`, an
infinity or a NaN gives INT_MIN, as the x86 conversion instruction does (the case the
source guards against with `int_time < 0`). -/
def F32.toInt : F32 → Int
  | F32.finite m e =>
    let a := m.natAbs
    let t : Int := if e ≥ 0 then (a * 2 ^ e.toNat : Nat) else (a / 2 ^ (-e).toNat : Nat)
    let v := if m < 0 then - t else t
    if - 2 ^ 31 ≤ v ∧ v < 2 ^ 31 then v else - 2 ^ 31
  | _ => - 2 ^ 31

/-! ## timeToString -/

/-- Modelled from the spec: `StringUtils::toString` is declared in string_utils.hpp, which
is not among the sources; for an `int` it gives the decimal text of the number, the text
that timeToString pads with zeros to two digits. -/
def toString (v : Int) : List Char :=
  if v < 0 then '-' :: toDigits 10 (- v).toNat else toDigits 10 v.toNat

/-- The loop `for (i = 0; i < precision; i++) precision_power *= 10;`. -/
def precisionPower : Nat → Int
  | 0 => 1
  | i + 1 => precisionPower i * 10

/-- The statements of timeToString up to `int_time = (int)(time*fprecision_power+0.5f)`:
the number of units of 10^-precision seconds in the absolute value of `time`. -/
def intTime (time : F32) (precision : Nat) : Int :=
  let precision := if precision > 3 then 3 else precision
  let fprecision_power := F32.ofInt (precisionPower precision)
  let negative_time := F32.ltZero time
  let time := if negative_time then F32.mul time (F32.finite (-1) 0) else time
  F32.toInt (F32.add (F32.mul time fprecision_power) (F32.finite 1 (-1)))

/-- The loop `for (i = 1; i < precision; i++)` that pads `s_subsec` with zeros; the first
argument counts the iterations left. -/
def padSubsec (subseconds : Int) : Nat → Int → List Char → List Char
  | 0, _, s_subsec => s_subsec
  | n + 1, precision_power, s_subsec =>
    let precision_power := precision_power / 10
    padSubsec subseconds n precision_power
      (if subseconds < precision_power then '0' :: s_subsec else s_subsec)

/-- The function `timeToString(float time, unsigned int precision,
bool display_minutes_if_zero, bool display_hours)`.  The divisions and remainders are taken
of non-negative numbers only. -/
def timeToString (time : F32) (precision : Nat) (display_minutes_if_zero display_hours : Bool) :
    List Char :=
  let int_time := intTime time precision
  let precision := if precision > 3 then 3 else precision
  let precision_power := precisionPower precision
  let negative_time := F32.ltZero time
  if int_time < 0 then
    let final_append :=
      if precision = 3 then ".000".toList
      else if precision = 2 then ".00".toList
      else if precision = 1 then ".0".toList
      else []
    if display_hours then "00:00:00".toList ++ final_append
    else if display_minutes_if_zero then "00:00".toList ++ final_append
    else "00".toList ++ final_append
  else if (int_time ≥ 60 * 60 * precision_power ∧ ¬ display_hours)
      ∨ int_time ≥ 100 * 60 * 60 * precision_power then
    let final_append :=
      if precision = 3 then ".999".toList
      else if precision = 2 then ".99".toList
      else if precision = 1 then ".9".toList
      else []
    if display_hours then "99:59:59".toList ++ final_append
    else "59:59".toList ++ final_append
  else
    let subseconds := int_time % precision_power
    let int_time := int_time / precision_power
    let sec := int_time % 60
    let int_time := int_time / 60
    let min := int_time % 60
    let int_time := int_time / 60
    let hours := int_time
    let s_hours := if hours < 10 then '0' :: toString hours else toString hours
    let s_min := if min < 10 then '0' :: toString min else toString min
    let s_sec := if sec < 10 then '0' :: toString sec else toString sec
    let s_subsec := padSubsec subseconds (precision - 1) precision_power (toString subseconds)
    let s_neg := if negative_time then ['-'] else []
    let s1 := if display_minutes_if_zero ∨ min > 0 ∨ display_hours then s_min ++ [':'] ++ s_sec
      else s_sec
    let s_hours_min_and_sec := if display_hours then s_hours ++ [':'] ++ s1 else s1
    if precision = 0 then s_neg ++ s_hours_min_and_sec
    else s_neg ++ s_hours_min_and_sec ++ ['.'] ++ s_subsec

/-- The fractional part of a saturated time: nothing at precision 0, else `.` and `p`
nines. -/
def nines (p : Nat) : List Char :=
  if p = 0 then [] else '.' :: List.replicate p '9'


/-! ### The vocabulary of the claims about timeToString -/

/-- A number below 100 written with exactly two decimal digits. -/
def twoDigits (k : Nat) : List Char :=
  [digitChar (k / 10), digitChar (k % 10)]

/-- The last `w` decimal digits of `v`, most significant first. -/
def fixedDigits : Nat → Nat → List Char
  | 0, _ => []
  | w + 1, v => fixedDigits w (v / 10) ++ [digitChar (v % 10)]

/-- The fractional part of a time text: nothing at precision 0, else `.` and the `p`
digits of `f`. -/
def fractionText (p f : Nat) : List Char :=
  if p = 0 then [] else '.' :: fixedDigits p f

/-- The rational value of a finite single-precision number. -/
def F32.value : F32 → Option ℚ
  | F32.finite m e => some ((m : ℚ) * (2 : ℚ) ^ e)
  | _ => none

/-! ## versionToInt -/

/-- The signed decimal number at the start of a C string, as `strtol(str, NULL, 10)`
reads it (white space, a sign, digits; 0 without digits) and saturated to 64 bits. -/
def strtol10 (str : List Char) : Int :=
  let s1 := str.dropWhile isspace
  let neg := decide (s1.head? = some '-')
  let s2 := if s1.head? = some '-' ∨ s1.head? = some '+' then s1.tail else s1
  let m := digitsValue 10 (s2.takeWhile (isDigitOf 10))
  if neg then (if m > 2 ^ 63 then - 2 ^ 63 else - (m : Int))
  else (if m ≥ 2 ^ 63 then 2 ^ 63 - 1 else (m : Int))

/-- C `atoi`: `(int) strtol(str, NULL, 10)`. -/
def atoi (str : List Char) : Int :=
  toInt32 (strtol10 str)

/-- The call `sscanf(str, "-rc%d", &release_candidate) == 1` and the value it stores: the
literal `-rc` must match, then `%d` skips white space and reads a sign and decimal digits,
at least one. -/
def sscanfRc (str : List Char) : Option Int :=
  if str.take 3 = ['-', 'r', 'c'] then
    let s1 := (str.drop 3).dropWhile isspace
    let s2 := if s1.head? = some '-' ∨ s1.head? = some '+' then s1.tail else s1
    if (s2.takeWhile (isDigitOf 10)).isEmpty then none
    else some (toInt32 (strtol10 (str.drop 3)))
  else none

/-- The rest of `versionToInt` once `release_candidate` is known and the suffix removed:
the micro letter, the split at `.` and the weighted sum in `int` arithmetic (two's
complement on overflow). -/
def versionToIntTail (s : List Char) (release_candidate : Int) : Option Int :=
  let hasLetter := decide (s.length > 0 ∧ 'a' ≤ charAt s (s.length - 1)
    ∧ charAt s (s.length - 1) ≤ 'z')
  let very_minor : Int :=
    if hasLetter then ((charAt s (s.length - 1)).toNat : Int) - (('a').toNat : Int) + 1 else 0
  (if hasLetter then substr s 0 (s.length - 1) else some s).bind fun s =>
  (split s '.' false).map fun l =>
    -- while(l.size()<3) l.push_back("0");
    let l := l ++ List.replicate (3 - l.length) ['0']
    toInt32 (1000000 * atoi (l.getD 0 []) + 10000 * atoi (l.getD 1 []) + 100 * atoi (l.getD 2 [])
      + 10 * very_minor + release_candidate)

/-- The function `versionToInt(const std::string &version_string)`; `none` when the
`assert(release_candidate<9)` fails (or an exception is thrown). -/
def versionToInt (version_string : List Char) : Option Int :=
  if version_string = "GIT".toList ∨ version_string = "git".toList then
    some (1000000 * 99 + 10000 * 99 + 100 * 99 + 10 * 9 + 9)
  else
    let s := version_string
    if s.length > 4 then
      (substr s (s.length - 4) 4).bind fun last4 =>
        match sscanfRc last4 with
        | some release_candidate =>
          (substr s 0 (s.length - 4)).bind fun s =>
            if release_candidate < 9 then versionToIntTail s release_candidate else none
        | none => versionToIntTail s 9
    else versionToIntTail s 9

/-! ### The vocabulary of the claims about versionToInt -/

/-- A decimal numeral: a non-empty string of decimal digits. -/
def isNumeral (x : List Char) : Prop :=
  x ≠ [] ∧ ∀ c ∈ x, '0' ≤ c ∧ c ≤ '9'

/-- The version string `X.Y.Z<letter>-rc<n>` with the dotted numerals `comps`, an optional
micro letter and an optional release-candidate number. -/
def versionString (comps : List (List Char)) (letter : Option Char) (rc : Option Nat) :
    List Char :=
  List.intercalate ['.'] comps ++ letter.toList
    ++ (match rc with
        | some n => ['-', 'r', 'c', digitChar n]
        | none => [])

/-- The number of the `i`-th dotted numeral, 0 when it is missing. -/
def compValue (comps : List (List Char)) (i : Nat) : Int :=
  match comps[i]? with
  | some x => (digitsValue 10 x : Int)
  | none => 0

/-- The micro number of a letter: its 1-based position in the alphabet, 0 without letter. -/
def microValue (letter : Option Char) : Int :=
  match letter with
  | some ch => (ch.toNat : Int) - 97 + 1
  | none => 0

/-- The release-candidate number, 9 without `-rc` suffix. -/
def rcValue (rc : Option Nat) : Int :=
  match rc with
  | some n => (n : Int)
  | none => 9

/-- The decimal digits. -/
def decChars : List Char := "0123456789".toList

/-- The characters of dotted numerals followed by an optional lower-case letter. -/
def versionChar (c : Char) : Prop :=
  c ∈ decChars ∨ c = '.' ∨ ('a' ≤ c ∧ c ≤ 'z')

instance isNumeralDecidable (x : List Char) : Decidable (isNumeral x) := by
  unfold isNumeral
  infer_instance

/-! ## replace and findAndReplace -/

/-- Whether the characters of `pat` stand at the start of `s`. -/
def matchHere : List Char → List Char → Bool
  | [], _ => true
  | _ :: _, [] => false
  | p :: ps, x :: xs => decide (p = x) && matchHere ps xs

/-- Scan of `std::string::find(pat, ·)` (a string pattern) from index `k` on. -/
def findStrAux (pat : List Char) : List Char → Nat → Option Nat
  | [], k => if pat.isEmpty then some k else none
  | x :: xs, k => if matchHere pat (x :: xs) then some k else findStrAux pat xs (k + 1)

/-- The call `s.find(pat, pos)` for a string `pat`; `none` is `std::string::npos`. -/
def findStr (s pat : List Char) (pos : Nat) : Option Nat :=
  if pos > s.length then none else findStrAux pat (s.drop pos) pos

/-- The call `s.replace(pos, len, t)`: throws `out_of_range` when `pos > s.size()`. -/
def strReplace (s : List Char) (pos len : Nat) (t : List Char) : Option (List Char) :=
  if pos > s.length then none else some (s.take pos ++ t ++ s.drop (pos + len))

/-- The loop `while (true)` of `replace` on the variable `wip`; the first argument is the
fuel, and `none` is returned when the loop has not ended within it. -/
def replaceLoop (frm to' : List Char) : Nat → List Char → Option (List Char)
  | 0, _ => none
  | fuel + 1, wip =>
    -- const int pos = (int) wip.find(from); if (pos == -1) return wip;
    match findStr wip frm 0 with
    | none => some wip
    | some pos => (strReplace wip pos frm.length to').bind fun wip => replaceLoop frm to' fuel wip

/-- The function `replace(other, from, to)`, run with the given fuel. -/
def replace (fuel : Nat) (other frm to' : List Char) : Option (List Char) :=
  replaceLoop frm to' fuel other

/-- The loop of `findAndReplace` on the variables `destination` and `found_position`; the
first argument is the fuel, and `none` is returned when the loop has not ended within it. -/
def findAndReplaceLoop (find replace : List Char) : Nat → List Char → Nat → Option (List Char)
  | 0, _, _ => none
  | fuel + 1, destination, found_position =>
    match findStr destination find found_position with
    | none => some destination
    | some found_position =>
      (strReplace destination found_position find.length replace).bind fun destination =>
        -- Advanced pass the replaced string
        findAndReplaceLoop find replace fuel destination (found_position + replace.length)

/-- The function `findAndReplace(source, find, replace)`, run with the given fuel. -/
def findAndReplace (fuel : Nat) (source find replace : List Char) : Option (List Char) :=
  findAndReplaceLoop find replace fuel source 0

/-! ## getPath, getBasename, removeExtension and getExtension -/

/-- The loop `for(int i = int(filename.size()) - 1; i >= 0; --i)` of `getPath`; the
argument is `i + 1`, so `0` is the exit of the loop and the final `return ""`. -/
def getPathLoop (filename : List Char) : Nat → Option (List Char)
  | 0 => some []
  | i + 1 =>
    if charAt filename i = '/' ∨ charAt filename i = '\\' then substr filename 0 i
    else getPathLoop filename i

/-- The function `getPath(const std::string& filename)`. -/
def getPath (filename : List Char) : Option (List Char) :=
  getPathLoop filename filename.length

/-- The loop of `getBasename`; the argument is `i + 1`, and `0` is the final
`return filename`. -/
def getBasenameLoop (filename : List Char) : Nat → Option (List Char)
  | 0 => some filename
  | i + 1 =>
    if charAt filename i = '/' ∨ charAt filename i = '\\' then substrFrom filename (i + 1)
    else getBasenameLoop filename i

/-- The function `getBasename(const std::string& filename)`. -/
def getBasename (filename : List Char) : Option (List Char) :=
  getBasenameLoop filename filename.length

/-- The loop of `removeExtension`; the argument is `i + 1`, and `0` is the final
`return filename`. -/
def removeExtensionLoop (filename : List Char) : Nat → Option (List Char)
  | 0 => some filename
  | i + 1 =>
    if charAt filename i = '.' then substr filename 0 i
    else removeExtensionLoop filename i

/-- The function `removeExtension(const std::string& filename)`. -/
def removeExtension (filename : List Char) : Option (List Char) :=
  removeExtensionLoop filename filename.length

/-- The loop of `getExtension`; the argument is `i + 1`, and `0` is the final
`return filename`. -/
def getExtensionLoop (filename : List Char) : Nat → Option (List Char)
  | 0 => some filename
  | i + 1 =>
    if charAt filename i = '.' then substrFrom filename (i + 1)
    else getExtensionLoop filename i

/-- The function `getExtension(const std::string& filename)`. -/
def getExtension (filename : List Char) : Option (List Char) :=
  getExtensionLoop filename filename.length

/-! ## splitPath (a build without WIN32) -/

/-- The loop `while(dirs[i].size()>=1 && dirs[i][dirs[i].size()-1]=='/')` of `splitPath` on
the string `dirs[i]`; the first argument is the fuel. -/
def stripSlashLoop : Nat → List Char → Option (List Char)
  | 0, _ => none
  | fuel + 1, d =>
    if d.length ≥ 1 ∧ charAt d (d.length - 1) = '/' then
      (substr d 0 (d.length - 1)).bind fun d => stripSlashLoop fuel d
    else some d

/-- The loop `for(int i=(int)dirs.size()-1; i>=0; i--)` of `splitPath` on the vector
`dirs`; the first argument is `i + 1`. -/
def splitPathLoop : Nat → List (List Char) → Option (List (List Char))
  | 0, dirs => some dirs
  | i + 1, dirs =>
    (stripSlashLoop ((dirs.getD i []).length + 1) (dirs.getD i [])).bind fun d =>
      -- remove empty entries
      if d.length = 0 then splitPathLoop i (dirs.eraseIdx i)
      else splitPathLoop i (dirs.set i d)

/-- Modelled from the spec: the default value of the parameter `keepSplitChar` of split.
It stands in the declaration of split in string_utils.hpp, which is not among the sources;
the specification gives the signature as `split(text, delimiter, keepSplitChar=false)`. -/
def keepSplitCharDefault : Bool := false

/-- The function `splitPath(const std::string& path)` without the part under
`#ifdef WIN32`; the call `StringUtils::split(path,':')` takes the default value of the
third parameter. -/
def splitPath (path : List Char) : Option (List (List Char)) :=
  (split path ':' keepSplitCharDefault).bind fun dirs => splitPathLoop dirs.length dirs

/-! ## removeWhitespaces -/

/-- The loop `for (char ch : input)` of `removeWhitespaces` with its variable `out`. -/
def removeWhitespacesLoop : List Char → List Char → List Char
  | [], out => out
  | ch :: rest, out =>
    if ch = ' ' ∨ ch = '\t' ∨ ch = '\n' ∨ ch = '\r' then removeWhitespacesLoop rest out
    else removeWhitespacesLoop rest (out ++ [ch])

/-- The function `removeWhitespaces(const std::string& input)`. -/
def removeWhitespaces (input : List Char) : List Char :=
  removeWhitespacesLoop input []

/-! ### The vocabulary of the claims about these functions -/

/-- A path separator: `/` or `\`. -/
def isSeparator (c : Char) : Bool :=
  decide (c = '/' ∨ c = '\\')

/-- One of the four characters removeWhitespaces deletes. -/
def isBlank (c : Char) : Bool :=
  decide (c = ' ' ∨ c = '\t' ∨ c = '\n' ∨ c = '\r')

/-- The reference substitution, after the words of the specification: the text is scanned
from left to right; `skip` characters are still to be passed over; a character that does
not start an occurrence of `find` is copied, and at an occurrence `replace` is emitted and
the length of `find` is skipped. -/
def referenceSubstitution (find replace : List Char) : List Char → Nat → List Char
  | [], _ => []
  | _ :: xs, skip + 1 => referenceSubstitution find replace xs skip
  | x :: xs, 0 =>
    if matchHere find (x :: xs) then
      replace ++ referenceSubstitution find replace xs (find.length - 1)
    else x :: referenceSubstitution find replace xs 0

/-- A text in which no `&` is immediately followed by `#`. -/
def noEntityStart : List Char → Bool
  | x :: y :: rest => !(decide (x = '&' ∧ y = '#')) && noEntityStart (y :: rest)
  | _ => true

/-- A character of the ASCII range. -/
def isAscii (c : Char) : Bool :=
  decide (c.toNat < 128)

/-- The hexadecimal digits, in both cases of the letters. -/
def hexDigitChars : List Char := "0123456789abcdefABCDEF".toList

/-! ### The vocabulary of the claim about the order of version numbers -/

/-- The tuple (major, minor, patch, micro, rc) of a version string. -/
def versionTuple (comps : List (List Char)) (letter : Option Char) (rc : Option Nat) :
    List Int :=
  [compValue comps 0, compValue comps 1, compValue comps 2, microValue letter, rcValue rc]

/-- The strict lexicographic order of tuples of the same length. -/
def lexLess : List Int → List Int → Bool
  | x :: xs, y :: ys => decide (x < y) || (decide (x = y) && lexLess xs ys)
  | _, _ => false

/-- A version within the widths the weights leave room for: one to three dotted numerals,
minor and patch at most 99, no letter or a letter from `a` to `i`, no suffix or `-rc0` to
`-rc8`, and a weighted sum that fits in an `int`. -/
def withinWidths (comps : List (List Char)) (letter : Option Char) (rc : Option Nat) : Prop :=
  1 ≤ comps.length ∧ comps.length ≤ 3 ∧ (∀ x ∈ comps, isNumeral x)
    ∧ compValue comps 1 ≤ 99 ∧ compValue comps 2 ≤ 99
    ∧ (∀ ch ∈ letter, 'a' ≤ ch ∧ ch ≤ 'i') ∧ (∀ n ∈ rc, n ≤ 8)
    ∧ 1000000 * compValue comps 0 + 10000 * compValue comps 1 + 100 * compValue comps 2
        + 10 * microValue letter + rcValue rc < 2 ^ 31

instance withinWidthsDecidable (comps : List (List Char)) (letter : Option Char)
    (rc : Option Nat) : Decidable (withinWidths comps letter rc) := by
  unfold withinWidths
  infer_instance

/-! ## Lemmas: the split loop computes `fields` -/

theorem findAux_none_iff (c : Char) (xs : List Char) (k : Nat) :
    findAux c xs k = none ↔ c ∉ xs := by
  induction xs generalizing k with
  | nil => simp [findAux]
  | cons x xs ih =>
    by_cases h : x = c
    · simp [findAux, h]
    · simp [findAux, h, ih, Ne.symm h]

theorem findAux_some (c : Char) (xs : List Char) (k i : Nat) (h : findAux c xs k = some i) :
    ∃ a rest, xs = a ++ c :: rest ∧ c ∉ a ∧ i = k + a.length := by
  induction xs generalizing k with
  | nil => simp [findAux] at h
  | cons x xs ih =>
    by_cases hx : x = c
    · simp [findAux, hx] at h
      exact ⟨[], xs, by simp [hx], by simp, by simp [h]⟩
    · simp [findAux, hx] at h
      obtain ⟨a, rest, h1, h2, h3⟩ := ih (k + 1) h
      refine ⟨x :: a, rest, by simp [h1], ?_, by simp [h3]; omega⟩
      simp [h2, Ne.symm hx]

theorem fieldsGo_notin {α : Type} [DecidableEq α] (c : α) (keep : Bool) (a cur : List α)
    (h : c ∉ a) : fieldsGo c keep a cur = [cur ++ a] := by
  induction a generalizing cur with
  | nil => simp [fieldsGo]
  | cons x xs ih =>
    have hx : x ≠ c := fun e => h (by simp [e])
    have hxs : c ∉ xs := fun e => h (by simp [e])
    simp [fieldsGo, hx, ih _ hxs]

theorem fieldsGo_append {α : Type} [DecidableEq α] (c : α) (keep : Bool) (a rest cur : List α)
    (h : c ∉ a) :
    fieldsGo c keep (a ++ c :: rest) cur
      = (cur ++ a) :: (if rest.isEmpty then [] else fieldsGo c keep rest (if keep then [c] else [])) := by
  induction a generalizing cur with
  | nil => simp [fieldsGo]
  | cons x xs ih =>
    have hx : x ≠ c := fun e => h (by simp [e])
    have hxs : c ∉ xs := fun e => h (by simp [e])
    simp [fieldsGo, hx, ih _ hxs]

theorem fieldsGo_ne_nil {α : Type} [DecidableEq α] (c : α) (keep : Bool) (xs cur : List α) :
    fieldsGo c keep xs cur ≠ [] := by
  induction xs generalizing cur with
  | nil => simp [fieldsGo]
  | cons x xs ih =>
    by_cases hx : x = c
    · simp [fieldsGo, hx]
    · simp [fieldsGo, hx, ih]

theorem splitLoop_eq (s : List Char) (c : Char) (keep : Bool) (fuel start : Nat)
    (result : List (List Char)) (hle : start ≤ s.length) (hfuel : s.length - start < fuel)
    (hprev : start ≠ 0 → s.drop (start - 1) = c :: s.drop start) :
    splitLoop s c keep fuel start result
      = some (result ++ (if (s.drop start).isEmpty then []
          else fieldsGo c keep (s.drop start) (if keep && start != 0 then [c] else []))) := by
  induction fuel generalizing start result with
  | zero => omega
  | succ fuel ih =>
    unfold splitLoop
    by_cases hlt : start < s.length
    · have hne : (s.drop start).isEmpty = false := by
        cases hd : s.drop start with
        | nil => simp at hd; omega
        | cons _ _ => rfl
      rw [if_pos hlt, hne]
      simp only [Bool.false_eq_true, if_false]
      cases hf : find s c start with
      | none =>
        have hnot : c ∉ s.drop start := (findAux_none_iff c _ start).1 hf
        rw [fieldsGo_notin c keep _ _ hnot]
        by_cases hk : (keep && start != 0) = true
        · have hs0 : start ≠ 0 := by simpa using (Bool.and_eq_true_iff.1 hk).2
          simp only [hk, if_true]
          simp [substrFrom, hprev hs0]
          omega
        · simp only [hk, if_false, Bool.false_eq_true]
          simp [substrFrom]
          omega
      | some i =>
        obtain ⟨a, rest, h1, h2, h3⟩ := findAux_some c _ start i hf
        have hlen : s.length - start = a.length + 1 + rest.length := by
          have := congrArg List.length h1
          simp at this
          omega
        have hdi : s.drop i = c :: rest := by
          rw [h3, ← List.drop_drop, h1]
          simp
        have hdi1 : s.drop (i + 1) = rest := by
          rw [← List.drop_drop, hdi]
          simp
        have hnext := fun r => ih (i + 1) r (by omega) (by omega) (by simpa [hdi1] using hdi)
        simp only [hdi1] at hnext
        rw [h1, fieldsGo_append c keep a rest _ h2]
        have hi1 : (i + 1 != 0) = true := by simp
        simp only [hi1, Bool.and_true] at hnext
        cases keep with
        | false =>
          simp only [Bool.false_eq_true, if_false, Bool.false_and]
          have hsub : substr s start (i - start) = some a := by
            simp [substr, h1, h3]
            omega
          rw [hsub]
          simp only [Option.bind, hnext]
          simp
        | true =>
          simp only [if_true, Bool.true_and]
          by_cases hs0 : start = 0
          · subst hs0
            have hsub : substr s (0 - 1) (i - (0 - 1)) = some a := by
              simp at h1
              simp [substr, h1, h3]
            rw [hsub]
            simp only [Option.bind, hnext]
            simp
          · have hsub : substr s (start - 1) (i - (start - 1)) = some (c :: a) := by
              have hi : i - (start - 1) = a.length + 1 := by omega
              simp [substr, hprev hs0, h1, hi]
              omega
            rw [hsub]
            simp only [Option.bind, hnext]
            simp [hs0]
    · rw [if_neg hlt]
      have : s.drop start = [] := by simp; omega
      simp [this]

theorem split_eq_fields (s : List Char) (c : Char) (keep : Bool) :
    split s c keep = some (fields c keep s) := by
  unfold split fields
  rw [splitLoop_eq s c keep (s.length + 1) 0 [] (by omega) (by omega) (by simp)]
  simp

/-! ## Lemmas: rejoining the segments -/

theorem fieldsGo_cons_eq {α : Type} [DecidableEq α] (c : α) (keep : Bool) (y : α)
    (ys cur : List α) :
    fieldsGo c keep (c :: y :: ys) cur
      = cur :: fieldsGo c keep (y :: ys) (if keep then [c] else []) := by
  rw [fieldsGo]
  simp

theorem fieldsGo_cons_ne {α : Type} [DecidableEq α] (c : α) (keep : Bool) (x : α)
    (xs cur : List α) (hx : x ≠ c) :
    fieldsGo c keep (x :: xs) cur = fieldsGo c keep xs (cur ++ [x]) := by
  rw [fieldsGo]
  simp [hx]

theorem getLast?_tail_ne {α : Type} (c x y : α) (ys : List α)
    (h : (x :: y :: ys).getLast? ≠ some c) : (y :: ys).getLast? ≠ some c := by
  simpa [List.getLast?_cons_cons] using h

theorem fieldsGo_flatten {α : Type} [DecidableEq α] (c : α) (xs cur : List α)
    (h : xs.getLast? ≠ some c) : (fieldsGo c true xs cur).flatten = cur ++ xs := by
  induction xs generalizing cur with
  | nil => simp [fieldsGo]
  | cons x xs ih =>
    cases xs with
    | nil =>
      have hx : x ≠ c := by simpa using h
      simp [fieldsGo, hx]
    | cons y ys =>
      have h2 := getLast?_tail_ne c x y ys h
      by_cases hx : x = c
      · subst hx
        rw [fieldsGo_cons_eq, List.flatten_cons, ih _ h2]
        simp
      · rw [fieldsGo_cons_ne _ _ _ _ _ hx, ih _ h2]
        simp

theorem fieldsGo_intercalate {α : Type} [DecidableEq α] (c : α) (xs cur : List α)
    (h : xs.getLast? ≠ some c) : List.intercalate [c] (fieldsGo c false xs cur) = cur ++ xs := by
  induction xs generalizing cur with
  | nil => simp [fieldsGo, List.intercalate]
  | cons x xs ih =>
    cases xs with
    | nil =>
      have hx : x ≠ c := by simpa using h
      simp [fieldsGo, hx, List.intercalate]
    | cons y ys =>
      have h2 := getLast?_tail_ne c x y ys h
      by_cases hx : x = c
      · subst hx
        have hrec := ih [] h2
        rw [fieldsGo_cons_eq]
        simp only [Bool.false_eq_true, if_false]
        cases hf : fieldsGo x false (y :: ys) [] with
        | nil => exact absurd hf (fieldsGo_ne_nil _ _ _ _)
        | cons f fs =>
          rw [hf] at hrec
          simp only [List.intercalate, List.intersperse, List.flatten_cons] at hrec ⊢
          rw [hrec]
          simp
      · rw [fieldsGo_cons_ne _ _ _ _ _ hx, ih _ h2]
        simp

theorem fields_flatten {α : Type} [DecidableEq α] (c : α) (s : List α)
    (h : s.getLast? ≠ some c) : (fields c true s).flatten = s := by
  cases s with
  | nil => simp [fields]
  | cons x xs => simpa [fields] using fieldsGo_flatten c (x :: xs) [] h

theorem fields_intercalate {α : Type} [DecidableEq α] (c : α) (s : List α)
    (h : s.getLast? ≠ some c) : List.intercalate [c] (fields c false s) = s := by
  cases s with
  | nil => simp [fields, List.intercalate]
  | cons x xs => simpa [fields] using fieldsGo_intercalate c (x :: xs) [] h

/-! ## Lemmas: the insertValues loop, segment by segment -/

theorem charAt_one_length (seg : List Char) (h : charAt seg 1 ≠ Char.ofNat 0) :
    2 ≤ seg.length := by
  match seg with
  | [] => simp [charAt] at h
  | [_] => simp [charAt] at h
  | _ :: _ :: _ => simp

theorem substrFrom_two (seg : List Char) (h : charAt seg 1 ≠ Char.ofNat 0) :
    substrFrom seg 2 = some (seg.drop 2) := by
  have := charAt_one_length seg h
  simp [substrFrom]
  omega

theorem insertValuesLoop_eq_outs (all_vals : List (List Char)) (segs : List (List Char))
    (k : Nat) (acc : List Char) :
    insertValuesLoop all_vals segs k acc = some (acc ++ (outs all_vals segs k).flatten) := by
  induction segs generalizing k acc with
  | nil => simp [insertValuesLoop, outs]
  | cons seg rest ih =>
    unfold insertValuesLoop
    by_cases h0 : charAt seg 0 = '%'
    · by_cases h1 : charAt seg 1 = 's' ∨ charAt seg 1 = 'd' ∨ charAt seg 1 = 'i'
          ∨ charAt seg 1 = 'f'
      · have hp : isPositional seg = true := by simp [isPositional, h0, h1]
        have hsub : substrFrom seg 2 = some (seg.drop 2) := by
          apply substrFrom_two
          rcases h1 with h | h | h | h <;> rw [h] <;> decide
        by_cases hk : k ≥ all_vals.length
        · simp [h0, h1, hk, hsub, ih, outs, segOut, hp]
        · simp [h0, h1, hk, hsub, ih, outs, segOut, hp]
      · have hp : isPositional seg = false := by simp [isPositional, h0, h1]
        by_cases h2 : '0' ≤ charAt seg 1 ∧ charAt seg 1 ≤ '9'
        · have hi : isIndexed seg = true := by simp [isIndexed, h0, h2]
          have hsub : substrFrom seg 2 = some (seg.drop 2) := by
            apply substrFrom_two
            intro h
            rw [h] at h2
            exact absurd h2.1 (by decide)
          simp only [h0, h1, h2, hsub, ih, outs, segOut, hp, hi, indexOfSeg, ne_eq,
            not_true_eq_false, if_false, if_true, and_self, Option.bind, Bool.false_eq_true,
            List.flatten_cons, List.append_assoc]
          split <;> rfl
        · have hi : isIndexed seg = false := by simp [isIndexed, h0, h2]
          simp [h0, h1, h2, ih, outs, segOut, hp, hi]
    · have hp : isPositional seg = false := by simp [isPositional, h0]
      have hi : isIndexed seg = false := by simp [isIndexed, h0]
      simp [h0, ih, outs, segOut, hp, hi]

theorem insertValues_eq_outs (s : List Char) (all_vals : List (List Char)) :
    insertValues s all_vals = some (outs all_vals (fields '%' true s) 0).flatten := by
  simp [insertValues, split_eq_fields, insertValuesLoop_eq_outs]


theorem outs_append (all_vals : List (List Char)) (A B : List (List Char)) (k : Nat) :
    outs all_vals (A ++ B) k
      = outs all_vals A k ++ outs all_vals B (k + A.countP isPositional) := by
  induction A generalizing k with
  | nil => simp [outs]
  | cons seg rest ih =>
    by_cases hp : isPositional seg = true
    · simp [outs, hp, ih, List.countP_cons]
      congr 1
      omega
    · simp [outs, hp, ih, List.countP_cons]

theorem outs_length (all_vals : List (List Char)) (segs : List (List Char)) (k : Nat) :
    (outs all_vals segs k).length = segs.length := by
  induction segs generalizing k with
  | nil => simp [outs]
  | cons seg rest ih => simp [outs, ih]

theorem outs_get? (all_vals : List (List Char)) (segs : List (List Char)) (k i : Nat)
    (seg : List Char) (h : segs[i]? = some seg) :
    (outs all_vals segs k)[i]? = some (segOut all_vals (k + turn segs i) seg) := by
  induction segs generalizing k i with
  | nil => simp at h
  | cons s0 rest ih =>
    cases i with
    | zero =>
      simp at h
      simp [outs, turn, h]
    | succ j =>
      simp at h
      have := ih (if isPositional s0 then k + 1 else k) j h
      simp only [outs, List.getElem?_cons_succ, this]
      by_cases hp : isPositional s0 = true
      · simp [turn, hp, List.countP_cons]
        congr 1
        omega
      · simp [turn, hp, List.countP_cons]

theorem segOut_literal (all_vals : List (List Char)) (k : Nat) (seg : List Char)
    (h : charAt seg 0 ≠ '%') : segOut all_vals k seg = seg := by
  simp [segOut, isPositional, isIndexed, h]

theorem charAt_zero_of_notin (L : List Char) (h : '%' ∉ L) : charAt L 0 ≠ '%' := by
  cases L with
  | nil => simp [charAt]
  | cons x xs =>
    have : x ≠ '%' := fun e => h (by simp [e])
    simpa [charAt] using this

theorem fields_of_notin {α : Type} [DecidableEq α] (c : α) (keep : Bool) (L : List α)
    (h : c ∉ L) : (fields c keep L).flatten = L ∧ ∀ seg ∈ fields c keep L, seg = L := by
  cases L with
  | nil => simp [fields]
  | cons x xs => simp [fields, fieldsGo_notin c keep (x :: xs) [] h]

theorem fieldsGo_append_of_last {α : Type} [DecidableEq α] (c : α) (keep : Bool)
    (P rest cur : List α) (h : P.getLast? ≠ some c) :
    fieldsGo c keep (P ++ c :: rest) cur
      = fieldsGo c keep P cur
        ++ (if rest.isEmpty then [] else fieldsGo c keep rest (if keep then [c] else [])) := by
  induction P generalizing cur with
  | nil => simp [fieldsGo]
  | cons x xs ih =>
    cases xs with
    | nil =>
      have hx : x ≠ c := by simpa using h
      rw [fieldsGo_cons_ne _ _ _ _ _ hx]
      simp [fieldsGo, hx]
    | cons y ys =>
      have h2 := getLast?_tail_ne c x y ys h
      by_cases hx : x = c
      · subst hx
        rw [List.cons_append, List.cons_append, fieldsGo_cons_eq, fieldsGo_cons_eq,
          ← List.cons_append, ih _ h2]
        simp
      · rw [List.cons_append, fieldsGo_cons_ne _ _ _ _ _ hx, fieldsGo_cons_ne _ _ _ _ _ hx,
          ih _ h2]

/-- The segments of a template that continues with one more `%`-segment. -/
theorem outs_fields_snoc (all_vals : List (List Char)) (P R : List Char) (x : Char)
    (hP : P.getLast? ≠ some '%') (hx : x ≠ '%') (hR : '%' ∉ R) :
    (outs all_vals (fields '%' true (P ++ '%' :: x :: R)) 0).flatten
      = (outs all_vals (fields '%' true P) 0).flatten
        ++ segOut all_vals ((fields '%' true P).countP isPositional) ('%' :: x :: R) := by
  have hxR : '%' ∉ x :: R := by
    intro h
    rcases List.mem_cons.1 h with h | h
    · exact hx h.symm
    · exact hR h
  cases P with
  | nil =>
    simp only [List.nil_append, fields, List.isEmpty_cons, Bool.false_eq_true, if_false,
      List.isEmpty_nil, if_true]
    rw [show ('%' :: x :: R) = [] ++ '%' :: (x :: R) by rfl, fieldsGo_append '%' true [] _ _ (by simp),
      fieldsGo_notin '%' true _ _ hxR]
    simp [outs, segOut_literal, charAt, isPositional]
  | cons p ps =>
    simp only [List.cons_append, fields, List.isEmpty_cons, Bool.false_eq_true, if_false]
    rw [← List.cons_append, fieldsGo_append_of_last '%' true _ _ _ hP,
      fieldsGo_notin '%' true _ _ hxR, outs_append]
    simp [outs]

theorem segOut_indexed (all_vals : List (List Char)) (k : Nat) (dc : Char) (R : List Char)
    (hd : '0' ≤ dc ∧ dc ≤ '9') (hlen : dc.toNat - ('0').toNat < all_vals.length) :
    segOut all_vals k ('%' :: dc :: R) = all_vals.getD (dc.toNat - ('0').toNat) [] ++ R := by
  have hp : isPositional ('%' :: dc :: R) = false := by
    simp only [isPositional, charAt, List.getD_cons_zero, List.getD_cons_succ, true_and,
      decide_eq_false_iff_not]
    rintro (h | h | h | h) <;> rw [h] at hd <;> exact absurd hd.2 (by decide)
  have hi : isIndexed ('%' :: dc :: R) = true := by
    simp [isIndexed, charAt, hd]
  have hnot : ¬ indexOfSeg ('%' :: dc :: R) ≥ all_vals.length := by
    simp only [indexOfSeg, charAt, List.getD_cons_zero, List.getD_cons_succ]
    omega
  simp only [segOut, hp, hi, hnot, if_false, if_true, Bool.false_eq_true]
  simp [indexOfSeg, charAt]

theorem digit_ne_percent (dc : Char) (hd : '0' ≤ dc ∧ dc ≤ '9') : dc ≠ '%' := by
  intro h
  rw [h] at hd
  exact absurd hd.1 (by decide)

theorem insertValues_literal (L : List Char) (all_vals : List (List Char)) (h : '%' ∉ L) :
    insertValues L all_vals = some L := by
  rw [insertValues_eq_outs]
  cases L with
  | nil => simp [fields, outs]
  | cons x xs =>
    simp only [fields, List.isEmpty_cons, Bool.false_eq_true, if_false,
      fieldsGo_notin '%' true (x :: xs) [] h]
    simp [outs, segOut_literal _ _ _ (charAt_zero_of_notin _ h)]


/-! ## Lemmas: templates made of `%s` placeholders -/

theorem fieldsGo_template (Ls : List (List Char)) (X cur : List Char) (hX : '%' ∉ X)
    (hLs : ∀ L ∈ Ls, '%' ∉ L) :
    fieldsGo '%' true (X ++ (Ls.map fun L => '%' :: 's' :: L).flatten) cur
      = (cur ++ X) :: Ls.map fun L => '%' :: 's' :: L := by
  induction Ls generalizing X cur with
  | nil => simp [fieldsGo_notin '%' true X cur hX]
  | cons L Ls ih =>
    have hL : '%' ∉ 's' :: L := by
      intro h
      rcases List.mem_cons.1 h with h | h
      · exact absurd h (by decide)
      · exact hLs L (by simp) h
    have hrest : ∀ M ∈ Ls, '%' ∉ M := fun M hM => hLs M (by simp [hM])
    have hstep := ih ('s' :: L) ['%'] hL hrest
    simp only [List.map_cons, List.flatten_cons, List.cons_append] at hstep ⊢
    rw [fieldsGo_append '%' true X _ cur hX]
    simp only [List.isEmpty_cons, Bool.false_eq_true, if_false, if_true]
    rw [hstep]
    simp

theorem outs_template (Ls vs pre : List (List Char)) (h : vs.length = Ls.length) :
    (outs (pre ++ vs) (Ls.map fun L => '%' :: 's' :: L) pre.length).flatten
      = (List.zipWith (fun v L => v ++ L) vs Ls).flatten := by
  induction Ls generalizing vs pre with
  | nil => simp [outs]
  | cons L Ls ih =>
    cases vs with
    | nil => simp at h
    | cons v vs =>
      have hlen : vs.length = Ls.length := by simpa using h
      have hp : isPositional ('%' :: 's' :: L) = true := by simp [isPositional, charAt]
      have hrec := ih vs (pre ++ [v]) hlen
      simp only [List.append_assoc, List.singleton_append, List.length_append,
        List.length_singleton] at hrec
      simp only [List.map_cons, outs, hp, if_true, List.flatten_cons, List.zipWith_cons_cons,
        hrec, segOut]
      simp
      rw [List.getElem_append_right (Nat.le_refl _)]
      simp


/-! ## Lemmas: templates without placeholders -/

theorem fieldsGo_infix {α : Type} [DecidableEq α] (c : α) (keep : Bool) (xs cur seg : List α)
    (h : seg ∈ fieldsGo c keep xs cur) : ∃ pre post, cur ++ xs = pre ++ seg ++ post := by
  induction xs generalizing cur with
  | nil =>
    simp only [fieldsGo, List.mem_singleton] at h
    exact ⟨[], [], by simp [h]⟩
  | cons x xs ih =>
    by_cases hx : x = c
    · subst hx
      cases xs with
      | nil =>
        simp only [fieldsGo, if_true, List.isEmpty_nil, List.mem_singleton] at h
        exact ⟨[], [x], by simp [h]⟩
      | cons y ys =>
        rw [fieldsGo_cons_eq] at h
        rcases List.mem_cons.1 h with h | h
        · exact ⟨[], x :: y :: ys, by simp [h]⟩
        · obtain ⟨pre, post, hpp⟩ := ih _ h
          cases keep with
          | true =>
            simp only [if_true, List.singleton_append] at hpp
            exact ⟨cur ++ pre, post, by simp [hpp]⟩
          | false =>
            simp only [Bool.false_eq_true, if_false, List.nil_append] at hpp
            exact ⟨cur ++ x :: pre, post, by simp [hpp]⟩
    · rw [fieldsGo_cons_ne _ _ _ _ _ hx] at h
      obtain ⟨pre, post, hpp⟩ := ih _ h
      exact ⟨pre, post, by simpa using hpp⟩

theorem fields_infix {α : Type} [DecidableEq α] (c : α) (keep : Bool) (s seg : List α)
    (h : seg ∈ fields c keep s) : ∃ pre post, s = pre ++ seg ++ post := by
  cases s with
  | nil => simp [fields] at h
  | cons x xs =>
    simp only [fields, List.isEmpty_cons, Bool.false_eq_true, if_false] at h
    simpa using fieldsGo_infix c keep (x :: xs) [] seg h

theorem outs_of_literal (all_vals : List (List Char)) (segs : List (List Char)) (k : Nat)
    (h : ∀ seg ∈ segs, isPositional seg = false ∧ isIndexed seg = false) :
    outs all_vals segs k = segs := by
  induction segs generalizing k with
  | nil => simp [outs]
  | cons seg rest ih =>
    have h1 := h seg (by simp)
    have h2 : ∀ t ∈ rest, isPositional t = false ∧ isIndexed t = false :=
      fun t ht => h t (by simp [ht])
    simp [outs, segOut, h1.1, h1.2, ih _ h2]

theorem seg_shape (seg : List Char) (h0 : charAt seg 0 = '%')
    (h1 : charAt seg 1 ≠ Char.ofNat 0) : ∃ rest, seg = '%' :: charAt seg 1 :: rest := by
  match seg with
  | [] => simp [charAt] at h1
  | [_] => simp [charAt] at h1
  | a :: b :: rest =>
    simp only [charAt, List.getD_cons_zero] at h0
    exact ⟨rest, by simp [charAt, h0]⟩

/-- A template without placeholder that does not end in `%` is returned unchanged. -/
theorem insertValues_no_placeholder (s : List Char) (all_vals : List (List Char))
    (hno : ∀ (pre post : List Char) (x : Char), s = pre ++ '%' :: x :: post →
      ¬ (x = 's' ∨ x = 'd' ∨ x = 'i' ∨ x = 'f' ∨ ('0' ≤ x ∧ x ≤ '9')))
    (hlast : s.getLast? ≠ some '%') :
    insertValues s all_vals = some s := by
  rw [insertValues_eq_outs, outs_of_literal, fields_flatten '%' s hlast]
  intro seg hseg
  obtain ⟨pre, post, hs⟩ := fields_infix '%' true s seg hseg
  constructor
  · simp only [isPositional, decide_eq_false_iff_not, not_and]
    intro h0 h1
    have hnz : charAt seg 1 ≠ Char.ofNat 0 := by
      rcases h1 with h | h | h | h <;> rw [h] <;> decide
    obtain ⟨rest, hrest⟩ := seg_shape seg h0 hnz
    refine hno pre (rest ++ post) (charAt seg 1) ?_ ?_
    · rw [hs]
      nth_rewrite 1 [hrest]
      simp
    · rcases h1 with h | h | h | h <;> simp [h]
  · simp only [isIndexed, decide_eq_false_iff_not, not_and]
    intro h0 h1 h2
    have hnz : charAt seg 1 ≠ Char.ofNat 0 := by
      intro h
      rw [h] at h1
      exact absurd h1 (by decide)
    obtain ⟨rest, hrest⟩ := seg_shape seg h0 hnz
    refine hno pre (rest ++ post) (charAt seg 1) ?_ ?_
    · rw [hs]
      nth_rewrite 1 [hrest]
      simp
    · exact Or.inr (Or.inr (Or.inr (Or.inr ⟨h1, h2⟩)))


/-! ## Lemmas: the wide split loop computes `fields` -/

theorem findNextAux_notin (c : Int) (xs : List Int) (k : Nat) (h : c ∉ xs) :
    findNextAux c xs k = -1 := by
  induction xs generalizing k with
  | nil => simp [findNextAux]
  | cons x xs ih =>
    have hx : x ≠ c := fun e => h (by simp [e])
    have hxs : c ∉ xs := fun e => h (by simp [e])
    simp [findNextAux, hx, ih _ hxs]

theorem findNextAux_mem (c : Int) (xs : List Int) (k : Nat) (h : c ∈ xs) :
    ∃ a rest, xs = a ++ c :: rest ∧ c ∉ a ∧ findNextAux c xs k = ((k + a.length : Nat) : Int) := by
  induction xs generalizing k with
  | nil => simp at h
  | cons x xs ih =>
    by_cases hx : x = c
    · exact ⟨[], xs, by simp [hx], by simp, by simp [findNextAux, hx]⟩
    · have hmem : c ∈ xs := by
        rcases List.mem_cons.1 h with h | h
        · exact absurd h.symm hx
        · exact h
      obtain ⟨a, rest, h1, h2, h3⟩ := ih (k + 1) hmem
      refine ⟨x :: a, rest, by simp [h1], ?_, ?_⟩
      · simp [h2, Ne.symm hx]
      · simp only [findNextAux, hx, if_false, h3, List.length_cons]
        congr 1
        omega

theorem subString_eq (s : List Int) (b n : Nat) (hb : b < s.length ∨ n = 0) :
    subString s b (n : Int) = (s.drop b).take n := by
  unfold subString
  by_cases hn : n = 0
  · simp [hn]
  · have hb2 : b < s.length := by omega
    have h1 : ¬ ((n : Int) ≤ 0 ∨ b ≥ s.length) := by omega
    simp [h1]

theorem splitWLoop_eq (s : List Int) (c : Char) (keep : Bool) (fuel start : Nat)
    (result : List (List Int)) (hle : start ≤ s.length) (hfuel : s.length - start < fuel)
    (hprev : start ≠ 0 → s.drop (start - 1) = wch c :: s.drop start) :
    splitWLoop s c keep fuel start result
      = some (result ++ (if (s.drop start).isEmpty then []
          else fieldsGo (wch c) keep (s.drop start) (if keep && start != 0 then [wch c] else []))) := by
  induction fuel generalizing start result with
  | zero => omega
  | succ fuel ih =>
    unfold splitWLoop
    by_cases hlt : start < s.length
    · have hne : (s.drop start).isEmpty = false := by
        cases hd : s.drop start with
        | nil => simp at hd; omega
        | cons _ _ => rfl
      rw [if_pos hlt, hne]
      simp only [Bool.false_eq_true, if_false]
      by_cases hmem : wch c ∈ s.drop start
      · obtain ⟨a, rest, h1, h2, h3⟩ := findNextAux_mem (wch c) _ start hmem
        have hfn : findNext s (wch c) start = ((start + a.length : Nat) : Int) := h3
        have hlen : s.length - start = a.length + 1 + rest.length := by
          have := congrArg List.length h1
          simp at this
          omega
        have hdi : s.drop (start + a.length) = wch c :: rest := by
          rw [← List.drop_drop, h1]
          simp
        have hdi1 : s.drop (start + a.length + 1) = rest := by
          rw [← List.drop_drop, hdi]
          simp
        have hnext := fun r => ih (start + a.length + 1) r (by omega) (by omega)
          (by simpa [hdi1] using hdi)
        simp only [hdi1] at hnext
        have hi1 : (start + a.length + 1 != 0) = true := by simp
        simp only [hi1, Bool.and_true] at hnext
        have hne1 : ((start + a.length : Nat) : Int) ≠ -1 := by omega
        have htn : (((start + a.length : Nat) : Int) + 1).toNat = start + a.length + 1 := by omega
        rw [h1, fieldsGo_append (wch c) keep a rest _ h2]
        simp only [hfn, hne1, ne_eq, not_false_eq_true, if_true, htn]
        cases keep with
        | false =>
          simp only [Bool.false_eq_true, if_false, Bool.false_and]
          have hsub : subString s start (((start + a.length : Nat) : Int) - (start : Int)) = a := by
            have : ((start + a.length : Nat) : Int) - (start : Int) = (a.length : Int) := by omega
            rw [this, subString_eq s start a.length (Or.inl hlt), h1]
            simp
          rw [hsub, hnext]
          simp
        | true =>
          simp only [if_true, Bool.true_and]
          by_cases hs0 : start = 0
          · subst hs0
            have hsub : subString s (0 - 1) (((0 + a.length : Nat) : Int) - ((0 - 1 : Nat) : Int)) = a := by
              have : ((0 + a.length : Nat) : Int) - ((0 - 1 : Nat) : Int) = (a.length : Int) := by
                simp
              simp only [List.drop_zero] at h1
              rw [this, subString_eq s (0 - 1) a.length (Or.inl (by omega)), h1]
              simp
            rw [hsub, hnext]
            simp
          · have hsub : subString s (start - 1)
                (((start + a.length : Nat) : Int) - ((start - 1 : Nat) : Int)) = wch c :: a := by
              have : ((start + a.length : Nat) : Int) - ((start - 1 : Nat) : Int)
                  = ((a.length + 1 : Nat) : Int) := by omega
              rw [this, subString_eq s (start - 1) (a.length + 1) (Or.inl (by omega)),
                hprev hs0, h1]
              simp
            rw [hsub, hnext]
            simp [hs0]
      · have hfn : findNext s (wch c) start = -1 := findNextAux_notin (wch c) _ start hmem
        rw [fieldsGo_notin (wch c) keep _ _ hmem]
        simp only [hfn, ne_eq, not_true_eq_false, if_false]
        by_cases hk : (keep && start != 0) = true
        · have hs0 : start ≠ 0 := by simpa using (Bool.and_eq_true_iff.1 hk).2
          simp only [hk, if_true]
          have : (s.length : Int) - (start : Int) + 1 = ((s.length - start + 1 : Nat) : Int) := by
            omega
          rw [this, subString_eq s (start - 1) _ (Or.inl (by omega)), hprev hs0]
          have hl : (s.drop start).length = s.length - start := by simp
          rw [List.take_of_length_le (by simp)]
          simp
        · simp only [hk, if_false, Bool.false_eq_true]
          have : (s.length : Int) - (start : Int) = ((s.length - start : Nat) : Int) := by omega
          rw [this, subString_eq s start _ (Or.inl hlt)]
          rw [List.take_of_length_le (by simp)]
          simp
    · rw [if_neg hlt]
      have : s.drop start = [] := by simp; omega
      simp [this]

theorem splitW_eq_fields (s : List Int) (c : Char) (keep : Bool) :
    splitW s c keep = some (fields (wch c) keep s) := by
  unfold splitW fields
  rw [splitWLoop_eq s c keep (s.length + 1) 0 [] (by omega) (by omega) (by simp)]
  simp


/-! ## Lemmas: the wide insertValues on widened text -/

theorem char_le_iff (a b : Char) : a ≤ b ↔ a.toNat ≤ b.toNat := by
  rw [Char.le_def, UInt32.le_def, BitVec.le_def]
  rfl

theorem char_toNat_inj (x y : Char) (h : x.toNat = y.toNat) : x = y := by
  rw [← Char.ofNat_toNat x, ← Char.ofNat_toNat y, h]

theorem wch_inj (x y : Char) : wch x = wch y ↔ x = y := by
  constructor
  · intro h
    apply char_toNat_inj
    simpa [wch] using h
  · intro h
    rw [h]

theorem widen_append (a b : List Char) : widen (a ++ b) = widen a ++ widen b := by
  simp [widen]

theorem wcharAt_widen (seg : List Char) (i : Nat) :
    wcharAt (widen seg) i = wch (charAt seg i) := by
  simp only [wcharAt, widen, charAt, List.getD_eq_getElem?_getD, List.getElem?_map]
  cases seg[i]? with
  | none => rfl
  | some x => rfl

theorem isdigit_wch (x : Char) : isdigit (wch x) = decide ('0' ≤ x ∧ x ≤ '9') := by
  simp only [isdigit, wch, char_le_iff]
  congr 1
  simp

theorem subString_widen_drop (seg : List Char) (n : Nat) :
    subString (widen seg) n (((widen seg).length : Int) - (n : Int)) = widen (seg.drop n) := by
  unfold subString
  have hl : (widen seg).length = seg.length := by simp [widen]
  by_cases h : seg.length ≤ n
  · have h1 : (((widen seg).length : Int) - (n : Int) ≤ 0 ∨ n ≥ (widen seg).length) := by
      right
      omega
    rw [if_pos h1, List.drop_eq_nil_of_le h]
    rfl
  · have h1 : ¬ (((widen seg).length : Int) - (n : Int) ≤ 0 ∨ n ≥ (widen seg).length) := by
      omega
    rw [if_neg h1, List.take_of_length_le]
    · simp [widen]
    · simp only [List.length_drop]
      omega

theorem c_str_widen (v : List Char) (h : ∀ ch ∈ v, 0 < ch.toNat) : c_str (widen v) = widen v := by
  unfold c_str widen
  rw [List.takeWhile_eq_self_iff]
  intro x hx
  obtain ⟨ch, hch, rfl⟩ := List.mem_map.1 hx
  have := h ch hch
  simp only [wch, ne_eq, decide_eq_true_eq]
  omega

theorem getD_map_widen (vals : List (List Char)) (i : Nat) :
    (vals.map widen).getD i [] = widen (vals.getD i []) := by
  simp only [List.getD_eq_getElem?_getD, List.getElem?_map]
  cases vals[i]? with
  | none => rfl
  | some x => rfl

theorem insertValuesWLoop_widen (vals segs : List (List Char)) (k : Nat) (acc : List Char)
    (hv : ∀ v ∈ vals, ∀ ch ∈ v, 0 < ch.toNat) (hseg : ∀ seg ∈ segs, ¬ dollarForm seg) :
    insertValuesWLoop (vals.map widen) (segs.map widen) k (widen acc)
      = widen (acc ++ (outs vals segs k).flatten) := by
  induction segs generalizing k acc with
  | nil => simp [insertValuesWLoop, outs]
  | cons seg rest ih =>
    have hrest : ∀ t ∈ rest, ¬ dollarForm t := fun t ht => hseg t (by simp [ht])
    have hnd := hseg seg (by simp)
    have hlenw : (widen seg).length = seg.length := by simp [widen]
    simp only [List.map_cons, insertValuesWLoop, wcharAt_widen, wch_inj, isdigit_wch,
      List.length_map, ne_eq]
    by_cases h0 : charAt seg 0 = '%'
    · by_cases h1 : charAt seg 1 = 's' ∨ charAt seg 1 = 'd' ∨ charAt seg 1 = 'i'
          ∨ charAt seg 1 = 'f'
      · have hp : isPositional seg = true := by simp [isPositional, h0, h1]
        have hsub := subString_widen_drop seg 2
        simp only [Nat.cast_ofNat, hlenw] at hsub
        simp only [h0, not_true_eq_false, if_false, h1, if_true, hlenw, hsub]
        by_cases hk : k ≥ vals.length
        · simp only [hk, if_true, ← widen_append, ih _ _ hrest, outs, hp, segOut,
            List.flatten_cons, List.append_assoc]
        · have hmem : vals.getD k [] ∈ vals ∨ vals.getD k [] = [] := by
            simp only [List.getD_eq_getElem?_getD]
            cases hg : vals[k]? with
            | none => right; rfl
            | some x => left; exact List.getElem?_mem hg
          have hc : c_str (widen (vals.getD k [])) = widen (vals.getD k []) := by
            rcases hmem with h | h
            · exact c_str_widen _ (hv _ h)
            · rw [h]; rfl
          simp only [hk, if_false, getD_map_widen, hc, ← widen_append, ih _ _ hrest, outs, hp,
            segOut, if_true, List.flatten_cons, List.append_assoc]
      · have hp : isPositional seg = false := by simp [isPositional, h0, h1]
        by_cases h2 : '0' ≤ charAt seg 1 ∧ charAt seg 1 ≤ '9'
        · have hi : isIndexed seg = true := by simp [isIndexed, h0, h2]
          have hdol : decide (seg.length ≥ 4 ∧ charAt seg 2 = '$') = false := by
            simp only [decide_eq_false_iff_not]
            intro h
            exact hnd ⟨h0, h2, h.1, h.2⟩
          have hsub := subString_widen_drop seg 2
          simp only [Nat.cast_ofNat, hlenw] at hsub
          have hidx : ((wch (charAt seg 1) - wch '0' + 0) % 2 ^ 32).toNat = indexOfSeg seg := by
            have ha := (char_le_iff _ _).1 h2.1
            have hb := (char_le_iff _ _).1 h2.2
            have h48 : ('0').toNat = 48 := rfl
            have h57 : ('9').toNat = 57 := rfl
            simp only [wch, indexOfSeg, h48] at *
            omega
          simp only [h0, not_true_eq_false, if_false, h1, h2, and_self, decide_True, if_true,
            hlenw, hdol, Bool.false_eq_true, hsub, hidx]
          by_cases hk : indexOfSeg seg ≥ vals.length
          · simp only [hk, if_true, ← widen_append, ih _ _ hrest, outs, hp, hi, segOut,
              List.flatten_cons, List.append_assoc, Bool.false_eq_true, if_false]
          · simp only [hk, if_false, getD_map_widen, ← widen_append, ih _ _ hrest, outs, hp, hi,
              segOut, if_true, List.flatten_cons, List.append_assoc, Bool.false_eq_true]
        · have hi : isIndexed seg = false := by simp [isIndexed, h0, h2]
          simp only [h0, not_true_eq_false, if_false, h1, h2, decide_False, Bool.false_eq_true,
            ← widen_append, ih _ _ hrest, outs, hp, hi, segOut, List.flatten_cons,
            List.append_assoc]
    · have hp : isPositional seg = false := by simp [isPositional, h0]
      have hi : isIndexed seg = false := by simp [isIndexed, h0]
      simp only [h0, not_false_eq_true, if_true, ← widen_append, ih _ _ hrest, outs, hp, hi,
        segOut, List.flatten_cons, List.append_assoc, Bool.false_eq_true, if_false]

theorem fieldsGo_map_widen (c : Char) (keep : Bool) (xs cur : List Char) :
    fieldsGo (wch c) keep (widen xs) (widen cur) = (fieldsGo c keep xs cur).map widen := by
  induction xs generalizing cur with
  | nil => simp [fieldsGo, widen]
  | cons x xs ih =>
    cases xs with
    | nil =>
      by_cases hx : x = c
      · simp [fieldsGo, widen, hx]
      · have hw : wch x ≠ wch c := fun e => hx ((wch_inj x c).1 e)
        simp [fieldsGo, widen, hx, hw]
    | cons y ys =>
      by_cases hx : x = c
      · subst hx
        have h := ih (if keep then [x] else [])
        have hcur : widen (if keep then [x] else []) = if keep then [wch x] else [] := by
          cases keep <;> rfl
        rw [hcur] at h
        have hw : widen (x :: y :: ys) = wch x :: wch y :: widen ys := rfl
        have hw2 : widen (y :: ys) = wch y :: widen ys := rfl
        rw [hw, fieldsGo_cons_eq, fieldsGo_cons_eq, ← hw2, h]
        simp
      · have hw : wch x ≠ wch c := fun e => hx ((wch_inj x c).1 e)
        have hwx : widen (x :: y :: ys) = wch x :: widen (y :: ys) := rfl
        rw [hwx, fieldsGo_cons_ne _ _ _ _ _ hw, fieldsGo_cons_ne _ _ _ _ _ hx, ← ih]
        simp [widen]

theorem fields_map_widen (c : Char) (keep : Bool) (s : List Char) :
    fields (wch c) keep (widen s) = (fields c keep s).map widen := by
  cases s with
  | nil => simp [fields, widen]
  | cons x xs =>
    have h := fieldsGo_map_widen c keep (x :: xs) []
    simp only [fields, widen, List.map_cons, List.isEmpty_cons, Bool.false_eq_true, if_false]
    simpa [widen] using h

theorem fieldsGo_tail_notin {α : Type} [DecidableEq α] (c : α) (xs cur seg : List α)
    (hcur : c ∉ cur.tail) (h : seg ∈ fieldsGo c true xs cur) : c ∉ seg.tail := by
  induction xs generalizing cur with
  | nil =>
    simp only [fieldsGo, List.mem_singleton] at h
    rw [h]
    exact hcur
  | cons x xs ih =>
    by_cases hx : x = c
    · subst hx
      cases xs with
      | nil =>
        simp only [fieldsGo, if_true, List.isEmpty_nil, List.mem_singleton] at h
        rw [h]
        exact hcur
      | cons y ys =>
        rw [fieldsGo_cons_eq] at h
        rcases List.mem_cons.1 h with h | h
        · rw [h]
          exact hcur
        · exact ih [x] (by simp) h
    · rw [fieldsGo_cons_ne _ _ _ _ _ hx] at h
      refine ih (cur ++ [x]) ?_ h
      cases cur with
      | nil => simp
      | cons a as =>
        simp only [List.cons_append, List.tail_cons, List.mem_append, List.mem_singleton,
          not_or]
        exact ⟨hcur, Ne.symm hx⟩

theorem fields_tail_notin {α : Type} [DecidableEq α] (c : α) (s seg : List α)
    (h : seg ∈ fields c true s) : c ∉ seg.tail := by
  cases s with
  | nil => simp [fields] at h
  | cons x xs =>
    simp only [fields, List.isEmpty_cons, Bool.false_eq_true, if_false] at h
    exact fieldsGo_tail_notin c (x :: xs) [] seg (by simp) h


/-! ## Lemmas: printing a number in hexadecimal and scanning it back -/

theorem char_ofNat_toNat (n : Nat) (h : n < 55296) : (Char.ofNat n).toNat = n := by
  have hv : n.isValidChar := Or.inl h
  simp only [Char.ofNat, hv, dite_true, Char.ofNatAux, Char.toNat]
  show (UInt32.ofNat' n _).toNat = n
  simp [UInt32.ofNat', UInt32.toNat]

theorem digitChar_spec (d : Nat) (h : d < 16) :
    digitChar d ∈ hexChars ∧ digitValue (digitChar d) = some d
      ∧ (d ≠ 0 → digitChar d ≠ '0') := by
  interval_cases d <;> decide

theorem hexChars_facts :
    ∀ c ∈ hexChars, isspace c = false ∧ c ≠ '-' ∧ c ≠ '+' ∧ isDigitOf 16 c = true
      ∧ c ≠ 'x' ∧ c ≠ ';' ∧ c ≠ 'X' := by
  decide

theorem digitsValue_snoc (base : Nat) (l : List Char) (c : Char) :
    digitsValue base (l ++ [c]) = digitsValue base l * base + (digitValue c).getD 0 := by
  simp [digitsValue, List.foldl_append]

theorem toDigitsCore_hex (fuel n : Nat) (acc : List Char) (h : n < fuel) :
    ∃ l, toDigitsCore 16 fuel n acc = l ++ acc ∧ (∀ c ∈ l, c ∈ hexChars)
      ∧ digitsValue 16 l = n ∧ l ≠ [] ∧ (0 < n → l.head? ≠ some '0') := by
  induction fuel generalizing n acc with
  | zero => omega
  | succ fuel ih =>
    have hd := digitChar_spec (n % 16) (Nat.mod_lt _ (by norm_num))
    unfold toDigitsCore
    by_cases hq : n / 16 = 0
    · have hn : n % 16 = n := by omega
      refine ⟨[digitChar (n % 16)], by simp [hq], ?_, ?_, by simp, ?_⟩
      · intro c hc
        rw [List.mem_singleton.1 hc]
        exact hd.1
      · have hv := hd.2.1
        simp only [digitsValue, List.foldl_cons, List.foldl_nil, hv, Option.getD_some]
        omega
      · intro hpos
        have hne : n % 16 ≠ 0 := by omega
        simpa using hd.2.2 hne
    · obtain ⟨l, h1, h2, h3, h4, h5⟩ := ih (n / 16) (digitChar (n % 16) :: acc) (by omega)
      refine ⟨l ++ [digitChar (n % 16)], by simp [hq, h1], ?_, ?_, by simp, ?_⟩
      · intro c hc
        rcases List.mem_append.1 hc with hc | hc
        · exact h2 c hc
        · rw [List.mem_singleton.1 hc]
          exact hd.1
      · rw [digitsValue_snoc, h3, hd.2.1]
        simp only [Option.getD_some]
        omega
      · intro _
        have h6 := h5 (by omega)
        cases l with
        | nil => exact absurd rfl h4
        | cons a t => simpa using h6

theorem toDigits_hex (n : Nat) :
    (∀ c ∈ toDigits 16 n, c ∈ hexChars) ∧ digitsValue 16 (toDigits 16 n) = n
      ∧ toDigits 16 n ≠ [] ∧ (0 < n → (toDigits 16 n).head? ≠ some '0') := by
  obtain ⟨l, h1, h2, h3, h4, h5⟩ := toDigitsCore_hex (n + 1) n [] (by omega)
  have : toDigits 16 n = l := by simp [toDigits, h1]
  rw [this]
  exact ⟨h2, h3, h4, h5⟩

theorem takeWhile_all {α : Type} (p : α → Bool) (l : List α) (h : ∀ x ∈ l, p x = true) :
    l.takeWhile p = l := by
  rw [List.takeWhile_eq_self_iff]
  exact h

theorem toInt32_small (n : Nat) (h : n < 2 ^ 31) : toInt32 (n : Int) = n := by
  unfold toInt32
  have h1 : (n : Int) % 2 ^ 32 = n := by omega
  simp only [h1]
  have h2 : (n : Int) < 2 ^ 31 := by omega
  rw [if_pos h2]

theorem sscanfInt_hex (l : List Char) (n : Nat) (hall : ∀ c ∈ l, c ∈ hexChars)
    (hval : digitsValue 16 l = n) (hne : l ≠ []) (h0 : l.head? ≠ some '0') (hn : n < 2 ^ 31) :
    sscanfInt true l = some (n : Int) := by
  cases l with
  | nil => exact absurd rfl hne
  | cons c t =>
    have hc := hexChars_facts c (hall c (by simp))
    have hc0 : c ≠ '0' := by simpa using h0
    have hdigits : ∀ x ∈ c :: t, isDigitOf 16 x = true :=
      fun x hx => (hexChars_facts x (hall x hx)).2.2.2.1
    have htw := takeWhile_all (isDigitOf 16) (c :: t) hdigits
    have hsmall : ¬ (n ≥ 2 ^ 64) := by omega
    simp only [sscanfInt, List.dropWhile_cons, hc.1, Bool.false_eq_true, if_false,
      List.head?_cons, Option.some.injEq, hc.2.1, hc.2.2.1, or_self, decide_False, hc0,
      Bool.false_and, Bool.or_false, if_true, htw, Bool.not_false, List.isEmpty_cons,
      Bool.and_false, hval, Bool.true_and, hsmall]
    rw [toInt32_small n hn]

/-! ## Lemmas: decoding what xmlEncode writes -/

theorem xmlDecodeLoop_digits (ds rest entity : List Char) (output : List Int)
    (h : ∀ c ∈ ds, c ∈ hexChars) :
    xmlDecodeLoop (ds ++ rest) DecodeState.ENTITY_BODY entity true output
      = xmlDecodeLoop rest DecodeState.ENTITY_BODY (entity ++ ds) true output := by
  induction ds generalizing entity with
  | nil => simp
  | cons d ds ih =>
    have hd := hexChars_facts d (h d (by simp))
    have hrest : ∀ c ∈ ds, c ∈ hexChars := fun c hc => h c (by simp [hc])
    rw [List.cons_append, xmlDecodeLoop]
    simp only [hd.2.2.2.2.1, false_and, if_false, hd.2.2.2.2.2.1]
    rw [ih _ hrest]
    simp

theorem xmlDecodeLoop_entity (n : Nat) (rest entity : List Char) (isHex : Bool)
    (output : List Int) (hpos : 0 < n) (hn : n < 2 ^ 31) :
    xmlDecodeLoop (['&', '#', 'x'] ++ toDigits 16 n ++ [';'] ++ rest) DecodeState.NORMAL
        entity isHex output
      = xmlDecodeLoop rest DecodeState.NORMAL (toDigits 16 n) true (output ++ [(n : Int)]) := by
  obtain ⟨h1, h2, h3, h4⟩ := toDigits_hex n
  have hscan := sscanfInt_hex (toDigits 16 n) n h1 h2 h3 (h4 hpos) hn
  simp only [List.cons_append, List.nil_append, List.append_assoc]
  rw [xmlDecodeLoop, if_pos rfl, xmlDecodeLoop]
  simp only [ne_eq, not_true_eq_false, if_false]
  rw [xmlDecodeLoop]
  simp only [List.length_nil, and_self, if_true]
  rw [xmlDecodeLoop_digits _ _ _ _ h1, xmlDecodeLoop]
  simp only [List.nil_append, hscan]
  simp

theorem xmlEncodeChar_decode (ch : Int) (rest entity : List Char) (isHex : Bool)
    (output : List Int) (h0 : 0 ≤ ch) (h1 : ch < 2 ^ 31) :
    ∃ e b, xmlDecodeLoop (xmlEncodeChar ch ++ rest) DecodeState.NORMAL entity isHex output
      = xmlDecodeLoop rest DecodeState.NORMAL e b (output ++ [ch]) := by
  unfold xmlEncodeChar
  by_cases hesc : ch ≥ 128 ∨ ch = wch '&' ∨ ch = wch '<' ∨ ch = wch '>'
      ∨ ch = wch (Char.ofNat 34) ∨ ch = wch ' '
  · rw [if_pos hesc]
    have hpos : 0 < ch.toNat := by
      rcases hesc with h | h | h | h | h | h
      · omega
      all_goals (rw [h]; decide)
    have hlt : ch.toNat < 2 ^ 31 := by omega
    have hstream : streamHexUpper ch = toDigits 16 ch.toNat := by
      unfold streamHexUpper
      congr 2
      omega
    have hcast : ((ch.toNat : Nat) : Int) = ch := by omega
    refine ⟨toDigits 16 ch.toNat, true, ?_⟩
    rw [hstream, xmlDecodeLoop_entity ch.toNat rest entity isHex output hpos hlt, hcast]
  · rw [if_neg hesc]
    have hlt : ch < 128 := by
      by_contra hge
      exact hesc (Or.inl (by omega))
    have hmod : (ch % 256).toNat = ch.toNat := by omega
    have hnat : ch.toNat < 128 := by omega
    have hto : (Char.ofNat ch.toNat).toNat = ch.toNat := char_ofNat_toNat _ (by omega)
    have hamp : Char.ofNat ch.toNat ≠ '&' := by
      intro h
      have h2 := congrArg Char.toNat h
      rw [hto] at h2
      apply hesc
      right; left
      have h38 : ('&').toNat = 38 := rfl
      simp only [wch, h38]
      omega
    have hwide : charToWide (Char.ofNat ch.toNat) = ch := by
      simp only [charToWide, hto, hnat, if_true]
      omega
    refine ⟨entity, isHex, ?_⟩
    rw [hmod, List.singleton_append, xmlDecodeLoop, if_neg hamp, hwide]

theorem xmlDecodeLoop_encode (w : List Int) (entity : List Char) (isHex : Bool)
    (output : List Int) (h : ∀ ch ∈ w, 0 ≤ ch ∧ ch < 2 ^ 31) :
    xmlDecodeLoop (xmlEncode w) DecodeState.NORMAL entity isHex output = output ++ w := by
  induction w generalizing entity isHex output with
  | nil => simp [xmlEncode, xmlDecodeLoop]
  | cons ch w ih =>
    have hch := h ch (by simp)
    have hw : ∀ x ∈ w, 0 ≤ x ∧ x < 2 ^ 31 := fun x hx => h x (by simp [hx])
    obtain ⟨e, b, hstep⟩ :=
      xmlEncodeChar_decode ch (xmlEncode w) entity isHex output hch.1 hch.2
    rw [xmlEncode, hstep, ih e b _ hw]
    simp


/-! ## Lemmas: the text timeToString builds -/

theorem toDigitsCore_succ (base fuel n : Nat) (acc : List Char) :
    toDigitsCore base (fuel + 1) n acc
      = if n / base = 0 then digitChar (n % base) :: acc
        else toDigitsCore base fuel (n / base) (digitChar (n % base) :: acc) := rfl

theorem toDigits_lt_10 (k : Nat) (h : k < 10) : toDigits 10 k = [digitChar k] := by
  have h1 : k / 10 = 0 := by omega
  have h2 : k % 10 = k := by omega
  rw [toDigits, toDigitsCore_succ, if_pos h1, h2]

theorem toDigits_lt_100 (k : Nat) (h1 : 10 ≤ k) (h2 : k < 100) :
    toDigits 10 k = [digitChar (k / 10), digitChar (k % 10)] := by
  obtain ⟨f, hf⟩ : ∃ f, k = f + 1 := ⟨k - 1, by omega⟩
  have h3 : k / 10 ≠ 0 := by omega
  have h4 : k / 10 / 10 = 0 := by omega
  have h5 : k / 10 % 10 = k / 10 := by omega
  rw [toDigits, toDigitsCore_succ, if_neg h3]
  nth_rewrite 1 [hf]
  rw [toDigitsCore_succ, if_pos h4, h5]

theorem toDigits_lt_1000 (k : Nat) (h1 : 100 ≤ k) (h2 : k < 1000) :
    toDigits 10 k = [digitChar (k / 100), digitChar (k / 10 % 10), digitChar (k % 10)] := by
  obtain ⟨f, hf⟩ : ∃ f, k = f + 2 := ⟨k - 2, by omega⟩
  have h3 : k / 10 ≠ 0 := by omega
  have h4 : k / 10 / 10 ≠ 0 := by omega
  have h5 : k / 10 / 10 / 10 = 0 := by omega
  have h6 : k / 10 / 10 % 10 = k / 100 := by omega
  rw [toDigits, toDigitsCore_succ, if_neg h3]
  nth_rewrite 1 [hf]
  rw [toDigitsCore_succ, if_neg h4, toDigitsCore_succ, if_pos h5, h6]

theorem toString_natCast (k : Nat) : toString (k : Int) = toDigits 10 k := by
  have : ¬ ((k : Int) < 0) := by omega
  simp [toString, this]

theorem digitChar_zero : digitChar 0 = '0' := by decide

/-- The zero-padded field of timeToString is the two-digit text. -/
theorem padded_eq_twoDigits (k : Nat) (h : k < 100) :
    (if (k : Int) < 10 then '0' :: toString (k : Int) else toString (k : Int)) = twoDigits k := by
  rw [toString_natCast]
  by_cases h10 : k < 10
  · have hi : (k : Int) < 10 := by omega
    have h1 : k / 10 = 0 := by omega
    have h2 : k % 10 = k := by omega
    rw [if_pos hi, toDigits_lt_10 k h10, twoDigits, h1, h2, digitChar_zero]
  · have hi : ¬ (k : Int) < 10 := by omega
    rw [if_neg hi, toDigits_lt_100 k (by omega) h, twoDigits]

theorem padSubsec_eq (p f : Nat) (hp1 : 1 ≤ p) (hp3 : p ≤ 3) (hf : f < 10 ^ p) :
    padSubsec (f : Int) (p - 1) (precisionPower p) (toString (f : Int)) = fixedDigits p f := by
  rw [toString_natCast]
  have hp : p = 1 ∨ p = 2 ∨ p = 3 := by omega
  rcases hp with rfl | rfl | rfl
  · have hf1 : f < 10 := by simpa using hf
    have h2 : f % 10 = f := by omega
    simp [padSubsec, fixedDigits, toDigits_lt_10 f hf1, h2]
  · have hf1 : f < 100 := by simpa using hf
    have hpp : precisionPower 2 / 10 = 10 := by decide
    simp only [padSubsec, hpp, fixedDigits, List.nil_append, List.singleton_append,
      Nat.add_one_sub_one]
    by_cases h10 : f < 10
    · have hi : (f : Int) < 10 := by omega
      have h1 : f / 10 % 10 = 0 := by omega
      have h2 : f % 10 = f := by omega
      rw [if_pos hi, toDigits_lt_10 f h10, h1, h2, digitChar_zero]
    · have hi : ¬ (f : Int) < 10 := by omega
      have h1 : f / 10 % 10 = f / 10 := by omega
      rw [if_neg hi, toDigits_lt_100 f (by omega) hf1, h1]
  · have hf1 : f < 1000 := by simpa using hf
    have hpp : precisionPower 3 / 10 = 100 := by decide
    have hpp2 : (100 : Int) / 10 = 10 := by decide
    simp only [padSubsec, hpp, hpp2, fixedDigits, List.nil_append, List.singleton_append,
      Nat.add_one_sub_one, List.cons_append]
    by_cases h10 : f < 10
    · have hi : (f : Int) < 10 := by omega
      have hi2 : (f : Int) < 100 := by omega
      have h1 : f / 10 / 10 % 10 = 0 := by omega
      have h2 : f / 10 % 10 = 0 := by omega
      have h3 : f % 10 = f := by omega
      rw [if_pos hi2, if_pos hi, toDigits_lt_10 f h10, h1, h2, h3, digitChar_zero]
    · by_cases h100 : f < 100
      · have hi : ¬ (f : Int) < 10 := by omega
        have hi2 : (f : Int) < 100 := by omega
        have h1 : f / 10 / 10 % 10 = 0 := by omega
        have h2 : f / 10 % 10 = f / 10 := by omega
        rw [if_pos hi2, if_neg hi, toDigits_lt_100 f (by omega) h100, h1, h2, digitChar_zero]
      · have hi : ¬ (f : Int) < 10 := by omega
        have hi2 : ¬ (f : Int) < 100 := by omega
        have h1 : f / 10 / 10 % 10 = f / 100 := by omega
        rw [if_neg hi2, if_neg hi, toDigits_lt_1000 f (by omega) hf1, h1]

theorem precisionPower_eq (p : Nat) : precisionPower p = ((10 ^ p : Nat) : Int) := by
  induction p with
  | zero => rfl
  | succ i ih =>
    rw [precisionPower, ih]
    push_cast
    ring

theorem clip_eq_min (precision : Nat) :
    (if precision > 3 then 3 else precision) = min precision 3 := by
  by_cases h : precision > 3
  · rw [if_pos h]; omega
  · rw [if_neg h]; omega

theorem timeToString_layout (time : F32) (precision : Nat) (dmz dh : Bool) (N : Nat)
    (hn : intTime time precision = (N : Int))
    (hlow : dh = false → N < 3600 * 10 ^ (min precision 3))
    (hhigh : N < 360000 * 10 ^ (min precision 3)) :
    timeToString time precision dmz dh
      = (if F32.ltZero time = true then ['-'] else [])
        ++ (if dh = true then twoDigits (N / 10 ^ (min precision 3) / 3600) ++ [':'] else [])
        ++ (if dmz = true ∨ 0 < N / 10 ^ (min precision 3) / 60 % 60 ∨ dh = true then
              twoDigits (N / 10 ^ (min precision 3) / 60 % 60) ++ [':'] else [])
        ++ twoDigits (N / 10 ^ (min precision 3) % 60)
        ++ fractionText (min precision 3) (N % 10 ^ (min precision 3)) := by
  have hp3 : min precision 3 ≤ 3 := by omega
  unfold timeToString
  simp only [clip_eq_min, hn]
  generalize min precision 3 = p at *
  have hpp := precisionPower_eq p
  have hpos : 0 < 10 ^ p := Nat.pow_pos (by norm_num)
  generalize hP : 10 ^ p = P at *
  rw [hpp]
  have c1 : ¬ ((N : Int) < 0) := by omega
  have c2 : ¬ (((N : Int) ≥ 60 * 60 * (P : Int) ∧ ¬ dh = true) ∨ (N : Int) ≥ 100 * 60 * 60 * (P : Int)) := by
    rintro (⟨h1, h2⟩ | h)
    · have := hlow (by simpa using h2)
      omega
    · omega
  rw [if_neg c1, if_neg c2]
  have e1 : (N : Int) % (P : Int) = ((N % P : Nat) : Int) := (Int.natCast_mod N P).symm
  have e2 : (N : Int) / (P : Int) = ((N / P : Nat) : Int) := (Int.natCast_div N P).symm
  have e3 : ((N / P : Nat) : Int) % 60 = ((N / P % 60 : Nat) : Int) := by omega
  have e4 : ((N / P : Nat) : Int) / 60 = ((N / P / 60 : Nat) : Int) := by omega
  have e5 : ((N / P / 60 : Nat) : Int) % 60 = ((N / P / 60 % 60 : Nat) : Int) := by omega
  have e6 : ((N / P / 60 : Nat) : Int) / 60 = ((N / P / 3600 : Nat) : Int) := by omega
  simp only [e1, e2, e3, e4, e5, e6]
  have hH : N / P / 3600 < 100 := by
    rw [Nat.div_div_eq_div_mul, Nat.div_lt_iff_lt_mul (by omega)]
    nlinarith
  have hM : N / P / 60 % 60 < 100 := by omega
  have hS : N / P % 60 < 100 := by omega
  rw [padded_eq_twoDigits _ hH, padded_eq_twoDigits _ hM, padded_eq_twoDigits _ hS]
  have hmin : ((N / P / 60 % 60 : Nat) : Int) > 0 ↔ 0 < N / P / 60 % 60 := by omega
  simp only [hmin]
  by_cases hp0 : p = 0
  · subst hp0
    simp only [fractionText, if_true]
    cases dh <;> cases dmz <;> by_cases hm : 0 < N / P / 60 % 60 <;> simp [hm]
  · have hF : N % P < 10 ^ p := by rw [hP]; exact Nat.mod_lt _ hpos
    rw [if_neg hp0, ← hpp, padSubsec_eq p (N % P) (by omega) hp3 hF]
    simp only [fractionText, if_neg hp0]
    cases dh <;> cases dmz <;> by_cases hm : 0 < N / P / 60 % 60 <;> simp [hm]

theorem F32.toInt_of_value (x : F32) (v : ℚ) (hv : x.value = some v) (h0 : 0 ≤ v)
    (hN : 0 ≤ F32.toInt x) : F32.toInt x = ⌊v⌋ := by
  cases x with
  | inf neg => simp [F32.value] at hv
  | nan => simp [F32.value] at hv
  | finite m e =>
    simp only [F32.value, Option.some.injEq] at hv
    have h2pos : (0 : ℚ) < (2 : ℚ) ^ e := zpow_pos (by norm_num) e
    have hm : 0 ≤ m := by
      by_contra hneg
      have hm' : (m : ℚ) < 0 := by exact_mod_cast (not_le.1 hneg)
      have : (m : ℚ) * (2 : ℚ) ^ e < 0 := mul_neg_of_neg_of_pos hm' h2pos
      rw [hv] at this
      linarith
    obtain ⟨a, rfl⟩ : ∃ a : Nat, m = (a : Int) := ⟨m.toNat, by omega⟩
    have hnot : ¬ ((a : Int) < 0) := by omega
    have hfloor : ⌊v⌋ = (if e ≥ 0 then ((a * 2 ^ e.toNat : Nat) : Int)
        else ((a / 2 ^ (-e).toNat : Nat) : Int)) := by
      rw [← hv]
      by_cases he : e ≥ 0
      · rw [if_pos he]
        obtain ⟨k, rfl⟩ : ∃ k : Nat, e = (k : Int) := ⟨e.toNat, by omega⟩
        have : ((a : Int) : ℚ) * (2 : ℚ) ^ (k : Int) = ((a * 2 ^ k : Nat) : ℚ) := by
          push_cast
          rw [zpow_natCast]
        rw [this, Int.floor_natCast]
        simp
      · rw [if_neg he]
        obtain ⟨k, rfl⟩ : ∃ k : Nat, e = - (k : Int) := ⟨(-e).toNat, by omega⟩
        have : ((a : Int) : ℚ) * (2 : ℚ) ^ (-(k : Int)) = ((a : Nat) : ℚ) / ((2 ^ k : Nat) : ℚ) := by
          push_cast
          rw [zpow_neg, zpow_natCast]
          rfl
        rw [this, Rat.floor_natCast_div_natCast]
        simp
    have hto : F32.toInt (F32.finite (a : Int) e)
        = if - 2 ^ 31 ≤ ⌊v⌋ ∧ ⌊v⌋ < 2 ^ 31 then ⌊v⌋ else - 2 ^ 31 := by
      rw [hfloor]
      simp only [F32.toInt, Int.natAbs_ofNat, hnot, if_false]
    rw [hto] at hN ⊢
    by_cases hr : - 2 ^ 31 ≤ ⌊v⌋ ∧ ⌊v⌋ < 2 ^ 31
    · rw [if_pos hr]
    · rw [if_neg hr] at hN
      norm_num at hN

theorem digitChar_decimal (d : Nat) (h : d < 10) : '0' ≤ digitChar d ∧ digitChar d ≤ '9' := by
  interval_cases d <;> decide

theorem twoDigits_decimal (k : Nat) (h : k < 100) :
    ∀ c ∈ twoDigits k, '0' ≤ c ∧ c ≤ '9' := by
  intro c hc
  simp only [twoDigits, List.mem_cons, List.mem_singleton, List.not_mem_nil, or_false] at hc
  rcases hc with rfl | rfl
  · exact digitChar_decimal _ (by omega)
  · exact digitChar_decimal _ (by omega)

theorem fixedDigits_decimal (w v : Nat) : ∀ c ∈ fixedDigits w v, '0' ≤ c ∧ c ≤ '9' := by
  induction w generalizing v with
  | zero => simp [fixedDigits]
  | succ w ih =>
    intro c hc
    simp only [fixedDigits, List.mem_append, List.mem_singleton] at hc
    rcases hc with hc | rfl
    · exact ih _ c hc
    · exact digitChar_decimal _ (Nat.mod_lt _ (by norm_num))

theorem fixedDigits_length (w v : Nat) : (fixedDigits w v).length = w := by
  induction w generalizing v with
  | zero => simp [fixedDigits]
  | succ w ih => simp [fixedDigits, ih]

theorem F32.value_nonneg (time : F32) (t : ℚ) (hpos : F32.ltZero time = false)
    (ht : time.value = some t) : 0 ≤ t := by
  cases time with
  | inf neg => simp [F32.value] at ht
  | nan => simp [F32.value] at ht
  | finite m e =>
    simp only [F32.value, Option.some.injEq] at ht
    simp only [F32.ltZero, decide_eq_false_iff_not, not_lt] at hpos
    rw [← ht]
    have h2pos : (0 : ℚ) < (2 : ℚ) ^ e := zpow_pos (by norm_num) e
    have hm : (0 : ℚ) ≤ (m : ℚ) := by exact_mod_cast hpos
    positivity

/-! ## Lemmas: versionToInt on well-formed version strings -/

theorem decimal_mem (c : Char) (h : '0' ≤ c ∧ c ≤ '9') : c ∈ decChars := by
  have h1 := (char_le_iff _ _).1 h.1
  have h2 := (char_le_iff _ _).1 h.2
  have h48 : ('0').toNat = 48 := rfl
  have h57 : ('9').toNat = 57 := rfl
  rw [h48] at h1
  rw [h57] at h2
  rw [← Char.ofNat_toNat c]
  generalize c.toNat = n at h1 h2
  interval_cases n <;> decide

theorem decChars_facts :
    ∀ c ∈ decChars, isspace c = false ∧ c ≠ '-' ∧ c ≠ '+' ∧ isDigitOf 10 c = true
      ∧ c ≠ '.' ∧ ¬ ('a' ≤ c ∧ c ≤ 'z') ∧ c ≠ 'G' ∧ c ≠ 'g' := by
  decide

theorem strtol10_numeral (x : List Char) (hx : isNumeral x) (hv : digitsValue 10 x < 2 ^ 63) :
    strtol10 x = (digitsValue 10 x : Int) := by
  obtain ⟨hne, hall⟩ := hx
  cases x with
  | nil => exact absurd rfl hne
  | cons c t =>
    have hc := decChars_facts c (decimal_mem c (hall c (by simp)))
    have hdigits : ∀ y ∈ c :: t, isDigitOf 10 y = true :=
      fun y hy => (decChars_facts y (decimal_mem y (hall y hy))).2.2.2.1
    have htw := takeWhile_all (isDigitOf 10) (c :: t) hdigits
    have hsmall : ¬ (digitsValue 10 (c :: t) ≥ 2 ^ 63) := by omega
    simp only [strtol10, List.dropWhile_cons, hc.1, Bool.false_eq_true, if_false,
      List.head?_cons, Option.some.injEq, hc.2.1, hc.2.2.1, or_self, decide_False, htw, hsmall]

theorem atoi_numeral (x : List Char) (hx : isNumeral x) (hv : digitsValue 10 x < 2 ^ 31) :
    atoi x = (digitsValue 10 x : Int) := by
  rw [atoi, strtol10_numeral x hx (by omega), toInt32_small _ hv]

theorem atoi_zero : atoi ['0'] = 0 := by decide

theorem digitChar_decChars (n : Nat) (h : n ≤ 9) :
    digitChar n ∈ decChars ∧ digitsValue 10 [digitChar n] = n := by
  interval_cases n <;> decide

theorem sscanfRc_suffix (n : Nat) (h : n ≤ 9) :
    sscanfRc ['-', 'r', 'c', digitChar n] = some (n : Int) := by
  interval_cases n <;> decide

theorem sscanfRc_none (t : List Char) (h : t.head? ≠ some '-') : sscanfRc t = none := by
  unfold sscanfRc
  have : t.take 3 ≠ ['-', 'r', 'c'] := by
    intro h3
    cases t with
    | nil => simp at h3
    | cons a r =>
      simp only [List.take_succ_cons, List.cons.injEq] at h3
      exact h (by simp [h3.1])
  rw [if_neg this]

/-- Splitting dotted numerals gives the numerals back. -/
theorem fieldsGo_intercalate_inv {α : Type} [DecidableEq α] (c : α) (x : List α)
    (xs : List (List α)) (cur : List α) (hx : c ∉ x) (hxs : ∀ y ∈ xs, y ≠ [] ∧ c ∉ y) :
    fieldsGo c false (List.intercalate [c] (x :: xs)) cur = (cur ++ x) :: xs := by
  induction xs generalizing x cur with
  | nil => simpa [List.intercalate] using fieldsGo_notin c false x cur hx
  | cons y ys ih =>
    have hy := hxs y (by simp)
    have hys : ∀ z ∈ ys, z ≠ [] ∧ c ∉ z := fun z hz => hxs z (by simp [hz])
    have hinter : List.intercalate [c] (x :: y :: ys) = x ++ c :: List.intercalate [c] (y :: ys) := by
      simp [List.intercalate, List.intersperse]
    have hne : (List.intercalate [c] (y :: ys)).isEmpty = false := by
      cases y with
      | nil => exact absurd rfl hy.1
      | cons a r =>
        cases ys <;> simp [List.intercalate, List.intersperse]
    rw [hinter, fieldsGo_append c false x _ cur hx, hne]
    simp only [Bool.false_eq_true, if_false]
    rw [ih y [] hy.2 hys]
    simp

theorem fields_intercalate_inv {α : Type} [DecidableEq α] (c : α) (x : List α)
    (xs : List (List α)) (hx : x ≠ [] ∧ c ∉ x) (hxs : ∀ y ∈ xs, y ≠ [] ∧ c ∉ y) :
    fields c false (List.intercalate [c] (x :: xs)) = x :: xs := by
  have hne : (List.intercalate [c] (x :: xs)).isEmpty = false := by
    cases x with
    | nil => exact absurd rfl hx.1
    | cons a r =>
      cases xs <;> simp [List.intercalate, List.intersperse]
  rw [fields, hne]
  simp only [Bool.false_eq_true, if_false]
  rw [fieldsGo_intercalate_inv c x xs [] hx.2 hxs]
  simp

theorem mem_intercalate {α : Type} (sep : List α) (L : List (List α)) (c : α)
    (h : c ∈ List.intercalate sep L) : c ∈ sep ∨ ∃ x ∈ L, c ∈ x := by
  induction L with
  | nil => simp [List.intercalate] at h
  | cons x xs ih =>
    cases xs with
    | nil =>
      right
      exact ⟨x, by simp, by simpa [List.intercalate] using h⟩
    | cons y ys =>
      have hinter : List.intercalate sep (x :: y :: ys)
          = x ++ sep ++ List.intercalate sep (y :: ys) := by
        simp [List.intercalate, List.intersperse]
      rw [hinter] at h
      rcases List.mem_append.1 h with h | h
      · rcases List.mem_append.1 h with h | h
        · exact Or.inr ⟨x, by simp, h⟩
        · exact Or.inl h
      · rcases ih h with h | ⟨z, hz, hc⟩
        · exact Or.inl h
        · exact Or.inr ⟨z, by simp [hz], hc⟩

theorem getLast?_intercalate {α : Type} (sep : List α) (x : List α) (xs : List (List α))
    (h : ∀ y ∈ x :: xs, y ≠ []) :
    ∃ y ∈ x :: xs, (List.intercalate sep (x :: xs)).getLast? = y.getLast? := by
  induction xs generalizing x with
  | nil => exact ⟨x, by simp, by simp [List.intercalate]⟩
  | cons y ys ih =>
    have hinter : List.intercalate sep (x :: y :: ys)
        = x ++ sep ++ List.intercalate sep (y :: ys) := by
      simp [List.intercalate, List.intersperse]
    obtain ⟨z, hz, hlast⟩ := ih y (fun w hw => h w (by simp [List.mem_cons.1 hw]))
    refine ⟨z, by simp [List.mem_cons.1 hz], ?_⟩
    have hzne : z ≠ [] := h z (by simp [List.mem_cons.1 hz])
    obtain ⟨l, hl⟩ : ∃ l, z.getLast? = some l := by
      cases hz' : z.getLast? with
      | none => exact absurd (List.getLast?_eq_none_iff.1 hz') hzne
      | some l => exact ⟨l, rfl⟩
    rw [hinter, List.getLast?_append, hlast, hl]
    rfl

theorem head?_intercalate {α : Type} (sep : List α) (x : List α) (xs : List (List α))
    (h : x ≠ []) : (List.intercalate sep (x :: xs)).head? = x.head? := by
  cases x with
  | nil => exact absurd rfl h
  | cons a r => cases xs <;> simp [List.intercalate, List.intersperse]

theorem versionChar_ne_minus (c : Char) (h : versionChar c) : c ≠ '-' := by
  rcases h with h | h | h
  · exact (decChars_facts c h).2.1
  · rw [h]; decide
  · intro hc
    rw [hc] at h
    exact absurd h.1 (by decide)

theorem padded_getD (comps : List (List Char)) (h1 : 1 ≤ comps.length) (h3 : comps.length ≤ 3) :
    (comps ++ List.replicate (3 - comps.length) ['0']).getD 0 [] = comps.getD 0 ['0']
    ∧ (comps ++ List.replicate (3 - comps.length) ['0']).getD 1 [] = comps.getD 1 ['0']
    ∧ (comps ++ List.replicate (3 - comps.length) ['0']).getD 2 [] = comps.getD 2 ['0'] := by
  match comps, h1, h3 with
  | [a], _, _ => simp [List.replicate]
  | [a, b], _, _ => simp [List.replicate]
  | [a, b, c], _, _ => simp [List.replicate]

theorem versionToIntTail_eq (comps : List (List Char)) (letter : Option Char) (rcv : Int)
    (h1 : 1 ≤ comps.length) (h3 : comps.length ≤ 3) (hnum : ∀ x ∈ comps, isNumeral x)
    (hletter : ∀ ch ∈ letter, 'a' ≤ ch ∧ ch ≤ 'z') :
    versionToIntTail (List.intercalate ['.'] comps ++ letter.toList) rcv
      = some (toInt32 (1000000 * atoi (comps.getD 0 ['0']) + 10000 * atoi (comps.getD 1 ['0'])
          + 100 * atoi (comps.getD 2 ['0']) + 10 * microValue letter + rcv)) := by
  obtain ⟨x, xs, rfl⟩ : ∃ x xs, comps = x :: xs := by
    cases comps with
    | nil => simp at h1
    | cons x xs => exact ⟨x, xs, rfl⟩
  have hxne : ∀ y ∈ x :: xs, y ≠ [] := fun y hy => (hnum y hy).1
  have hnodot : ∀ y ∈ x :: xs, y ≠ [] ∧ '.' ∉ y := by
    intro y hy
    refine ⟨(hnum y hy).1, fun hdot => ?_⟩
    exact (decChars_facts '.' (decimal_mem '.' ((hnum y hy).2 '.' hdot))).2.2.2.2.1 rfl
  have hfields : fields '.' false (List.intercalate ['.'] (x :: xs)) = x :: xs :=
    fields_intercalate_inv '.' x xs (hnodot x (by simp)) (fun y hy => hnodot y (by simp [hy]))
  have hpad := padded_getD (x :: xs) h1 h3
  set D := List.intercalate ['.'] (x :: xs) with hD
  have hDne : D ≠ [] := by
    intro h
    have := head?_intercalate ['.'] x xs (hxne x (by simp))
    rw [← hD, h] at this
    cases x with
    | nil => exact hxne [] (by simp) rfl
    | cons a r => simp at this
  cases letter with
  | none =>
    obtain ⟨y, hy, hlast⟩ := getLast?_intercalate ['.'] x xs hxne
    rw [← hD] at hlast
    have hnl : ¬ (D.length > 0 ∧ 'a' ≤ charAt D (D.length - 1)
        ∧ charAt D (D.length - 1) ≤ 'z') := by
      rintro ⟨_, hlow⟩
      have hch : D.getLast? = some (charAt D (D.length - 1)) := by
        rw [List.getLast?_eq_getElem?, charAt, List.getD_eq_getElem?_getD]
        cases hg : D[D.length - 1]? with
        | none =>
          rw [List.getElem?_eq_none_iff] at hg
          have : 0 < D.length := List.length_pos.2 hDne
          omega
        | some v => rfl
      rw [hlast] at hch
      have hmem : charAt D (D.length - 1) ∈ y := List.mem_of_mem_getLast? hch
      exact (decChars_facts _ (decimal_mem _ ((hnum y hy).2 _ hmem))).2.2.2.2.2.1 hlow
    simp only [versionToIntTail, Option.toList, List.append_nil, hnl, decide_False,
      Bool.false_eq_true, if_false, Option.bind, split_eq_fields, hfields, Option.map, hpad.1,
      hpad.2.1, hpad.2.2, microValue]
  | some ch =>
    have hch := hletter ch rfl
    have hlen : (D ++ [ch]).length - 1 = D.length := by simp
    have hcharAt : charAt (D ++ [ch]) D.length = ch := by
      simp [charAt, List.getD_eq_getElem?_getD]
    have hl : ((D ++ [ch]).length > 0 ∧ 'a' ≤ charAt (D ++ [ch]) ((D ++ [ch]).length - 1)
        ∧ charAt (D ++ [ch]) ((D ++ [ch]).length - 1) ≤ 'z') := by
      rw [hlen, hcharAt]
      exact ⟨by simp, hch⟩
    have hsub : substr (D ++ [ch]) 0 D.length = some D := by
      simp [substr]
    have h97 : (('a').toNat : Int) = 97 := rfl
    simp only [versionToIntTail, Option.toList, hl, hch.1, hch.2, and_self, decide_True,
      if_true, hlen, hcharAt, hsub, Option.bind, split_eq_fields, hfields, Option.map, hpad.1,
      hpad.2.1, hpad.2.2, microValue, h97]

theorem versionBody_chars (comps : List (List Char)) (letter : Option Char)
    (hnum : ∀ x ∈ comps, isNumeral x) (hletter : ∀ ch ∈ letter, 'a' ≤ ch ∧ ch ≤ 'z') :
    ∀ c ∈ List.intercalate ['.'] comps ++ letter.toList, versionChar c := by
  intro c hc
  rcases List.mem_append.1 hc with hc | hc
  · rcases mem_intercalate _ _ _ hc with h | ⟨x, hx, hcx⟩
    · exact Or.inr (Or.inl (List.mem_singleton.1 h))
    · exact Or.inl (decimal_mem c ((hnum x hx).2 c hcx))
  · cases letter with
    | none => simp at hc
    | some ch =>
      have : c = ch := by simpa using hc
      rw [this]
      exact Or.inr (Or.inr (hletter ch rfl))

theorem versionBody_head (comps : List (List Char)) (letter : Option Char) (rest : List Char)
    (h1 : 1 ≤ comps.length) (hnum : ∀ x ∈ comps, isNumeral x) :
    ∃ d r, d ∈ decChars ∧ List.intercalate ['.'] comps ++ letter.toList ++ rest = d :: r := by
  obtain ⟨x, xs, rfl⟩ : ∃ x xs, comps = x :: xs := by
    cases comps with
    | nil => simp at h1
    | cons x xs => exact ⟨x, xs, rfl⟩
  have hx := hnum x (by simp)
  have hhead := head?_intercalate ['.'] x xs hx.1
  obtain ⟨a, r, rfl⟩ : ∃ a r, x = a :: r := by
    cases x with
    | nil => exact absurd rfl hx.1
    | cons a r => exact ⟨a, r, rfl⟩
  simp only [List.head?_cons] at hhead
  cases hD : List.intercalate ['.'] ((a :: r) :: xs) with
  | nil => rw [hD] at hhead; simp at hhead
  | cons d t =>
    rw [hD] at hhead
    simp only [List.head?_cons, Option.some.injEq] at hhead
    refine ⟨d, t ++ letter.toList ++ rest, ?_, by simp⟩
    rw [hhead]
    exact decimal_mem a (hx.2 a (by simp))

theorem versionToInt_formula (comps : List (List Char)) (letter : Option Char) (rc : Option Nat)
    (h1 : 1 ≤ comps.length) (h3 : comps.length ≤ 3) (hnum : ∀ x ∈ comps, isNumeral x)
    (hletter : ∀ ch ∈ letter, 'a' ≤ ch ∧ ch ≤ 'z') (hrc : ∀ n ∈ rc, n ≤ 8) :
    versionToInt (versionString comps letter rc)
      = some (toInt32 (1000000 * atoi (comps.getD 0 ['0']) + 10000 * atoi (comps.getD 1 ['0'])
          + 100 * atoi (comps.getD 2 ['0']) + 10 * microValue letter + rcValue rc)) := by
  have htail := fun rcv => versionToIntTail_eq comps letter rcv h1 h3 hnum hletter
  have hchars := versionBody_chars comps letter hnum hletter
  set S := List.intercalate ['.'] comps ++ letter.toList with hS
  have hgit : ∀ rest, ¬ (S ++ rest = "GIT".toList ∨ S ++ rest = "git".toList) := by
    intro rest h
    obtain ⟨d, r, hd, hdr⟩ := versionBody_head comps letter rest h1 hnum
    rw [← hS] at hdr
    have hf := decChars_facts d hd
    rcases h with h | h
    · rw [hdr] at h
      have : d = 'G' := by
        have := congrArg List.head? h
        simpa using this
      exact hf.2.2.2.2.2.2.1 this
    · rw [hdr] at h
      have : d = 'g' := by
        have := congrArg List.head? h
        simpa using this
      exact hf.2.2.2.2.2.2.2 this
  cases rc with
  | none =>
    have hvs : versionString comps letter none = S := by simp [versionString, hS]
    have hg := hgit []
    simp only [List.append_nil] at hg
    rw [hvs, versionToInt, if_neg hg]
    simp only [rcValue]
    by_cases hlen : S.length > 4
    · rw [if_pos hlen]
      have hsub : substr S (S.length - 4) 4 = some ((S.drop (S.length - 4)).take 4) := by
        simp [substr]
      have hnone : sscanfRc ((S.drop (S.length - 4)).take 4) = none := by
        apply sscanfRc_none
        intro hh
        have hmem : '-' ∈ (S.drop (S.length - 4)).take 4 := List.mem_of_mem_head? hh
        have hmemS : '-' ∈ S := List.mem_of_mem_drop (List.mem_of_mem_take hmem)
        exact versionChar_ne_minus _ (hchars _ hmemS) rfl
      rw [hsub]
      simp only [Option.bind, hnone, htail]
    · rw [if_neg hlen, htail]
  | some n =>
    have hn := hrc n rfl
    have hvs : versionString comps letter (some n) = S ++ ['-', 'r', 'c', digitChar n] := by
      simp [versionString, hS]
    rw [hvs, versionToInt, if_neg (hgit _)]
    have hlen : (S ++ ['-', 'r', 'c', digitChar n]).length > 4 := by
      obtain ⟨d, r, _, hdr⟩ := versionBody_head comps letter [] h1 hnum
      rw [← hS, List.append_nil] at hdr
      rw [hdr]
      simp
    have hl4 : (S ++ ['-', 'r', 'c', digitChar n]).length - 4 = S.length := by simp
    have hsub : substr (S ++ ['-', 'r', 'c', digitChar n]) S.length 4
        = some ['-', 'r', 'c', digitChar n] := by
      simp [substr]
    have hsub0 : substr (S ++ ['-', 'r', 'c', digitChar n]) 0 S.length = some S := by
      simp [substr]
    have hlt : ((n : Int) < 9) := by omega
    rw [if_pos hlen, hl4, hsub]
    simp only [Option.bind, sscanfRc_suffix n (by omega), hsub0, hlt, if_true, htail, rcValue]

theorem compValue_nonneg (comps : List (List Char)) (i : Nat) : 0 ≤ compValue comps i := by
  unfold compValue
  cases comps[i]? with
  | none => exact le_refl _
  | some x => exact Int.natCast_nonneg _

theorem atoi_comp (comps : List (List Char)) (i : Nat) (hnum : ∀ x ∈ comps, isNumeral x)
    (hv : compValue comps i < 2 ^ 31) : atoi (comps.getD i ['0']) = compValue comps i := by
  unfold compValue at hv ⊢
  rw [List.getD_eq_getElem?_getD]
  cases hg : comps[i]? with
  | none => simpa using atoi_zero
  | some x =>
    rw [hg] at hv
    have hv2 : (digitsValue 10 x : Int) < 2 ^ 31 := hv
    simp only [Option.getD_some]
    exact atoi_numeral x (hnum x (List.getElem?_mem hg)) (by exact_mod_cast hv2)

theorem microValue_nonneg (letter : Option Char) (hletter : ∀ ch ∈ letter, 'a' ≤ ch ∧ ch ≤ 'z') :
    0 ≤ microValue letter ∧ microValue letter ≤ 26 := by
  cases letter with
  | none => simp [microValue]
  | some ch =>
    have h := hletter ch rfl
    have h1 := (char_le_iff _ _).1 h.1
    have h2 := (char_le_iff _ _).1 h.2
    have h97 : ('a').toNat = 97 := rfl
    have h122 : ('z').toNat = 122 := rfl
    rw [h97] at h1
    rw [h122] at h2
    simp only [microValue]
    omega

theorem rcValue_bounds (rc : Option Nat) (hrc : ∀ n ∈ rc, n ≤ 8) :
    0 ≤ rcValue rc ∧ rcValue rc ≤ 9 ∧ (rc ≠ none → rcValue rc ≤ 8) := by
  cases rc with
  | none => simp [rcValue]
  | some n =>
    have := hrc n rfl
    simp only [rcValue]
    omega

theorem toInt32_of_range (v : Int) (h0 : 0 ≤ v) (h1 : v < 2 ^ 31) : toInt32 v = v := by
  obtain ⟨n, rfl⟩ : ∃ n : Nat, v = (n : Int) := ⟨v.toNat, by omega⟩
  exact toInt32_small n (by exact_mod_cast h1)

/-- The value of versionToInt when the weighted sum fits in an `int`. -/
theorem versionToInt_sum (comps : List (List Char)) (letter : Option Char) (rc : Option Nat)
    (h1 : 1 ≤ comps.length) (h3 : comps.length ≤ 3) (hnum : ∀ x ∈ comps, isNumeral x)
    (hletter : ∀ ch ∈ letter, 'a' ≤ ch ∧ ch ≤ 'z') (hrc : ∀ n ∈ rc, n ≤ 8)
    (hfit : 1000000 * compValue comps 0 + 10000 * compValue comps 1 + 100 * compValue comps 2
      + 10 * microValue letter + rcValue rc < 2 ^ 31) :
    versionToInt (versionString comps letter rc)
      = some (1000000 * compValue comps 0 + 10000 * compValue comps 1 + 100 * compValue comps 2
          + 10 * microValue letter + rcValue rc) := by
  have c0 := compValue_nonneg comps 0
  have c1 := compValue_nonneg comps 1
  have c2 := compValue_nonneg comps 2
  have hm := microValue_nonneg letter hletter
  have hr := rcValue_bounds rc hrc
  rw [versionToInt_formula comps letter rc h1 h3 hnum hletter hrc,
    atoi_comp comps 0 hnum (by omega), atoi_comp comps 1 hnum (by omega),
    atoi_comp comps 2 hnum (by omega), toInt32_of_range _ (by omega) hfit]

/-! ## Lemmas: the loops of replace and findAndReplace -/

theorem matchHere_length (pat s : List Char) (h : matchHere pat s = true) :
    pat.length ≤ s.length := by
  induction pat generalizing s with
  | nil => simp
  | cons p ps ih =>
    cases s with
    | nil => simp [matchHere] at h
    | cons x xs =>
      simp only [matchHere, Bool.and_eq_true, decide_eq_true_eq] at h
      have := ih xs h.2
      simp only [List.length_cons]
      omega

theorem findStrAux_some (pat xs : List Char) (k i : Nat) (h : findStrAux pat xs k = some i) :
    k ≤ i ∧ (i - k) + pat.length ≤ xs.length := by
  induction xs generalizing k with
  | nil =>
    simp only [findStrAux] at h
    by_cases hp : pat.isEmpty = true
    · rw [if_pos hp] at h
      have hpn : pat = [] := by simpa using hp
      cases h
      simp [hpn]
    · rw [if_neg hp] at h
      cases h
  | cons x xs ih =>
    simp only [findStrAux] at h
    by_cases hm : matchHere pat (x :: xs) = true
    · rw [if_pos hm] at h
      cases h
      have := matchHere_length _ _ hm
      simp only [Nat.sub_self, Nat.zero_add]
      exact ⟨le_refl _, this⟩
    · rw [if_neg hm] at h
      have := ih (k + 1) h
      simp only [List.length_cons]
      omega

theorem findStr_some (s pat : List Char) (pos i : Nat) (h : findStr s pat pos = some i) :
    pos ≤ i ∧ i + pat.length ≤ s.length := by
  unfold findStr at h
  by_cases hp : pos > s.length
  · rw [if_pos hp] at h
    cases h
  · rw [if_neg hp] at h
    have := findStrAux_some pat _ pos i h
    simp only [List.length_drop] at this
    omega

theorem strReplace_length (s t : List Char) (pos len : Nat) (r : List Char)
    (hpos : pos + len ≤ s.length) (h : strReplace s pos len t = some r) :
    r.length = pos + t.length + (s.length - (pos + len)) := by
  unfold strReplace at h
  have hp : ¬ pos > s.length := by omega
  rw [if_neg hp] at h
  cases h
  simp only [List.length_append, List.length_take, List.length_drop]
  omega

theorem strReplace_some (s t : List Char) (pos len : Nat) (hpos : pos ≤ s.length) :
    strReplace s pos len t = some (s.take pos ++ t ++ s.drop (pos + len)) := by
  unfold strReplace
  rw [if_neg (by omega)]

/-- One substitution of findAndReplace leaves a shorter unsearched remainder. -/
theorem findAndReplace_step (find replace destination : List Char) (pos found : Nat)
    (hfind : find ≠ []) (h : findStr destination find pos = some found) :
    ∃ d, strReplace destination found find.length replace = some d
      ∧ found + replace.length ≤ d.length
      ∧ d.length - (found + replace.length) < destination.length - pos
      ∧ pos ≤ found + replace.length
      ∧ (replace ≠ [] → pos < found + replace.length) := by
  have hf := findStr_some destination find pos found h
  have hlen : 0 < find.length := List.length_pos.2 hfind
  have hsome := strReplace_some destination replace found find.length (by omega)
  have hl := strReplace_length destination replace found find.length _ hf.2 hsome
  refine ⟨_, hsome, by omega, by omega, by omega, ?_⟩
  intro hr
  have : 0 < replace.length := List.length_pos.2 hr
  omega

theorem findAndReplaceLoop_terminates (find replace : List Char) (hfind : find ≠ []) (n : Nat) :
    ∀ (destination : List Char) (pos : Nat), pos ≤ destination.length →
      destination.length - pos ≤ n →
      ∃ r, ∀ fuel, n < fuel → findAndReplaceLoop find replace fuel destination pos = some r := by
  induction n with
  | zero =>
    intro d pos hpos hm
    cases hf : findStr d find pos with
    | none =>
      refine ⟨d, fun fuel hfuel => ?_⟩
      obtain ⟨f, rfl⟩ : ∃ f, fuel = f + 1 := ⟨fuel - 1, by omega⟩
      simp only [findAndReplaceLoop, hf]
    | some found =>
      obtain ⟨_, _, _, hlt, _⟩ := findAndReplace_step find replace d pos found hfind hf
      omega
  | succ n ih =>
    intro d pos hpos hm
    cases hf : findStr d find pos with
    | none =>
      refine ⟨d, fun fuel hfuel => ?_⟩
      obtain ⟨f, rfl⟩ : ∃ f, fuel = f + 1 := ⟨fuel - 1, by omega⟩
      simp only [findAndReplaceLoop, hf]
    | some found =>
      obtain ⟨d2, hd2, hle, hlt, _⟩ := findAndReplace_step find replace d pos found hfind hf
      obtain ⟨r, hr⟩ := ih d2 (found + replace.length) hle (by omega)
      refine ⟨r, fun fuel hfuel => ?_⟩
      obtain ⟨f, rfl⟩ : ∃ f, fuel = f + 1 := ⟨fuel - 1, by omega⟩
      simp only [findAndReplaceLoop, hf, hd2, Option.bind]
      exact hr f (by omega)

theorem matchHere_append (pat b : List Char) : matchHere pat (pat ++ b) = true := by
  induction pat with
  | nil => rfl
  | cons p ps ih => simp [matchHere, ih]

theorem findStrAux_of_occurs (pat a b : List Char) (k : Nat) :
    ∃ i, findStrAux pat (a ++ pat ++ b) k = some i := by
  induction a generalizing k with
  | nil =>
    rw [List.nil_append]
    cases hxs : pat ++ b with
    | nil =>
      obtain ⟨hp, _⟩ := List.append_eq_nil.1 hxs
      subst hp
      exact ⟨k, by simp [findStrAux]⟩
    | cons x xs =>
      have hm : matchHere pat (x :: xs) = true := by
        rw [← hxs]
        exact matchHere_append pat b
      exact ⟨k, by rw [findStrAux, if_pos hm]⟩
  | cons x a ih =>
    show ∃ i, findStrAux pat (x :: (a ++ pat ++ b)) k = some i
    by_cases hm : matchHere pat (x :: (a ++ pat ++ b)) = true
    · exact ⟨k, by rw [findStrAux, if_pos hm]⟩
    · obtain ⟨i, hi⟩ := ih (k + 1)
      exact ⟨i, by rw [findStrAux, if_neg hm, hi]⟩

theorem replaceLoop_none (frm to' : List Char) (hto : ∃ c d, to' = c ++ frm ++ d) (fuel : Nat) :
    ∀ wip : List Char, (∃ a b, wip = a ++ frm ++ b) → replaceLoop frm to' fuel wip = none := by
  induction fuel with
  | zero => intro wip _; rfl
  | succ f ih =>
    intro wip hw
    obtain ⟨a, b, rfl⟩ := hw
    obtain ⟨c, d, hcd⟩ := hto
    obtain ⟨pos, hpos⟩ := findStrAux_of_occurs frm a b 0
    have hfind : findStr (a ++ frm ++ b) frm 0 = some pos := by
      simpa [findStr] using hpos
    have hle := findStr_some _ _ _ _ hfind
    have hrep := strReplace_some (a ++ frm ++ b) to' pos frm.length (by omega)
    simp only [replaceLoop, hfind, hrep, Option.bind]
    apply ih
    exact ⟨(a ++ frm ++ b).take pos ++ c, d ++ (a ++ frm ++ b).drop (pos + frm.length),
      by rw [hcd]; simp⟩

theorem replaceLoop_mono (frm to' : List Char) (fuel : Nat) :
    ∀ (wip r : List Char), replaceLoop frm to' fuel wip = some r →
      ∀ k, replaceLoop frm to' (fuel + k) wip = some r := by
  induction fuel with
  | zero => intro wip r h; simp [replaceLoop] at h
  | succ f ih =>
    intro wip r h k
    have hk : f + 1 + k = (f + k) + 1 := by omega
    rw [hk]
    cases hf : findStr wip frm 0 with
    | none =>
      simp only [replaceLoop, hf] at h ⊢
      exact h
    | some pos =>
      cases hr : strReplace wip pos frm.length to' with
      | none => simp [replaceLoop, hf, hr] at h
      | some w2 =>
        simp only [replaceLoop, hf, hr, Option.bind] at h ⊢
        exact ih w2 r h k

theorem findAndReplaceLoop_mono (find replace : List Char) (fuel : Nat) :
    ∀ (d r : List Char) (pos : Nat), findAndReplaceLoop find replace fuel d pos = some r →
      ∀ k, findAndReplaceLoop find replace (fuel + k) d pos = some r := by
  induction fuel with
  | zero => intro d r pos h; simp [findAndReplaceLoop] at h
  | succ f ih =>
    intro d r pos h k
    have hk : f + 1 + k = (f + k) + 1 := by omega
    rw [hk]
    cases hf : findStr d find pos with
    | none =>
      simp only [findAndReplaceLoop, hf] at h ⊢
      exact h
    | some found =>
      cases hr : strReplace d found find.length replace with
      | none => simp [findAndReplaceLoop, hf, hr] at h
      | some d2 =>
        simp only [findAndReplaceLoop, hf, hr, Option.bind] at h ⊢
        exact ih d2 r _ h k

/-! ## Lemmas: the backward scans of getPath, getBasename, removeExtension, getExtension -/

theorem charAt_mem (s : List Char) (i : Nat) (h : i < s.length) : charAt s i ∈ s := by
  unfold charAt
  rw [List.getD_eq_getElem _ _ h]
  exact List.getElem_mem h

theorem charAt_of_mem (s : List Char) (c : Char) (h : c ∈ s) :
    ∃ i, i < s.length ∧ charAt s i = c := by
  obtain ⟨n, hn, he⟩ := List.getElem_of_mem h
  refine ⟨n, hn, ?_⟩
  unfold charAt
  rw [List.getD_eq_getElem _ _ hn, he]

theorem charAt_drop (s : List Char) (i k : Nat) : charAt (s.drop i) k = charAt s (i + k) := by
  simp [charAt, List.getD_eq_getElem?_getD, List.getElem?_drop]

theorem take_charAt_drop (s : List Char) (i : Nat) (h : i < s.length) :
    s.take i ++ [charAt s i] ++ s.drop (i + 1) = s := by
  unfold charAt
  rw [List.getD_eq_getElem _ _ h]
  simp

/-- The last index below `n` at which `p` holds, when there is one. -/
theorem exists_last_index (p : Nat → Bool) (n : Nat) (h : ∃ j, j < n ∧ p j = true) :
    ∃ i, i < n ∧ p i = true ∧ ∀ j, i < j → j < n → p j = false := by
  induction n with
  | zero =>
    obtain ⟨j, hj, _⟩ := h
    omega
  | succ n ih =>
    by_cases hn : p n = true
    · exact ⟨n, by omega, hn, fun j h1 h2 => by omega⟩
    · have hex : ∃ j, j < n ∧ p j = true := by
        obtain ⟨j, hj, hp⟩ := h
        have hne : j ≠ n := fun e => hn (e ▸ hp)
        exact ⟨j, by omega, hp⟩
      obtain ⟨i, hi, hp, hlast⟩ := ih hex
      refine ⟨i, by omega, hp, fun j h1 h2 => ?_⟩
      by_cases hjn : j = n
      · subst hjn
        simpa using hn
      · exact hlast j h1 (by omega)

theorem getPathLoop_none (s : List Char) (n : Nat)
    (h : ∀ j, j < n → isSeparator (charAt s j) = false) : getPathLoop s n = some [] := by
  induction n with
  | zero => rfl
  | succ n ih =>
    have hn := h n (by omega)
    simp only [isSeparator, decide_eq_false_iff_not] at hn
    rw [getPathLoop, if_neg hn]
    exact ih fun j hj => h j (by omega)

theorem getBasenameLoop_none (s : List Char) (n : Nat)
    (h : ∀ j, j < n → isSeparator (charAt s j) = false) : getBasenameLoop s n = some s := by
  induction n with
  | zero => rfl
  | succ n ih =>
    have hn := h n (by omega)
    simp only [isSeparator, decide_eq_false_iff_not] at hn
    rw [getBasenameLoop, if_neg hn]
    exact ih fun j hj => h j (by omega)

theorem removeExtensionLoop_none (s : List Char) (n : Nat)
    (h : ∀ j, j < n → charAt s j ≠ '.') : removeExtensionLoop s n = some s := by
  induction n with
  | zero => rfl
  | succ n ih =>
    rw [removeExtensionLoop, if_neg (h n (by omega))]
    exact ih fun j hj => h j (by omega)

theorem getExtensionLoop_none (s : List Char) (n : Nat)
    (h : ∀ j, j < n → charAt s j ≠ '.') : getExtensionLoop s n = some s := by
  induction n with
  | zero => rfl
  | succ n ih =>
    rw [getExtensionLoop, if_neg (h n (by omega))]
    exact ih fun j hj => h j (by omega)

theorem getPathLoop_last (s : List Char) (i n : Nat) (hi : i < n) (hn : n ≤ s.length)
    (hsep : isSeparator (charAt s i) = true)
    (hlast : ∀ j, i < j → j < n → isSeparator (charAt s j) = false) :
    getPathLoop s n = some (s.take i) := by
  induction n with
  | zero => omega
  | succ n ih =>
    by_cases hin : i = n
    · subst hin
      have hs : charAt s i = '/' ∨ charAt s i = '\\' := by simpa [isSeparator] using hsep
      rw [getPathLoop, if_pos hs]
      simp [substr]
    · have hnn := hlast n (by omega) (by omega)
      simp only [isSeparator, decide_eq_false_iff_not] at hnn
      rw [getPathLoop, if_neg hnn]
      exact ih (by omega) (by omega) fun j h1 h2 => hlast j h1 (by omega)

theorem getBasenameLoop_last (s : List Char) (i n : Nat) (hi : i < n) (hn : n ≤ s.length)
    (hsep : isSeparator (charAt s i) = true)
    (hlast : ∀ j, i < j → j < n → isSeparator (charAt s j) = false) :
    getBasenameLoop s n = some (s.drop (i + 1)) := by
  induction n with
  | zero => omega
  | succ n ih =>
    by_cases hin : i = n
    · subst hin
      have hs : charAt s i = '/' ∨ charAt s i = '\\' := by simpa [isSeparator] using hsep
      rw [getBasenameLoop, if_pos hs]
      have : ¬ (i + 1 > s.length) := by omega
      simp [substrFrom, this]
    · have hnn := hlast n (by omega) (by omega)
      simp only [isSeparator, decide_eq_false_iff_not] at hnn
      rw [getBasenameLoop, if_neg hnn]
      exact ih (by omega) (by omega) fun j h1 h2 => hlast j h1 (by omega)

theorem not_mem_drop_of_last (s : List Char) (i : Nat) (p : Char → Bool)
    (hlast : ∀ j, i < j → j < s.length → p (charAt s j) = false) :
    ∀ c ∈ s.drop (i + 1), p c = false := by
  intro c hc
  obtain ⟨k, hk, he⟩ := charAt_of_mem _ c hc
  rw [charAt_drop] at he
  rw [← he]
  simp only [List.length_drop] at hk
  exact hlast _ (by omega) (by omega)

/-! ## Lemmas: removeWhitespaces is a filter -/

theorem removeWhitespacesLoop_eq (s out : List Char) :
    removeWhitespacesLoop s out = out ++ s.filter fun c => !isBlank c := by
  induction s generalizing out with
  | nil => simp [removeWhitespacesLoop]
  | cons ch rest ih =>
    by_cases h : ch = ' ' ∨ ch = '\t' ∨ ch = '\n' ∨ ch = '\r'
    · have hb : isBlank ch = true := by simp only [isBlank, h, decide_True]
      rw [removeWhitespacesLoop, if_pos h, ih]
      simp [hb]
    · have hb : isBlank ch = false := by simp only [isBlank, h, decide_False]
      rw [removeWhitespacesLoop, if_neg h, ih]
      simp [hb]

theorem removeWhitespaces_eq (s : List Char) :
    removeWhitespaces s = s.filter fun c => !isBlank c := by
  simp [removeWhitespaces, removeWhitespacesLoop_eq]

/-! ## Lemmas: findAndReplace computes the reference substitution -/

theorem matchHere_eq (pat s : List Char) (h : matchHere pat s = true) :
    ∃ b, s = pat ++ b := by
  induction pat generalizing s with
  | nil => exact ⟨s, rfl⟩
  | cons p ps ih =>
    cases s with
    | nil => simp [matchHere] at h
    | cons x xs =>
      simp only [matchHere, Bool.and_eq_true, decide_eq_true_eq] at h
      obtain ⟨b, hb⟩ := ih xs h.2
      exact ⟨b, by rw [h.1, hb]; rfl⟩

theorem referenceSubstitution_skip (find replace p b : List Char) :
    referenceSubstitution find replace (p ++ b) p.length
      = referenceSubstitution find replace b 0 := by
  induction p with
  | nil => rfl
  | cons x xs ih => simpa [referenceSubstitution] using ih

theorem findStrAux_none_reference (find replace rest : List Char) (k : Nat)
    (h : findStrAux find rest k = none) : referenceSubstitution find replace rest 0 = rest := by
  induction rest generalizing k with
  | nil => rfl
  | cons x xs ih =>
    by_cases hm : matchHere find (x :: xs) = true
    · rw [findStrAux, if_pos hm] at h
      cases h
    · rw [findStrAux, if_neg hm] at h
      rw [referenceSubstitution, if_neg hm, ih (k + 1) h]

theorem findStrAux_some_reference (find rest : List Char) (k i : Nat) (hfind : find ≠ [])
    (h : findStrAux find rest k = some i) :
    ∃ a b, rest = a ++ find ++ b ∧ i = k + a.length
      ∧ ∀ replace, referenceSubstitution find replace rest 0
          = a ++ replace ++ referenceSubstitution find replace b 0 := by
  induction rest generalizing k with
  | nil =>
    have hp : find.isEmpty = false := by
      cases find with
      | nil => exact absurd rfl hfind
      | cons _ _ => rfl
    simp [findStrAux, hp] at h
  | cons x xs ih =>
    by_cases hm : matchHere find (x :: xs) = true
    · rw [findStrAux, if_pos hm] at h
      cases h
      obtain ⟨b, hb⟩ := matchHere_eq _ _ hm
      refine ⟨[], b, by simpa using hb, by simp, fun replace => ?_⟩
      rw [referenceSubstitution, if_pos hm]
      obtain ⟨f, fs, rfl⟩ : ∃ f fs, find = f :: fs := by
        cases find with
        | nil => exact absurd rfl hfind
        | cons f fs => exact ⟨f, fs, rfl⟩
      have hxs : xs = fs ++ b := by
        simp only [List.cons_append, List.cons.injEq] at hb
        exact hb.2
      have hl : (f :: fs).length - 1 = fs.length := by simp
      rw [hl, hxs, referenceSubstitution_skip]
      simp
    · rw [findStrAux, if_neg hm] at h
      obtain ⟨a, b, h1, h2, h3⟩ := ih (k + 1) h
      refine ⟨x :: a, b, by simp [h1], by simp [h2]; omega, fun replace => ?_⟩
      rw [referenceSubstitution, if_neg hm, h3 replace]
      simp

theorem findStr_at_boundary (done rest find : List Char) :
    findStr (done ++ rest) find done.length = findStrAux find rest done.length := by
  simp [findStr]

theorem findAndReplaceLoop_reference (find replace : List Char) (hfind : find ≠ []) (n : Nat) :
    ∀ (done rest : List Char) (fuel : Nat), rest.length ≤ n → n < fuel →
      findAndReplaceLoop find replace fuel (done ++ rest) done.length
        = some (done ++ referenceSubstitution find replace rest 0) := by
  induction n with
  | zero =>
    intro done rest fuel hr hf
    have hnil : rest = [] := List.length_eq_zero.1 (by omega)
    subst hnil
    obtain ⟨f, rfl⟩ : ∃ f, fuel = f + 1 := ⟨fuel - 1, by omega⟩
    have hp : find.isEmpty = false := by
      cases find with
      | nil => exact absurd rfl hfind
      | cons _ _ => rfl
    have hnone : findStr (done ++ []) find done.length = none := by
      rw [findStr_at_boundary]
      simp [findStrAux, hp]
    simp only [findAndReplaceLoop, hnone]
    rfl
  | succ n ih =>
    intro done rest fuel hr hf
    obtain ⟨f, rfl⟩ : ∃ f, fuel = f + 1 := ⟨fuel - 1, by omega⟩
    cases hs : findStrAux find rest done.length with
    | none =>
      have hnone : findStr (done ++ rest) find done.length = none := by
        rw [findStr_at_boundary, hs]
      simp only [findAndReplaceLoop, hnone]
      rw [findStrAux_none_reference find replace rest _ hs]
    | some i =>
      have hsome : findStr (done ++ rest) find done.length = some i := by
        rw [findStr_at_boundary, hs]
      obtain ⟨a, b, h1, h2, h3⟩ := findStrAux_some_reference find rest _ i hfind hs
      have hflen : 0 < find.length := List.length_pos.2 hfind
      have hrep : strReplace (done ++ rest) i find.length replace
          = some ((done ++ a ++ replace) ++ b) := by
        have hle : i ≤ (done ++ rest).length := by
          rw [h1, h2]
          simp only [List.length_append]
          omega
        rw [strReplace_some _ _ _ _ hle, h1, h2]
        have ht : (done ++ (a ++ find ++ b)).take (done.length + a.length) = done ++ a := by
          have : done ++ (a ++ find ++ b) = (done ++ a) ++ (find ++ b) := by simp
          rw [this, List.take_left']
          simp
        have hd : (done ++ (a ++ find ++ b)).drop (done.length + a.length + find.length) = b := by
          have : done ++ (a ++ find ++ b) = (done ++ a ++ find) ++ b := by simp
          rw [this, List.drop_left']
          simp only [List.length_append]
        rw [ht, hd]
      have hpos : i + replace.length = (done ++ a ++ replace).length := by
        rw [h2]
        simp only [List.length_append]
      have hb : b.length ≤ n := by
        have := congrArg List.length h1
        simp only [List.length_append] at this
        omega
      simp only [findAndReplaceLoop, hsome, hrep, Option.bind]
      rw [hpos, ih (done ++ a ++ replace) b f hb (by omega), h3 replace]
      simp

theorem findAndReplace_eq_reference (source find replace : List Char) (hfind : find ≠ [])
    (fuel : Nat) (hfuel : source.length < fuel) :
    findAndReplace fuel source find replace
      = some (referenceSubstitution find replace source 0) := by
  have h := findAndReplaceLoop_reference find replace hfind source.length [] source fuel
    (le_refl _) hfuel
  simpa [findAndReplace] using h

theorem referenceSubstitution_no_occurrence (find replace : List Char) (hfind : find ≠ [])
    (s : List Char) (h : ∀ a b, s ≠ a ++ find ++ b) :
    referenceSubstitution find replace s 0 = s := by
  cases hs : findStrAux find s 0 with
  | none => exact findStrAux_none_reference find replace s 0 hs
  | some i =>
    obtain ⟨a, b, h1, _, _⟩ := findStrAux_some_reference find s 0 i hfind hs
    exact absurd h1 (h a b)

theorem referenceSubstitution_same (find : List Char) (hfind : find ≠ []) (n : Nat) :
    ∀ s : List Char, s.length ≤ n → referenceSubstitution find find s 0 = s := by
  induction n with
  | zero =>
    intro s hs
    have hnil : s = [] := List.length_eq_zero.1 (by omega)
    subst hnil
    rfl
  | succ n ih =>
    intro s hs
    cases hf : findStrAux find s 0 with
    | none => exact findStrAux_none_reference find find s 0 hf
    | some i =>
      obtain ⟨a, b, h1, _, h3⟩ := findStrAux_some_reference find s 0 i hfind hf
      have hflen : 0 < find.length := List.length_pos.2 hfind
      have hb : b.length ≤ n := by
        have := congrArg List.length h1
        simp only [List.length_append] at this
        omega
      rw [h3 find, ih b hb, ← h1]

/-! ## Lemmas: the segments of split without the delimiter -/

theorem fieldsGo_false_notin {α : Type} [DecidableEq α] (c : α) (xs cur seg : List α)
    (hcur : c ∉ cur) (h : seg ∈ fieldsGo c false xs cur) : c ∉ seg := by
  induction xs generalizing cur with
  | nil =>
    simp only [fieldsGo, List.mem_singleton] at h
    rw [h]
    exact hcur
  | cons x xs ih =>
    by_cases hx : x = c
    · subst hx
      simp only [fieldsGo, if_true, List.mem_cons, Bool.false_eq_true, if_false] at h
      rcases h with h | h
      · rw [h]
        exact hcur
      · by_cases he : xs.isEmpty = true
        · simp [he] at h
        · simp only [he, if_false, Bool.false_eq_true] at h
          exact ih [] (by simp) h
    · simp only [fieldsGo, hx, if_false] at h
      apply ih (cur ++ [x]) _ h
      simp only [List.mem_append, List.mem_singleton, not_or]
      exact ⟨hcur, fun e => hx e.symm⟩

theorem fields_false_notin {α : Type} [DecidableEq α] (c : α) (s seg : List α)
    (h : seg ∈ fields c false s) : c ∉ seg := by
  cases s with
  | nil => simp [fields] at h
  | cons x xs =>
    simp only [fields, List.isEmpty_cons, Bool.false_eq_true, if_false] at h
    exact fieldsGo_false_notin c (x :: xs) [] seg (by simp) h

theorem fieldsGo_length {α : Type} [DecidableEq α] (c : α) (keep : Bool) (xs cur : List α) :
    (fieldsGo c keep xs cur).length
      = if xs = [] then 1 else if xs.getLast? = some c then xs.count c else xs.count c + 1 := by
  induction xs generalizing cur with
  | nil => simp [fieldsGo]
  | cons x xs ih =>
    cases xs with
    | nil =>
      by_cases hx : x = c
      · simp [fieldsGo, hx]
      · simp [fieldsGo, hx, Ne.symm hx]
    | cons y ys =>
      have hl : (x :: y :: ys).getLast? = (y :: ys).getLast? := List.getLast?_cons_cons
      by_cases hx : x = c
      · subst hx
        rw [fieldsGo_cons_eq, List.length_cons, ih, hl]
        simp only [reduceCtorEq, if_false, List.count_cons_self]
        split <;> omega
      · rw [fieldsGo_cons_ne c keep x _ cur hx, ih, hl]
        have hc : (x :: y :: ys).count c = (y :: ys).count c := by
          rw [List.count_cons_of_ne (Ne.symm hx)]
        simp only [reduceCtorEq, if_false, hc]

theorem fields_length {α : Type} [DecidableEq α] (c : α) (keep : Bool) (s : List α) :
    (fields c keep s).length
      = if s = [] then 0 else if s.getLast? = some c then s.count c else s.count c + 1 := by
  cases s with
  | nil => simp [fields]
  | cons x xs =>
    simp only [fields, List.isEmpty_cons, Bool.false_eq_true, if_false, fieldsGo_length]
    simp

theorem fieldsGo_intercalate_last {α : Type} [DecidableEq α] (c : α) (xs cur : List α)
    (hne : xs ≠ []) (h : xs.getLast? = some c) :
    List.intercalate [c] (fieldsGo c false xs cur) ++ [c] = cur ++ xs := by
  induction xs generalizing cur with
  | nil => exact absurd rfl hne
  | cons x xs ih =>
    cases xs with
    | nil =>
      have hx : x = c := by simpa using h
      simp [fieldsGo, hx, List.intercalate]
    | cons y ys =>
      have hl : (x :: y :: ys).getLast? = (y :: ys).getLast? := List.getLast?_cons_cons
      rw [hl] at h
      by_cases hx : x = c
      · subst hx
        rw [fieldsGo_cons_eq]
        have hstep : List.intercalate [x] (cur :: fieldsGo x false (y :: ys) [])
            = cur ++ x :: List.intercalate [x] (fieldsGo x false (y :: ys) []) := by
          cases hf : fieldsGo x false (y :: ys) [] with
          | nil => exact absurd hf (fieldsGo_ne_nil _ _ _ _)
          | cons a r => simp [List.intercalate, List.intersperse]
        simp only [Bool.false_eq_true, if_false]
        rw [hstep, List.append_assoc, List.cons_append, ih [] (by simp) h]
        simp
      · rw [fieldsGo_cons_ne c false x _ cur hx, ih (cur ++ [x]) (by simp) h]
        simp

theorem fields_intercalate_last {α : Type} [DecidableEq α] (c : α) (s : List α)
    (h : s.getLast? = some c) : List.intercalate [c] (fields c false s) ++ [c] = s := by
  cases s with
  | nil => simp at h
  | cons x xs =>
    simpa [fields] using fieldsGo_intercalate_last c (x :: xs) [] (by simp) h

/-! ## Lemmas: the loops of splitPath -/

theorem stripSlashLoop_eq (fuel : Nat) :
    ∀ d : List Char, d.length < fuel →
      stripSlashLoop fuel d = some (d.rdropWhile fun c => decide (c = '/')) := by
  induction fuel with
  | zero => intro d h; omega
  | succ fuel ih =>
    intro d h
    rcases List.eq_nil_or_concat d with hd | ⟨d2, x, hd⟩
    · subst hd
      simp [stripSlashLoop]
    · rw [List.concat_eq_append] at hd
      subst hd
      have hlast : charAt (d2 ++ [x]) ((d2 ++ [x]).length - 1) = x := by
        simp [charAt, List.getD_eq_getElem?_getD]
      have hlen : (d2 ++ [x]).length ≥ 1 := by simp
      have h2 : d2.length + 1 < fuel + 1 := by simpa using h
      by_cases hx : x = '/'
      · have hcond : (d2 ++ [x]).length ≥ 1 ∧ charAt (d2 ++ [x]) ((d2 ++ [x]).length - 1) = '/' :=
          ⟨hlen, by rw [hlast, hx]⟩
        have hsub : substr (d2 ++ [x]) 0 ((d2 ++ [x]).length - 1) = some d2 := by
          simp [substr]
        rw [stripSlashLoop, if_pos hcond, hsub]
        simp only [Option.bind]
        rw [ih d2 (by omega), List.rdropWhile_concat]
        simp [hx]
      · have hcond : ¬ ((d2 ++ [x]).length ≥ 1 ∧ charAt (d2 ++ [x]) ((d2 ++ [x]).length - 1) = '/') := by
          rw [hlast]
          exact fun h => hx h.2
        rw [stripSlashLoop, if_neg hcond, List.rdropWhile_concat]
        simp [hx]

theorem splitPathLoop_eq (n : Nat) :
    ∀ dirs : List (List Char), n ≤ dirs.length →
      splitPathLoop n dirs
        = some ((((dirs.take n).map fun d => d.rdropWhile fun c => decide (c = '/')).filter
            fun d => !d.isEmpty) ++ dirs.drop n) := by
  induction n with
  | zero => intro dirs _; simp [splitPathLoop]
  | succ i ih =>
    intro dirs h
    obtain ⟨a, x, b, rfl, ha⟩ : ∃ a x b, dirs = a ++ x :: b ∧ a.length = i := by
      refine ⟨dirs.take i, dirs.get ⟨i, by omega⟩, dirs.drop (i + 1), ?_, ?_⟩
      · simp
      · simp only [List.length_take]
        omega
    subst ha
    have hsplit : a ++ x :: b = (a ++ [x]) ++ b := by simp
    have hget : (a ++ x :: b).getD a.length [] = x := by
      rw [List.getD_eq_getElem?_getD, List.getElem?_append_right (le_refl _)]
      simp
    have herase : (a ++ x :: b).eraseIdx a.length = a ++ b := by
      rw [List.eraseIdx_append_of_length_le (le_refl _)]
      simp
    have hset : ∀ d, (a ++ x :: b).set a.length d = a ++ d :: b := by
      intro d
      rw [List.set_append_right _ _ (le_refl _)]
      simp
    have htake : (a ++ x :: b).take (a.length + 1) = a ++ [x] := by
      rw [hsplit, List.take_left' (by simp)]
    have htake2 : ∀ l : List (List Char), (a ++ l).take a.length = a :=
      fun l => List.take_left' rfl
    have hdrop : (a ++ x :: b).drop (a.length + 1) = b := by
      rw [hsplit, List.drop_left' (by simp)]
    have hdrop2 : ∀ l : List (List Char), (a ++ l).drop a.length = l :=
      fun l => List.drop_left' rfl
    rw [splitPathLoop, hget, stripSlashLoop_eq _ x (by omega)]
    simp only [Option.bind]
    by_cases hemp : (x.rdropWhile fun c => decide (c = '/')).length = 0
    · rw [if_pos hemp, herase, ih (a ++ b) (by simp), htake, htake2, hdrop, hdrop2]
      have he : (x.rdropWhile fun c => decide (c = '/')) = [] := List.length_eq_zero.1 hemp
      simp [he]
    · rw [if_neg hemp, hset, ih _ (by simp), htake, htake2, hdrop, hdrop2]
      have he : (x.rdropWhile fun c => decide (c = '/')) ≠ [] :=
        fun e => hemp (by rw [e]; rfl)
      simp [he]

theorem splitPath_eq (path : List Char) :
    splitPath path
      = some (((fields ':' false path).map fun d => d.rdropWhile fun c => decide (c = '/')).filter
          fun d => !d.isEmpty) := by
  simp only [splitPath, keepSplitCharDefault, split_eq_fields, Option.bind]
  rw [splitPathLoop_eq _ _ (le_refl _)]
  simp

theorem mem_rdropWhile {α : Type} (p : α → Bool) (l : List α) (x : α)
    (h : x ∈ l.rdropWhile p) : x ∈ l := by
  exact ( List.rdropWhile_prefix p l).subset h

theorem rdropWhile_getLast? {α : Type} (p : α → Bool) (l : List α) (x : α)
    (h : (l.rdropWhile p).getLast? = some x) : p x = false := by
  have hne : l.rdropWhile p ≠ [] := by
    intro e
    rw [e] at h
    simp at h
  have := List.rdropWhile_last_not p l hne
  rw [List.getLast?_eq_getLast _ hne] at h
  simp only [Option.some.injEq] at h
  rw [h] at this
  simpa using this

/-! ## Lemmas: xmlDecode on text without entities and on one numeric entity -/

theorem noEntityStart_tail (x : Char) (xs : List Char) (h : noEntityStart (x :: xs) = true) :
    noEntityStart xs = true := by
  cases xs with
  | nil => rfl
  | cons y ys =>
    simp only [noEntityStart, Bool.and_eq_true] at h
    exact h.2

theorem charToWide_ascii (c : Char) (h : isAscii c = true) : charToWide c = wch c := by
  have h2 : c.toNat < 128 := by simpa [isAscii] using h
  simp [charToWide, wch, h2]

theorem xmlDecodeLoop_plain (n : Nat) :
    ∀ (input entity : List Char) (isHex : Bool) (output : List Int), input.length ≤ n →
      (∀ c ∈ input, isAscii c = true) → noEntityStart input = true →
      input.getLast? ≠ some '&' →
      xmlDecodeLoop input DecodeState.NORMAL entity isHex output = output ++ widen input := by
  induction n using Nat.strong_induction_on with
  | _ n ih =>
    intro input entity isHex output hlen hascii hno hlast
    cases input with
    | nil => simp [xmlDecodeLoop, widen]
    | cons ch rest =>
      have hch := charToWide_ascii ch (hascii ch (by simp))
      have hrest : ∀ c ∈ rest, isAscii c = true := fun c hc => hascii c (by simp [hc])
      simp only [List.length_cons] at hlen
      by_cases hamp : ch = '&'
      · subst hamp
        cases rest with
        | nil => simp at hlast
        | cons y rest2 =>
          have hy := charToWide_ascii y (hrest y (by simp))
          have hrest2 : ∀ c ∈ rest2, isAscii c = true := fun c hc => hrest c (by simp [hc])
          have hne : y ≠ '#' := by
            intro e
            simp [noEntityStart, e] at hno
          have hno2 : noEntityStart rest2 = true :=
            noEntityStart_tail _ _ (noEntityStart_tail _ _ hno)
          have hlast2 : rest2.getLast? ≠ some '&' := by
            cases rest2 with
            | nil => simp
            | cons z zs =>
              simpa [List.getLast?_cons_cons] using hlast
          simp only [List.length_cons] at hlen
          rw [xmlDecodeLoop, if_pos rfl, xmlDecodeLoop, if_pos hne,
            ih (n - 2) (by omega) rest2 _ _ _ (by omega) hrest2 hno2 hlast2, hy]
          simp [widen]
      · have hlast2 : rest.getLast? ≠ some '&' := by
          cases rest with
          | nil => simp
          | cons z zs => simpa [List.getLast?_cons_cons] using hlast
        rw [xmlDecodeLoop, if_neg hamp,
          ih (n - 1) (by omega) rest _ _ _ (by omega) hrest (noEntityStart_tail _ _ hno) hlast2,
          hch]
        simp [widen]

/-- An ASCII text in which no `&` is followed by `#` and which does not end with `&` is
returned unchanged by xmlDecode. -/
theorem xmlDecode_plain (input : List Char) (hascii : ∀ c ∈ input, isAscii c = true)
    (hno : noEntityStart input = true) (hlast : input.getLast? ≠ some '&') :
    xmlDecode input = widen input := by
  rw [xmlDecode, xmlDecodeLoop_plain input.length input _ _ _ (le_refl _) hascii hno hlast]
  simp

theorem hexDigitChars_facts :
    ∀ c ∈ hexDigitChars, isspace c = false ∧ c ≠ '-' ∧ c ≠ '+' ∧ isDigitOf 16 c = true
      ∧ c ≠ 'x' ∧ c ≠ ';' ∧ c ≠ 'X' := by
  decide

theorem decChars_body : ∀ c ∈ decChars, c ≠ 'x' ∧ c ≠ ';' ∧ c ≠ 'X' := by
  decide

theorem xmlDecodeLoop_body (ds rest entity : List Char) (isHex : Bool) (output : List Int)
    (h : ∀ c ∈ ds, c ≠ 'x' ∧ c ≠ ';') :
    xmlDecodeLoop (ds ++ rest) DecodeState.ENTITY_BODY entity isHex output
      = xmlDecodeLoop rest DecodeState.ENTITY_BODY (entity ++ ds) isHex output := by
  induction ds generalizing entity with
  | nil => simp
  | cons d ds ih =>
    have hd := h d (by simp)
    have hrest : ∀ c ∈ ds, c ≠ 'x' ∧ c ≠ ';' := fun c hc => h c (by simp [hc])
    rw [List.cons_append, xmlDecodeLoop]
    simp only [hd.1, false_and, if_false, hd.2]
    rw [ih _ hrest]
    simp

theorem digitsValue_zero_cons (base : Nat) (t : List Char) :
    digitsValue base ('0' :: t) = digitsValue base t := by
  have h0 : digitValue '0' = some 0 := by decide
  simp [digitsValue, h0]

theorem sscanfInt_hexDigits (l : List Char) (hall : ∀ c ∈ l, c ∈ hexDigitChars) (hne : l ≠ [])
    (hn : digitsValue 16 l < 2 ^ 31) :
    sscanfInt true l = some (digitsValue 16 l : Int) := by
  cases l with
  | nil => exact absurd rfl hne
  | cons c t =>
    have hc := hexDigitChars_facts c (hall c (by simp))
    have hsmall : ¬ (digitsValue 16 (c :: t) ≥ 2 ^ 64) := by omega
    by_cases hc0 : c = '0'
    · subst hc0
      have hdigits : ∀ x ∈ t, isDigitOf 16 x = true :=
        fun x hx => (hexDigitChars_facts x (hall x (by simp [hx]))).2.2.2.1
      have htw := takeWhile_all (isDigitOf 16) t hdigits
      have hx : ¬ (t.head? = some 'x' ∨ t.head? = some 'X') := by
        cases t with
        | nil => simp
        | cons y ys =>
          have hy := hexDigitChars_facts y (hall y (by simp))
          simp [hy.2.2.2.2.1, hy.2.2.2.2.2.2]
      rw [digitsValue_zero_cons] at hsmall hn ⊢
      simp only [sscanfInt, List.dropWhile_cons, hc.1, Bool.false_eq_true, if_false,
        List.head?_cons, Option.some.injEq, hc.2.1, hc.2.2.1, or_self, decide_False,
        decide_True, if_true, List.tail_cons, hx, Bool.and_false, Bool.or_false, htw,
        Bool.not_true, Bool.false_and, hsmall, reduceCtorEq]
      rw [toInt32_small _ hn]
    · have hdigits : ∀ x ∈ c :: t, isDigitOf 16 x = true :=
        fun x hx => (hexDigitChars_facts x (hall x hx)).2.2.2.1
      have htw := takeWhile_all (isDigitOf 16) (c :: t) hdigits
      simp only [sscanfInt, List.dropWhile_cons, hc.1, Bool.false_eq_true, if_false,
        List.head?_cons, Option.some.injEq, hc.2.1, hc.2.2.1, or_self, decide_False, hc0,
        Bool.false_and, Bool.or_false, if_true, htw, Bool.not_false, List.isEmpty_cons,
        Bool.and_false, Bool.true_and, hsmall]
      rw [toInt32_small _ hn]

theorem sscanfInt_decimal (l : List Char) (hl : isNumeral l) (h0 : l.head? ≠ some '0')
    (hn : digitsValue 10 l < 2 ^ 31) :
    sscanfInt false l = some (digitsValue 10 l : Int) := by
  obtain ⟨hne, hall⟩ := hl
  cases l with
  | nil => exact absurd rfl hne
  | cons c t =>
    have hc := decChars_facts c (decimal_mem c (hall c (by simp)))
    have hc0 : c ≠ '0' := by simpa using h0
    have hdigits : ∀ x ∈ c :: t, isDigitOf 10 x = true :=
      fun x hx => (decChars_facts x (decimal_mem x (hall x hx))).2.2.2.1
    have htw := takeWhile_all (isDigitOf 10) (c :: t) hdigits
    have hsmall : ¬ (digitsValue 10 (c :: t) ≥ 2 ^ 63) := by omega
    simp only [sscanfInt, List.dropWhile_cons, hc.1, Bool.false_eq_true, if_false,
      List.head?_cons, Option.some.injEq, hc.2.1, hc.2.2.1, or_self, decide_False, hc0,
      Bool.false_and, Bool.or_false, if_true, htw, Bool.not_false, List.isEmpty_cons,
      Bool.and_false, Bool.true_and, hsmall]
    rw [toInt32_small _ hn]

theorem xmlDecode_entity_body (body : List Char) (isHex : Bool) (output : List Int)
    (v : Int) (hbody : ∀ c ∈ body, c ≠ 'x' ∧ c ≠ ';') (hscan : sscanfInt isHex body = some v) :
    xmlDecodeLoop (body ++ [';']) DecodeState.ENTITY_BODY [] isHex output = output ++ [v] := by
  rw [xmlDecodeLoop_body body _ _ _ _ hbody, xmlDecodeLoop]
  have hsemi : ¬ ((';' : Char) = 'x' ∧ ([] ++ body).length = 0) := by
    intro h
    exact absurd h.1 (by decide)
  rw [if_neg hsemi, if_pos rfl, List.nil_append, hscan]
  simp [xmlDecodeLoop]

/-! ## Lemmas: removeExtension and getExtension at the last dot -/

theorem removeExtensionLoop_last (s : List Char) (i n : Nat) (hi : i < n) (hn : n ≤ s.length)
    (hdot : charAt s i = '.') (hlast : ∀ j, i < j → j < n → charAt s j ≠ '.') :
    removeExtensionLoop s n = some (s.take i) := by
  induction n with
  | zero => omega
  | succ n ih =>
    by_cases hin : i = n
    · subst hin
      rw [removeExtensionLoop, if_pos hdot]
      simp [substr]
    · rw [removeExtensionLoop, if_neg (hlast n (by omega) (by omega))]
      exact ih (by omega) (by omega) fun j h1 h2 => hlast j h1 (by omega)

theorem getExtensionLoop_last (s : List Char) (i n : Nat) (hi : i < n) (hn : n ≤ s.length)
    (hdot : charAt s i = '.') (hlast : ∀ j, i < j → j < n → charAt s j ≠ '.') :
    getExtensionLoop s n = some (s.drop (i + 1)) := by
  induction n with
  | zero => omega
  | succ n ih =>
    by_cases hin : i = n
    · subst hin
      rw [getExtensionLoop, if_pos hdot]
      have : ¬ (i + 1 > s.length) := by omega
      simp [substrFrom, this]
    · rw [getExtensionLoop, if_neg (hlast n (by omega) (by omega))]
      exact ih (by omega) (by omega) fun j h1 h2 => hlast j h1 (by omega)

/-- The last dot of a string that holds one. -/
theorem exists_last_dot (s : List Char) (h : '.' ∈ s) :
    ∃ i, i < s.length ∧ charAt s i = '.' ∧ ∀ j, i < j → j < s.length → charAt s j ≠ '.' := by
  obtain ⟨j, hj, he⟩ := charAt_of_mem s _ h
  obtain ⟨i, hi, hp, hlast⟩ := exists_last_index (fun k => decide (charAt s k = '.')) s.length
    ⟨j, hj, by simp [he]⟩
  refine ⟨i, hi, by simpa using hp, fun k h1 h2 => ?_⟩
  simpa using hlast k h1 h2

/-! ## Lemmas: the wide insertValues on one `%<digit>$` placeholder -/

theorem fields_one_placeholder {α : Type} [DecidableEq α] (c : α) (L body : List α)
    (hL : c ∉ L) (hne : body ≠ []) (hbody : c ∉ body) :
    fields c true (L ++ c :: body) = [L, c :: body] := by
  have hemp : (L ++ c :: body).isEmpty = false := by
    cases L <;> rfl
  have hb : body.isEmpty = false := by
    cases body with
    | nil => exact absurd rfl hne
    | cons _ _ => rfl
  rw [fields, hemp]
  simp only [Bool.false_eq_true, if_false]
  rw [fieldsGo_append c true L body [] hL, hb]
  simp only [Bool.false_eq_true, if_false, if_true, List.nil_append]
  rw [fieldsGo_notin c true body [c] hbody]
  rfl

theorem wcharAt_zero_of_notin (L : List Int) (h : wch '%' ∉ L) : wcharAt L 0 ≠ wch '%' := by
  cases L with
  | nil => decide
  | cons x xs =>
    intro e
    apply h
    simp only [wcharAt, List.getD_cons_zero] at e
    simp [e]

theorem wch_digitChar (d : Nat) (h : d ≤ 9) : wch (digitChar d) = 48 + (d : Int) := by
  interval_cases d <;> rfl

theorem subString_tail4 (a b c d : Int) (R : List Int) :
    subString (a :: b :: c :: d :: R) 4 (((a :: b :: c :: d :: R).length : Int) - 4) = R := by
  unfold subString
  cases R with
  | nil => simp
  | cons x xs =>
    have h : ¬ ((((a :: b :: c :: d :: x :: xs).length : Int) - 4 ≤ 0)
        ∨ 4 ≥ (a :: b :: c :: d :: x :: xs).length) := by
      simp only [List.length_cons]
      omega
    rw [if_neg h]
    simp only [List.length_cons, List.drop_succ_cons, List.drop_zero]
    have h2 : ((((xs.length + 1 + 1 + 1 + 1 + 1 : Nat) : Int) - 4).toNat) = xs.length + 1 := by
      omega
    rw [h2]
    exact List.take_length (x :: xs)

/-- The step of the wide insertValues loop on a segment `%<digit>$<t><R>`. -/
theorem insertValuesWLoop_dollar (all_vals : List (List Int)) (d : Nat) (t : Int)
    (R acc : List Int) (k : Nat) (hd : d ≤ 9) :
    insertValuesWLoop all_vals [wch '%' :: wch (digitChar d) :: wch '$' :: t :: R] k acc
      = if ((((d : Int) - 1) % 2 ^ 32).toNat) ≥ all_vals.length then acc ++ widen qq ++ R
        else acc ++ (all_vals.getD ((((d : Int) - 1) % 2 ^ 32).toNat) [] ++ R) := by
  have hdc := wch_digitChar d hd
  have h0 : wcharAt (wch '%' :: wch (digitChar d) :: wch '$' :: t :: R) 0 = wch '%' := rfl
  have h1 : wcharAt (wch '%' :: wch (digitChar d) :: wch '$' :: t :: R) 1 = 48 + (d : Int) := by
    simp [wcharAt, hdc]
  have h2 : wcharAt (wch '%' :: wch (digitChar d) :: wch '$' :: t :: R) 2 = wch '$' := rfl
  have hs : wch 's' = 115 := rfl
  have hdd : wch 'd' = 100 := rfl
  have hi : wch 'i' = 105 := rfl
  have hf : wch 'f' = 102 := rfl
  have hz : wch '0' = 48 := rfl
  have h9 : wch '9' = 57 := rfl
  have hnot : ¬ ((48 + (d : Int) = 115) ∨ (48 + (d : Int) = 100) ∨ (48 + (d : Int) = 105)
      ∨ (48 + (d : Int) = 102)) := by omega
  have hdig : isdigit (48 + (d : Int)) = true := by
    simp only [isdigit, hz, h9, decide_eq_true_eq]
    omega
  have hlen4 : (wch '%' :: wch (digitChar d) :: wch '$' :: t :: R).length ≥ 4 := by
    simp only [List.length_cons]
    omega
  have hidx : (48 + (d : Int) - 48 + -1) = (d : Int) - 1 := by omega
  rw [insertValuesWLoop]
  simp only [h0, ne_eq, not_true_eq_false, if_false, h1, hs, hdd, hi, hf, hnot, hdig, if_true,
    h2, hlen4, and_self, decide_True, subString_tail4, hz, hidx, insertValuesWLoop]

/-! ## Lemmas: versionToInt within the widths of its weights -/

theorem microValue_le_nine (letter : Option Char) (h : ∀ ch ∈ letter, 'a' ≤ ch ∧ ch ≤ 'i') :
    (∀ ch ∈ letter, 'a' ≤ ch ∧ ch ≤ 'z') ∧ 0 ≤ microValue letter ∧ microValue letter ≤ 9 := by
  cases letter with
  | none => simp [microValue]
  | some ch =>
    have hc := h ch rfl
    have h1 := (char_le_iff _ _).1 hc.1
    have h2 := (char_le_iff _ _).1 hc.2
    have h97 : ('a').toNat = 97 := rfl
    have h105 : ('i').toNat = 105 := rfl
    have h122 : ('z').toNat = 122 := rfl
    rw [h97] at h1
    rw [h105] at h2
    refine ⟨?_, ?_, ?_⟩
    · intro c hcm
      have : c = ch := by simpa using hcm.symm
      subst this
      refine ⟨hc.1, (char_le_iff _ _).2 ?_⟩
      rw [h122]
      omega
    · simp only [microValue]
      omega
    · simp only [microValue]
      omega

/-- The value of versionToInt within the widths, with the bounds of the five numbers. -/
theorem versionToInt_withinWidths (comps : List (List Char)) (letter : Option Char)
    (rc : Option Nat) (hw : withinWidths comps letter rc) :
    versionToInt (versionString comps letter rc)
        = some (1000000 * compValue comps 0 + 10000 * compValue comps 1
            + 100 * compValue comps 2 + 10 * microValue letter + rcValue rc)
      ∧ 0 ≤ compValue comps 0
      ∧ (0 ≤ compValue comps 1 ∧ compValue comps 1 ≤ 99)
      ∧ (0 ≤ compValue comps 2 ∧ compValue comps 2 ≤ 99)
      ∧ (0 ≤ microValue letter ∧ microValue letter ≤ 9)
      ∧ (0 ≤ rcValue rc ∧ rcValue rc ≤ 9) := by
  obtain ⟨h1, h3, hnum, hy, hz, hletter, hrc, hfit⟩ := hw
  have hm := microValue_le_nine letter hletter
  have hr := rcValue_bounds rc hrc
  exact ⟨versionToInt_sum comps letter rc h1 h3 hnum hm.1 hrc hfit, compValue_nonneg comps 0,
    ⟨compValue_nonneg comps 1, hy⟩, ⟨compValue_nonneg comps 2, hz⟩, hm.2, hr.1, hr.2.1⟩

/-! ## The claims -/

/-- With keepSplitChar, the segments of a string that does not end with the delimiter
concatenate to the string. -/
theorem split_keep_flatten (s : List Char) (c : Char) (h : s.getLast? ≠ some c) :
    (split s c true).map List.flatten = some s := by
  simp [split_eq_fields, fields_flatten c s h]

/-- C2, at the input `"a%"`: split with keepSplitChar returns the single segment `"a"`;
the final delimiter is not kept, so the segments do not concatenate to the input. -/
theorem split_keep_drops_trailing_delimiter :
    split "a%".toList '%' true = some ["a".toList]
      ∧ (split "a%".toList '%' true).map List.flatten ≠ some "a%".toList := by
  decide

/-- C3: for a string that neither begins nor ends with the delimiter, joining the segments
of split (keepSplitChar = false) with the delimiter gives the string back (the proof needs
only that the string does not end with the delimiter). -/
theorem split_rejoin (s : List Char) (c : Char) (_hhead : s.head? ≠ some c)
    (hlast : s.getLast? ≠ some c) :
    (split s c false).map (List.intercalate [c]) = some s := by
  simp [split_eq_fields, fields_intercalate c s hlast]

/-- Witness of C3 at `"a b=c d=e"` split at the blank. -/
theorem split_rejoin_witness :
    "a b=c d=e".toList.head? ≠ some ' ' ∧ "a b=c d=e".toList.getLast? ≠ some ' '
      ∧ (split "a b=c d=e".toList ' ' false).map (List.intercalate [' '])
          = some "a b=c d=e".toList :=
  ⟨by decide, by decide, split_rejoin "a b=c d=e".toList ' ' (by decide) (by decide)⟩

/-- C4: positional substitution. For a template `L0 %s L1 ... %s Ln` whose literal parts
hold no `%` and exactly `n` values, insertValues returns `L0 v1 L1 ... vn Ln`. -/
theorem insertValues_positional (L0 : List Char) (Ls vs : List (List Char))
    (h0 : '%' ∉ L0) (hLs : ∀ L ∈ Ls, '%' ∉ L) (hlen : vs.length = Ls.length) :
    insertValues (L0 ++ (Ls.map fun L => '%' :: 's' :: L).flatten) vs
      = some (L0 ++ (List.zipWith (fun v L => v ++ L) vs Ls).flatten) := by
  rw [insertValues_eq_outs]
  by_cases hemp : (L0 ++ (Ls.map fun L => '%' :: 's' :: L).flatten).isEmpty = true
  · have hnil : L0 ++ (Ls.map fun L => '%' :: 's' :: L).flatten = [] := by
      simpa using hemp
    have hL0 : L0 = [] := (List.append_eq_nil.1 hnil).1
    have hLs0 : Ls = [] := by
      cases Ls with
      | nil => rfl
      | cons L Ls => simp [hL0] at hnil
    subst hL0 hLs0
    simp [fields, outs]
  · have hf : fields '%' true (L0 ++ (Ls.map fun L => '%' :: 's' :: L).flatten)
        = L0 :: Ls.map fun L => '%' :: 's' :: L := by
      simp only [fields, hemp, if_false, Bool.false_eq_true]
      simpa using fieldsGo_template Ls L0 [] h0 hLs
    have hp : isPositional L0 = false := by
      simp [isPositional, charAt_zero_of_notin L0 h0]
    have ho := outs_template Ls vs [] hlen
    simp only [List.nil_append, List.length_nil] at ho
    simp only [hf, outs, hp, Bool.false_eq_true, if_false, List.flatten_cons, ho,
      segOut_literal _ _ _ (charAt_zero_of_notin L0 h0)]

/-- Witness of C4: insertValues("%s and %s", ["a","b"]) is "a and b". -/
theorem insertValues_positional_witness :
    '%' ∉ ([] : List Char) ∧ (∀ L ∈ [" and ".toList, []], '%' ∉ L)
      ∧ ["a".toList, "b".toList].length = [" and ".toList, ([] : List Char)].length
      ∧ insertValues "%s and %s".toList ["a".toList, "b".toList] = some "a and b".toList :=
  ⟨by decide, by decide, by decide,
    insertValues_positional [] [" and ".toList, []] ["a".toList, "b".toList]
      (by decide) (by decide) (by decide)⟩

/-- C5: indexed substitution. For a digit `dc` naming an existing value and `R` without
`%`, the template `L %dc R` with `L` free of `%` gives `L ++ values[dc] ++ R`; and after
any template `P` not ending in `%`, whatever placeholders it holds, the segment `%dc R`
adds `values[dc] ++ R` to what `P` alone gives. -/
theorem insertValues_indexed (dc : Char) (all_vals : List (List Char)) (R : List Char)
    (hd : '0' ≤ dc ∧ dc ≤ '9') (hlen : dc.toNat - ('0').toNat < all_vals.length)
    (hR : '%' ∉ R) :
    (∀ L : List Char, '%' ∉ L →
      insertValues (L ++ '%' :: dc :: R) all_vals
        = some (L ++ all_vals.getD (dc.toNat - ('0').toNat) [] ++ R))
    ∧ (∀ P : List Char, P.getLast? ≠ some '%' →
      insertValues (P ++ '%' :: dc :: R) all_vals
        = (insertValues P all_vals).map fun r =>
            r ++ all_vals.getD (dc.toNat - ('0').toNat) [] ++ R) := by
  have hgen : ∀ P : List Char, P.getLast? ≠ some '%' →
      insertValues (P ++ '%' :: dc :: R) all_vals
        = (insertValues P all_vals).map fun r =>
            r ++ all_vals.getD (dc.toNat - ('0').toNat) [] ++ R := by
    intro P hP
    rw [insertValues_eq_outs, insertValues_eq_outs,
      outs_fields_snoc all_vals P R dc hP (digit_ne_percent dc hd) hR,
      segOut_indexed all_vals _ dc R hd hlen]
    simp
  refine ⟨?_, hgen⟩
  intro L hL
  have hlast : L.getLast? ≠ some '%' := by
    intro h
    exact hL (List.mem_of_mem_getLast? h)
  rw [hgen L hlast, insertValues_literal L all_vals hL]
  simp

/-- Witness of C5: insertValues("%1 then %0", ["x","y"]) is "y then x". -/
theorem insertValues_indexed_witness :
    (('0' ≤ '0' ∧ '0' ≤ '9') ∧ ('0').toNat - ('0').toNat < ["x".toList, "y".toList].length
      ∧ '%' ∉ ([] : List Char) ∧ "%1 then ".toList.getLast? ≠ some '%')
    ∧ insertValues ("%1 then ".toList ++ '%' :: '0' :: []) ["x".toList, "y".toList]
        = some "y then x".toList :=
  ⟨⟨by decide, by decide, by decide, by decide⟩,
    ((insertValues_indexed '0' ["x".toList, "y".toList] []
      (by decide) (by decide) (by decide)).2 "%1 then ".toList (by decide)).trans (by decide)⟩

/-- C6: insertValues always returns a string, the concatenation of one contribution per
segment of the template split at `%`; a positional placeholder whose turn is at or past
the number of values, and an indexed placeholder whose digit is at or past it, contribute
`??` followed by the text after the two-character marker. -/
theorem insertValues_missing_values (s : List Char) (all_vals : List (List Char)) :
    (∃ segs cs : List (List Char),
      split s '%' true = some segs ∧ insertValues s all_vals = some cs.flatten
      ∧ cs.length = segs.length
      ∧ ∀ (i : Nat) (seg : List Char), segs[i]? = some seg →
          (isPositional seg = true → all_vals.length ≤ turn segs i →
            cs[i]? = some (qq ++ seg.drop 2))
          ∧ (isIndexed seg = true → all_vals.length ≤ indexOfSeg seg →
            cs[i]? = some (qq ++ seg.drop 2)))
    ∧ insertValues "%s and %s".toList ["a".toList] = some "a and ??".toList := by
  refine ⟨⟨fields '%' true s, outs all_vals (fields '%' true s) 0, split_eq_fields s '%' true,
    insertValues_eq_outs s all_vals, outs_length _ _ _, ?_⟩, by decide⟩
  intro i seg hseg
  rw [outs_get? all_vals _ 0 i seg hseg]
  constructor
  · intro hp hk
    have hk2 : 0 + turn (fields '%' true s) i ≥ all_vals.length := by omega
    simp only [segOut, hp, if_true, hk2]
  · intro hi hk
    have hp : isPositional seg = false := by
      simp only [isIndexed, decide_eq_true_eq] at hi
      simp only [isPositional, decide_eq_false_iff_not, not_and]
      intro _
      rintro (h | h | h | h) <;> rw [h] at hi <;> exact absurd hi.2.2 (by decide)
    have hk2 : indexOfSeg seg ≥ all_vals.length := hk
    simp only [segOut, hp, hi, if_true, hk2, Bool.false_eq_true, if_false]

/-- Witness of C6 at insertValues("%s and %s", ["a"]): the third segment `%s` has turn 1,
which is the number of values, and contributes `??`. -/
theorem insertValues_missing_values_witness :
    ∃ segs cs : List (List Char),
      split "%s and %s".toList '%' true = some segs
      ∧ insertValues "%s and %s".toList ["a".toList] = some cs.flatten
      ∧ segs[2]? = some "%s".toList ∧ isPositional "%s".toList = true
      ∧ ["a".toList].length ≤ turn segs 2 ∧ cs[2]? = some "??".toList := by
  obtain ⟨segs, cs, hsplit, hins, _, hall⟩ :=
    (insertValues_missing_values "%s and %s".toList ["a".toList]).1
  have hlit : split "%s and %s".toList '%' true
      = some ["".toList, "%s and ".toList, "%s".toList] := by decide
  have hsegs : segs = ["".toList, "%s and ".toList, "%s".toList] :=
    Option.some.inj (hsplit.symm.trans hlit)
  subst hsegs
  exact ⟨_, cs, hsplit, hins, by decide, by decide, by decide,
    (hall 2 "%s".toList (by decide)).1 (by decide) (by decide)⟩

/-- C7, at the input `"100%"`: the template holds no placeholder, and insertValues returns
`"100"`, without the final `%`, which split with keepSplitChar has dropped. -/
theorem insertValues_drops_trailing_percent :
    (∀ (pre post : List Char) (x : Char), "100%".toList = pre ++ '%' :: x :: post →
      ¬ (x = 's' ∨ x = 'd' ∨ x = 'i' ∨ x = 'f' ∨ ('0' ≤ x ∧ x ≤ '9')))
    ∧ insertValues "100%".toList [] = some "100".toList
    ∧ insertValues "100%".toList [] ≠ some "100%".toList := by
  refine ⟨?_, by decide, by decide⟩
  intro pre post x h
  have hlen := congrArg List.length h
  simp at hlen
  have hpre : pre.length ≤ 2 := by omega
  have h3 := congrArg (fun l => l.getD pre.length 'a') h
  simp only [List.getD_eq_getElem?_getD] at h3
  rw [List.getElem?_append_right (Nat.le_refl _)] at h3
  simp only [Nat.sub_self, List.getElem?_cons_zero, Option.getD_some] at h3
  have : pre.length = 0 ∨ pre.length = 1 ∨ pre.length = 2 := by omega
  rcases this with h | h | h <;> rw [h] at h3 <;> simp at h3

/-- C8, refuted as stated: on the ASCII template `%1$s` with the ASCII values `a`, `b` the
narrow insertValues returns `b$s` and the wide one returns `a`; and on the template `%s`
with a value that holds a NUL between `a` and `b`, the narrow one returns the whole value
and the wide one stops at the NUL. -/
theorem insertValues_narrow_wide_differ :
    ((∀ ch ∈ "%1$s".toList, ch.toNat < 128)
      ∧ (∀ v ∈ ["a".toList, "b".toList], ∀ ch ∈ v, ch.toNat < 128)
      ∧ insertValues "%1$s".toList ["a".toList, "b".toList] = some "b$s".toList
      ∧ insertValuesW (widen "%1$s".toList) (["a".toList, "b".toList].map widen)
          = some (widen "a".toList)
      ∧ insertValuesW (widen "%1$s".toList) (["a".toList, "b".toList].map widen)
          ≠ (insertValues "%1$s".toList ["a".toList, "b".toList]).map widen)
    ∧ ((∀ ch ∈ ['a', Char.ofNat 0, 'b'], ch.toNat < 128)
      ∧ insertValues "%s".toList [['a', Char.ofNat 0, 'b']] = some ['a', Char.ofNat 0, 'b']
      ∧ insertValuesW (widen "%s".toList) ([['a', Char.ofNat 0, 'b']].map widen)
          = some (widen "a".toList)) := by
  decide

/-- C8, amended: for an ASCII template in which every `%<digit>$` is directly followed by
the next `%` or ends the template, and ASCII values without NUL, the wide and the narrow
insertValues return the same text. -/
theorem insertValues_narrow_wide (s : List Char) (all_vals : List (List Char))
    (_hs : ∀ ch ∈ s, ch.toNat < 128)
    (hv : ∀ v ∈ all_vals, ∀ ch ∈ v, 0 < ch.toNat ∧ ch.toNat < 128)
    (hdollar : ∀ (pre post : List Char) (d x : Char),
      s = pre ++ '%' :: d :: '$' :: x :: post → '0' ≤ d ∧ d ≤ '9' → x = '%') :
    insertValuesW (widen s) (all_vals.map widen) = (insertValues s all_vals).map widen := by
  have hv0 : ∀ v ∈ all_vals, ∀ ch ∈ v, 0 < ch.toNat := fun v hv1 ch hch => (hv v hv1 ch hch).1
  have hseg : ∀ seg ∈ fields '%' true s, ¬ dollarForm seg := by
    intro seg hmem hd
    obtain ⟨h0, h1, h4, h2⟩ := hd
    obtain ⟨pre, post, hpp⟩ := fields_infix '%' true s seg hmem
    have htail := fields_tail_notin '%' s seg hmem
    match seg, h0, h1, h4, h2, hpp, htail with
    | a :: b :: c :: x :: rest, h0, h1, _, h2, hpp, htail =>
      simp only [charAt, List.getD_cons_zero, List.getD_cons_succ] at h0 h1 h2
      subst h0 h2
      have hx := hdollar pre (rest ++ post) b x (by simp [hpp]) h1
      subst hx
      simp at htail
  rw [insertValues_eq_outs]
  simp only [insertValuesW, splitW_eq_fields, fields_map_widen, Option.map_some']
  have h := insertValuesWLoop_widen all_vals (fields '%' true s) 0 [] hv0 hseg
  simpa [widen] using h

/-- Witness of the amended C8 at the template `%s and %1` with the values `a`, `b`. -/
theorem insertValues_narrow_wide_witness :
    ((∀ ch ∈ "%s and %1".toList, ch.toNat < 128)
      ∧ (∀ v ∈ ["a".toList, "b".toList], ∀ ch ∈ v, 0 < ch.toNat ∧ ch.toNat < 128))
    ∧ insertValuesW (widen "%s and %1".toList) (["a".toList, "b".toList].map widen)
        = (insertValues "%s and %1".toList ["a".toList, "b".toList]).map widen :=
  ⟨⟨by decide, by decide⟩,
    insertValues_narrow_wide "%s and %1".toList ["a".toList, "b".toList] (by decide) (by decide)
      (by
        intro pre post d x h
        have hmem : '$' ∈ "%s and %1".toList := by
          rw [h]
          simp
        exact absurd hmem (by decide))⟩

/-- C1: for every wide string whose characters have non-negative codes that fit in an
`int`, decoding the encoded string gives the string back. -/
theorem xmlDecode_xmlEncode (w : List Int) (h : ∀ ch ∈ w, 0 ≤ ch ∧ ch < 2 ^ 31) :
    xmlDecode (xmlEncode w) = w := by
  unfold xmlDecode
  rw [xmlDecodeLoop_encode w [] false [] h]
  simp

/-- Witness of C1 on a string with plain, escaped, NUL and non-ASCII characters. -/
theorem xmlDecode_xmlEncode_witness :
    (∀ ch ∈ [wch 'a', wch '&', 233, wch ';', 0, 0x1F600], 0 ≤ ch ∧ ch < 2 ^ 31)
    ∧ xmlDecode (xmlEncode [wch 'a', wch '&', 233, wch ';', 0, 0x1F600])
        = [wch 'a', wch '&', 233, wch ';', 0, 0x1F600] :=
  ⟨by decide, xmlDecode_xmlEncode [wch 'a', wch '&', 233, wch ';', 0, 0x1F600] (by decide)⟩

/-- C9: timeToString saturates. With `p = min precision 3` and `n` the rounded count of
units of 10^-p seconds, `n >= 3600 * 10^p` without hour display gives `59:59` and the
nines, and `n >= 360000 * 10^p` with hour display gives `99:59:59` and the nines. -/
theorem timeToString_saturates (time : F32) (precision : Nat) (display_minutes_if_zero : Bool) :
    (3600 * (10 : Int) ^ (min precision 3) ≤ intTime time precision →
      timeToString time precision display_minutes_if_zero false
        = "59:59".toList ++ nines (min precision 3))
    ∧ (360000 * (10 : Int) ^ (min precision 3) ≤ intTime time precision →
      timeToString time precision display_minutes_if_zero true
        = "99:59:59".toList ++ nines (min precision 3)) := by
  have hp : (if precision > 3 then 3 else precision) = min precision 3 := by
    by_cases h : precision > 3
    · rw [if_pos h]; omega
    · rw [if_neg h]; omega
  have hcases : min precision 3 = 0 ∨ min precision 3 = 1 ∨ min precision 3 = 2
      ∨ min precision 3 = 3 := by omega
  unfold timeToString
  simp only [hp]
  generalize intTime time precision = n
  rcases hcases with h | h | h | h <;> rw [h] <;> constructor <;> intro hn <;>
    simp only [precisionPower, nines] at hn ⊢ <;>
    norm_num at hn ⊢ <;>
    (have h1 : ¬ n < 0 := by omega) <;>
    simp only [h1, if_false] <;>
    rw [if_pos (by omega)] <;> try decide

/-- Witness of C9: timeToString(3600.0f, 2, false, false) is "59:59.99". -/
theorem timeToString_saturates_witness :
    3600 * (10 : Int) ^ (min 2 3) ≤ intTime (F32.finite 3600 0) 2
    ∧ timeToString (F32.finite 3600 0) 2 false false = "59:59.99".toList :=
  ⟨by decide, ((timeToString_saturates (F32.finite 3600 0) 2 false).1 (by decide)).trans
    (by decide)⟩

/-- C10, refuted as stated: timeToString(-1.0f, 0, ...) is not `00`, neither without nor
with display_minutes_if_zero. -/
theorem timeToString_minus_one_not_zero :
    timeToString (F32.finite (-1) 0) 0 false false ≠ "00".toList
      ∧ timeToString (F32.finite (-1) 0) 0 true false ≠ "00".toList := by
  decide

/-- C10, amended: timeToString(-1.0f, 0, false, false) is `-01`, the sign followed by the
one second of the absolute value. -/
theorem timeToString_minus_one :
    timeToString (F32.finite (-1) 0) 0 false false = "-01".toList := by
  decide

/-- C11, refuted as stated: for the float 16777215 * 2^-25 (the largest below 0.5) at
precision 0 the sum `time + 0.5f` rounds to 1.0, so the text reads 00:00:01, while
floor(t + 1/2) is 0. -/
theorem timeToString_rounding_differs :
    F32.round 16777215 (-25) = F32.finite 16777215 (-25)
    ∧ (F32.finite 16777215 (-25)).value = some ((16777215 : ℚ) / 2 ^ 25)
    ∧ timeToString (F32.finite 16777215 (-25)) 0 true true
        = twoDigits 0 ++ [':'] ++ twoDigits 0 ++ [':'] ++ twoDigits 1
    ∧ ⌊(16777215 : ℚ) / 2 ^ 25 * 10 ^ 0 + 1 / 2⌋ = 0
    ∧ ((0 * 3600 + 0 * 60 + 1) * 10 ^ 0 + 0 : Int) ≠ ⌊(16777215 : ℚ) / 2 ^ 25 * 10 ^ 0 + 1 / 2⌋ := by
  have hfloor : ⌊(16777215 : ℚ) / 2 ^ 25 * 10 ^ 0 + 1 / 2⌋ = 0 := by
    rw [Int.floor_eq_iff]
    constructor <;> norm_num
  refine ⟨by decide, ?_, by decide, hfloor, ?_⟩
  · simp only [F32.value]
    norm_num
  · rw [hfloor]
    norm_num

/-- C11, amended: for a time t >= 0 whose rounded count `N`, the `int_time` computed in
single precision, is below the saturation ceiling, the text reads HH:MM:SS(.F) with hours
shown, and MM:SS(.F) or SS(.F) without, where (HH*3600 + MM*60 + SS)*10^p + F = N, HH < 100,
MM < 60, SS < 60, F < 10^p; and N = floor(t*10^p + 1/2) whenever the product `t*10^p` and
the sum with `0.5f` are computed without rounding error. -/
theorem timeToString_fields (time : F32) (precision : Nat) (dmz dh : Bool) (N : Nat)
    (hpos : F32.ltZero time = false)
    (hN : intTime time precision = (N : Int))
    (hlow : dh = false → N < 3600 * 10 ^ (min precision 3))
    (hhigh : N < 360000 * 10 ^ (min precision 3)) :
    ∃ HH MM SS F : Nat,
      (HH * 3600 + MM * 60 + SS) * 10 ^ (min precision 3) + F = N
      ∧ HH < 100 ∧ MM < 60 ∧ SS < 60 ∧ F < 10 ^ (min precision 3)
      ∧ (dh = true → timeToString time precision dmz dh
          = twoDigits HH ++ [':'] ++ twoDigits MM ++ [':'] ++ twoDigits SS
            ++ fractionText (min precision 3) F)
      ∧ (dh = false → HH = 0 ∧ timeToString time precision dmz dh
          = (if dmz = true ∨ 0 < MM then twoDigits MM ++ [':'] else [])
            ++ twoDigits SS ++ fractionText (min precision 3) F)
      ∧ (∀ t : ℚ, time.value = some t →
          (F32.mul time (F32.ofInt (precisionPower (min precision 3)))).value
            = some (t * 10 ^ (min precision 3)) →
          (F32.add (F32.mul time (F32.ofInt (precisionPower (min precision 3))))
            (F32.finite 1 (-1))).value = some (t * 10 ^ (min precision 3) + 1 / 2) →
          (N : Int) = ⌊t * 10 ^ (min precision 3) + 1 / 2⌋) := by
  have hlay := timeToString_layout time precision dmz dh N hN hlow hhigh
  have hexact : ∀ t : ℚ, time.value = some t →
      (F32.mul time (F32.ofInt (precisionPower (min precision 3)))).value
        = some (t * 10 ^ (min precision 3)) →
      (F32.add (F32.mul time (F32.ofInt (precisionPower (min precision 3))))
        (F32.finite 1 (-1))).value = some (t * 10 ^ (min precision 3) + 1 / 2) →
      (N : Int) = ⌊t * 10 ^ (min precision 3) + 1 / 2⌋ := by
    intro t ht _ hadd
    have ht0 := F32.value_nonneg time t hpos ht
    have hv0 : 0 ≤ t * 10 ^ (min precision 3) + 1 / 2 := by positivity
    have hint : intTime time precision
        = F32.toInt (F32.add (F32.mul time (F32.ofInt (precisionPower (min precision 3))))
            (F32.finite 1 (-1))) := by
      simp only [intTime, clip_eq_min, hpos, Bool.false_eq_true, if_false]
    rw [← hN, hint]
    apply F32.toInt_of_value _ _ hadd hv0
    rw [← hint, hN]
    omega
  generalize min precision 3 = p at *
  have hPpos : 0 < 10 ^ p := Nat.pow_pos (by norm_num)
  generalize hP : 10 ^ p = P at *
  have hH : N / P / 3600 < 100 := by
    rw [Nat.div_div_eq_div_mul, Nat.div_lt_iff_lt_mul (by omega)]
    nlinarith
  have hsum : (N / P / 3600 * 3600 + N / P / 60 % 60 * 60 + N / P % 60) * P + N % P = N := by
    have h1 : N / P / 3600 * 3600 + N / P / 60 % 60 * 60 + N / P % 60 = N / P := by omega
    rw [h1, Nat.mul_comm]
    exact Nat.div_add_mod N P
  refine ⟨N / P / 3600, N / P / 60 % 60, N / P % 60, N % P, hsum, hH, by omega, by omega,
    Nat.mod_lt _ hPpos, ?_, ?_, hexact⟩
  · intro hdh
    subst hdh
    rw [hlay, hpos]
    simp
  · intro hdh
    subst hdh
    have hl := hlow rfl
    have h0 : N / P / 3600 = 0 := by
      rw [Nat.div_div_eq_div_mul, Nat.div_eq_zero_iff (by omega)]
      nlinarith
    refine ⟨h0, ?_⟩
    rw [hlay, hpos]
    simp

/-- Witness of the amended C11 at 65.5f. -/
theorem timeToString_fields_witness :
    (F32.ltZero (F32.finite 131 (-1)) = false
      ∧ intTime (F32.finite 131 (-1)) 2 = ((6550 : Nat) : Int)
      ∧ (false = false → 6550 < 3600 * 10 ^ (min 2 3))
      ∧ 6550 < 360000 * 10 ^ (min 2 3))
    ∧ timeToString (F32.finite 131 (-1)) 2 true false = "01:05.50".toList
    ∧ ((6550 : Nat) : Int) = ⌊(131 : ℚ) / 2 * 10 ^ 2 + 1 / 2⌋ := by
  refine ⟨⟨by decide, by decide, by decide, by decide⟩, by decide, ?_⟩
  obtain ⟨_, _, _, _, _, _, _, _, _, _, _, hexact⟩ :=
    timeToString_fields (F32.finite 131 (-1)) 2 true false 6550 (by decide) (by decide)
      (by decide) (by decide)
  have hmul : F32.mul (F32.finite 131 (-1)) (F32.ofInt (precisionPower (min 2 3)))
      = F32.finite 13100 (-1) := by decide
  have hadd : F32.add (F32.finite 13100 (-1)) (F32.finite 1 (-1)) = F32.finite 13101 (-1) := by
    decide
  have h := hexact ((131 : ℚ) / 2) (by simp only [F32.value]; norm_num)
    (by rw [hmul]; simp only [F32.value]; norm_num)
    (by rw [hmul, hadd]; simp only [F32.value]; norm_num)
  simpa using h

/-- A negative time whose rounded count is below the ceiling is printed with a sign. -/
theorem timeToString_negative_sign (time : F32) (precision : Nat) (dmz dh : Bool)
    (hneg : F32.ltZero time = true) (h0 : 0 ≤ intTime time precision)
    (hlow : dh = false → intTime time precision < 3600 * (10 : Int) ^ (min precision 3))
    (hhigh : intTime time precision < 360000 * (10 : Int) ^ (min precision 3)) :
    (timeToString time precision dmz dh).head? = some '-' := by
  obtain ⟨N, hN⟩ : ∃ N : Nat, intTime time precision = (N : Int) :=
    ⟨(intTime time precision).toNat, by omega⟩
  rw [hN] at hlow hhigh
  have hlowN : dh = false → N < 3600 * 10 ^ (min precision 3) := by
    intro h
    have := hlow h
    exact_mod_cast this
  have hhighN : N < 360000 * 10 ^ (min precision 3) := by exact_mod_cast hhigh
  rw [timeToString_layout time precision dmz dh N hN hlowN hhighN, hneg]
  simp

/-- C12, at the inputs -4000.0f (saturation branch) and -3 * 2^30 (the cast to `int`
overflows): the time is negative and the text returned carries no sign. -/
theorem timeToString_negative_without_sign :
    F32.ltZero (F32.finite (-4000) 0) = true
    ∧ timeToString (F32.finite (-4000) 0) 2 false false = "59:59.99".toList
    ∧ (timeToString (F32.finite (-4000) 0) 2 false false).head? ≠ some '-'
    ∧ F32.ltZero (F32.finite (-3) 30) = true
    ∧ timeToString (F32.finite (-3) 30) 2 false false = "00.00".toList := by
  decide

/-- C13: fixed layout. For a time t >= 0 whose rounded count is below the saturation
ceiling (and is not the negative value of an overflowed cast), the text is made of
two-digit fields `hh`, `mm`, `ss` joined by `:` and, when p > 0, `.` and `p` digits; hours
are shown iff display_hours, minutes iff display_hours or display_minutes_if_zero or the
rounded count is at least one minute; the length is 2, 5 or 8 plus the fraction. -/
theorem timeToString_fixed_layout (time : F32) (precision : Nat) (dmz dh : Bool)
    (hpos : F32.ltZero time = false)
    (h0 : 0 ≤ intTime time precision)
    (hlow : dh = false → intTime time precision < 3600 * (10 : Int) ^ (min precision 3))
    (hhigh : intTime time precision < 360000 * (10 : Int) ^ (min precision 3)) :
    ∃ hh mm ss ff : List Char,
      (∀ c ∈ hh ++ mm ++ ss ++ ff, '0' ≤ c ∧ c ≤ '9')
      ∧ hh.length = 2 ∧ mm.length = 2 ∧ ss.length = 2 ∧ ff.length = min precision 3
      ∧ timeToString time precision dmz dh
          = (if dh = true then hh ++ [':'] else [])
            ++ (if dh = true ∨ dmz = true
                  ∨ 60 * (10 : Int) ^ (min precision 3) ≤ intTime time precision
                then mm ++ [':'] else [])
            ++ ss ++ (if min precision 3 = 0 then [] else '.' :: ff)
      ∧ (timeToString time precision dmz dh).length
          = (if dh = true then 8
              else if dmz = true ∨ 60 * (10 : Int) ^ (min precision 3) ≤ intTime time precision
                then 5 else 2)
            + (if min precision 3 = 0 then 0 else min precision 3 + 1) := by
  obtain ⟨N, hN⟩ : ∃ N : Nat, intTime time precision = (N : Int) :=
    ⟨(intTime time precision).toNat, by omega⟩
  rw [hN] at hlow hhigh
  have hlowN : dh = false → N < 3600 * 10 ^ (min precision 3) := by
    intro h
    have := hlow h
    exact_mod_cast this
  have hhighN : N < 360000 * 10 ^ (min precision 3) := by exact_mod_cast hhigh
  have hlay := timeToString_layout time precision dmz dh N hN hlowN hhighN
  rw [hN]
  generalize min precision 3 = p at *
  have hPpos : 0 < 10 ^ p := Nat.pow_pos (by norm_num)
  generalize hP : 10 ^ p = P at *
  have hH : N / P / 3600 < 100 := by
    rw [Nat.div_div_eq_div_mul, Nat.div_lt_iff_lt_mul (by omega)]
    nlinarith
  have hcond : (dmz = true ∨ 0 < N / P / 60 % 60 ∨ dh = true)
      ↔ (dh = true ∨ dmz = true ∨ 60 * ((10 : Int) ^ p) ≤ (N : Int)) := by
    have hc : (60 * ((10 : Int) ^ p) ≤ (N : Int)) ↔ 60 * P ≤ N := by
      rw [← hP]
      exact_mod_cast Iff.rfl
    rw [hc]
    cases dh with
    | true => simp
    | false =>
      have hl := hlowN rfl
      have h60 : N / P / 60 < 60 := by
        rw [Nat.div_div_eq_div_mul, Nat.div_lt_iff_lt_mul (by omega)]
        nlinarith
      have hiff : 0 < N / P / 60 % 60 ↔ 60 * P ≤ N := by
        rw [Nat.mod_eq_of_lt h60, Nat.div_div_eq_div_mul]
        have h1 := Nat.le_div_iff_mul_le (x := 1) (y := N) (show 0 < P * 60 by omega)
        constructor
        · intro h
          have := h1.1 h
          omega
        · intro h
          exact h1.2 (by omega)
      simp [hiff]
  simp only [hcond] at hlay
  refine ⟨twoDigits (N / P / 3600), twoDigits (N / P / 60 % 60), twoDigits (N / P % 60),
    fixedDigits p (N % P), ?_, rfl, rfl, rfl, fixedDigits_length _ _, ?_, ?_⟩
  · intro c hc
    simp only [List.mem_append] at hc
    rcases hc with ((hc | hc) | hc) | hc
    · exact twoDigits_decimal _ hH c hc
    · exact twoDigits_decimal _ (by omega) c hc
    · exact twoDigits_decimal _ (by omega) c hc
    · exact fixedDigits_decimal _ _ c hc
  · rw [hlay, hpos]
    simp only [Bool.false_eq_true, if_false, List.nil_append, fractionText]
  · rw [hlay, hpos]
    simp only [Bool.false_eq_true, if_false, List.nil_append, fractionText]
    have hfl := fixedDigits_length p (N % P)
    cases dh with
    | true =>
      by_cases hp0 : p = 0
      · simp [twoDigits, hp0]
      · simp [twoDigits, hp0, hfl]
        omega
    | false =>
      by_cases hc : dmz = true ∨ 60 * ((10 : Int) ^ p) ≤ (N : Int)
      · have hc2 : false = true ∨ dmz = true ∨ 60 * ((10 : Int) ^ p) ≤ (N : Int) := Or.inr hc
        rw [if_pos hc2, if_pos hc]
        by_cases hp0 : p = 0
        · simp [twoDigits, hp0]
        · simp [twoDigits, hp0, hfl]
          omega
      · have hc2 : ¬ (false = true ∨ dmz = true ∨ 60 * ((10 : Int) ^ p) ≤ (N : Int)) := by
          rintro (h | h)
          · exact Bool.false_ne_true h
          · exact hc h
        rw [if_neg hc2, if_neg hc]
        by_cases hp0 : p = 0
        · simp [twoDigits, hp0]
        · simp [twoDigits, hp0, hfl]
          omega

/-- Witness of C13 at 65.5f, precision 2, minutes requested, no hours. -/
theorem timeToString_fixed_layout_witness :
    (F32.ltZero (F32.finite 131 (-1)) = false ∧ 0 ≤ intTime (F32.finite 131 (-1)) 2
      ∧ (false = false → intTime (F32.finite 131 (-1)) 2 < 3600 * (10 : Int) ^ (min 2 3))
      ∧ intTime (F32.finite 131 (-1)) 2 < 360000 * (10 : Int) ^ (min 2 3))
    ∧ ∃ hh mm ss ff : List Char,
      (∀ c ∈ hh ++ mm ++ ss ++ ff, '0' ≤ c ∧ c ≤ '9')
      ∧ hh.length = 2 ∧ mm.length = 2 ∧ ss.length = 2 ∧ ff.length = min 2 3
      ∧ timeToString (F32.finite 131 (-1)) 2 true false
          = (if false = true then hh ++ [':'] else [])
            ++ (if false = true ∨ true = true
                  ∨ 60 * (10 : Int) ^ (min 2 3) ≤ intTime (F32.finite 131 (-1)) 2
                then mm ++ [':'] else [])
            ++ ss ++ (if min 2 3 = 0 then [] else '.' :: ff)
      ∧ (timeToString (F32.finite 131 (-1)) 2 true false).length
          = (if false = true then 8
              else if true = true ∨ 60 * (10 : Int) ^ (min 2 3) ≤ intTime (F32.finite 131 (-1)) 2
                then 5 else 2)
            + (if min 2 3 = 0 then 0 else min 2 3 + 1) :=
  ⟨⟨by decide, by decide, by decide, by decide⟩,
    timeToString_fixed_layout (F32.finite 131 (-1)) 2 true false (by decide) (by decide)
      (by decide) (by decide)⟩

/-- C14, refuted as stated: for `v = 2147.48.36d` the release value 2147483649 does not
fit in an `int` and wraps to a negative number, while `v-rc0` gives 2147483640. -/
theorem versionToInt_rc_above_release :
    versionString ["2147".toList, "48".toList, "36".toList] (some 'd') none
        = "2147.48.36d".toList
    ∧ (∀ x ∈ ["2147".toList, "48".toList, "36".toList], isNumeral x)
    ∧ versionToInt ("2147.48.36d".toList ++ ['-', 'r', 'c', digitChar 0]) = some 2147483640
    ∧ versionToInt "2147.48.36d".toList = some (-2147483647)
    ∧ ¬ ((2147483640 : Int) < -2147483647) := by
  decide

/-- C14, amended: for a version string `v` of the form X, X.Y or X.Y.Z with an optional
lower-case letter, whose weighted sum with rc = 9 fits in an `int`, and every digit N from
0 to 8, versionToInt(v ++ "-rc" ++ N) < versionToInt(v). -/
theorem versionToInt_rc_below_release (comps : List (List Char)) (letter : Option Char)
    (n : Nat) (h1 : 1 ≤ comps.length) (h3 : comps.length ≤ 3)
    (hnum : ∀ x ∈ comps, isNumeral x) (hletter : ∀ ch ∈ letter, 'a' ≤ ch ∧ ch ≤ 'z')
    (hn : n ≤ 8)
    (hfit : 1000000 * compValue comps 0 + 10000 * compValue comps 1 + 100 * compValue comps 2
      + 10 * microValue letter + 9 < 2 ^ 31) :
    ∃ a b : Int,
      versionToInt (versionString comps letter none ++ ['-', 'r', 'c', digitChar n]) = some a
      ∧ versionToInt (versionString comps letter none) = some b ∧ a < b := by
  have hvs : versionString comps letter none ++ ['-', 'r', 'c', digitChar n]
      = versionString comps letter (some n) := by
    simp [versionString]
  have hrel := versionToInt_sum comps letter none h1 h3 hnum hletter (by simp)
    (by simpa [rcValue] using hfit)
  have hrc := versionToInt_sum comps letter (some n) h1 h3 hnum hletter
    (by intro m hm; cases hm; exact hn)
    (by simp only [rcValue]; omega)
  rw [hvs]
  refine ⟨_, _, hrc, hrel, ?_⟩
  simp only [rcValue]
  omega

/-- Witness of the amended C14: versionToInt("1.2.3-rc1") < versionToInt("1.2.3"). -/
theorem versionToInt_rc_below_release_witness :
    (1 ≤ ["1".toList, "2".toList, "3".toList].length
      ∧ ["1".toList, "2".toList, "3".toList].length ≤ 3
      ∧ (∀ x ∈ ["1".toList, "2".toList, "3".toList], isNumeral x)
      ∧ (∀ ch ∈ (none : Option Char), 'a' ≤ ch ∧ ch ≤ 'z') ∧ 1 ≤ 8)
    ∧ ∃ a b : Int,
      versionToInt (versionString ["1".toList, "2".toList, "3".toList] none none
        ++ ['-', 'r', 'c', digitChar 1]) = some a
      ∧ versionToInt (versionString ["1".toList, "2".toList, "3".toList] none none) = some b
      ∧ a < b :=
  ⟨⟨by decide, by decide, by decide, by decide, by decide⟩,
    versionToInt_rc_below_release ["1".toList, "2".toList, "3".toList] none 1
      (by decide) (by decide) (by decide) (by decide) (by decide) (by decide)⟩

/-- C15, refuted as stated: versionToInt("GIT") = versionToInt("git") = 99999999, while
versionToInt("100.0.0") = 100000009 is greater and versionToInt("99.99.99i") is equal. -/
theorem versionToInt_git_not_above :
    versionToInt "GIT".toList = some 99999999 ∧ versionToInt "git".toList = some 99999999
    ∧ versionString ["100".toList, "0".toList, "0".toList] none none = "100.0.0".toList
    ∧ versionToInt "100.0.0".toList = some 100000009
    ∧ ¬ ((100000009 : Int) < 99999999)
    ∧ versionString ["99".toList, "99".toList, "99".toList] (some 'i') none
        = "99.99.99i".toList
    ∧ versionToInt "99.99.99i".toList = some 99999999 := by
  decide

/-- C15, amended: for a release string X.Y.Z with an optional micro letter and an optional
-rcN suffix (N from 0 to 8), with X, Y, Z at most 99 and the letter at most `i`,
versionToInt(s) <= versionToInt("GIT") = versionToInt("git"), with equality only for
99.99.99i without -rc suffix. -/
theorem versionToInt_git_bound (X Y Z : List Char) (letter : Option Char) (rc : Option Nat)
    (hX : isNumeral X) (hY : isNumeral Y) (hZ : isNumeral Z)
    (hx : digitsValue 10 X ≤ 99) (hy : digitsValue 10 Y ≤ 99) (hz : digitsValue 10 Z ≤ 99)
    (hletter : ∀ ch ∈ letter, 'a' ≤ ch ∧ ch ≤ 'i') (hrc : ∀ n ∈ rc, n ≤ 8) :
    ∃ g v : Int,
      versionToInt "GIT".toList = some g ∧ versionToInt "git".toList = some g
      ∧ versionToInt (versionString [X, Y, Z] letter rc) = some v
      ∧ v ≤ g
      ∧ (v = g → digitsValue 10 X = 99 ∧ digitsValue 10 Y = 99 ∧ digitsValue 10 Z = 99
          ∧ letter = some 'i' ∧ rc = none) := by
  have hnum : ∀ x ∈ [X, Y, Z], isNumeral x := by
    intro x hx'
    simp only [List.mem_cons, List.mem_singleton, List.not_mem_nil, or_false] at hx'
    rcases hx' with rfl | rfl | rfl <;> assumption
  have hl2 : ∀ ch ∈ letter, 'a' ≤ ch ∧ ch ≤ 'z' := by
    intro ch hch
    have h := hletter ch hch
    refine ⟨h.1, ?_⟩
    have h2 := (char_le_iff _ _).1 h.2
    rw [char_le_iff]
    have hi : ('i').toNat = 105 := rfl
    have hzz : ('z').toNat = 122 := rfl
    omega
  have hmicro : 0 ≤ microValue letter ∧ microValue letter ≤ 9
      ∧ (microValue letter = 9 → letter = some 'i') := by
    cases letter with
    | none => simp [microValue]
    | some ch =>
      have h := hletter ch rfl
      have h1 := (char_le_iff _ _).1 h.1
      have h2 := (char_le_iff _ _).1 h.2
      have ha : ('a').toNat = 97 := rfl
      have hi : ('i').toNat = 105 := rfl
      rw [ha] at h1
      rw [hi] at h2
      simp only [microValue]
      refine ⟨by omega, by omega, fun h9 => ?_⟩
      have : ch.toNat = ('i').toNat := by rw [hi]; omega
      rw [char_toNat_inj ch 'i' this]
  have hr := rcValue_bounds rc hrc
  have c0 : compValue [X, Y, Z] 0 = (digitsValue 10 X : Int) := rfl
  have c1 : compValue [X, Y, Z] 1 = (digitsValue 10 Y : Int) := rfl
  have c2 : compValue [X, Y, Z] 2 = (digitsValue 10 Z : Int) := rfl
  have hsum := versionToInt_sum [X, Y, Z] letter rc (by simp) (by simp) hnum hl2 hrc
    (by rw [c0, c1, c2]; omega)
  rw [c0, c1, c2] at hsum
  refine ⟨99999999, _, by decide, by decide, hsum, by omega, ?_⟩
  intro hv
  have hm9 : microValue letter = 9 := by omega
  have hrc9 : rcValue rc = 9 := by omega
  refine ⟨by omega, by omega, by omega, hmicro.2.2 hm9, ?_⟩
  by_contra hne
  have := hr.2.2 hne
  omega

/-- Witness of the amended C15 at `1.2.3a-rc1`. -/
theorem versionToInt_git_bound_witness :
    (isNumeral "1".toList ∧ isNumeral "2".toList ∧ isNumeral "3".toList
      ∧ digitsValue 10 "1".toList ≤ 99 ∧ digitsValue 10 "2".toList ≤ 99
      ∧ digitsValue 10 "3".toList ≤ 99
      ∧ (∀ ch ∈ some 'a', 'a' ≤ ch ∧ ch ≤ 'i') ∧ (∀ n ∈ some 1, n ≤ 8))
    ∧ ∃ g v : Int,
      versionToInt "GIT".toList = some g ∧ versionToInt "git".toList = some g
      ∧ versionToInt (versionString ["1".toList, "2".toList, "3".toList] (some 'a') (some 1))
          = some v
      ∧ v ≤ g
      ∧ (v = g → digitsValue 10 "1".toList = 99 ∧ digitsValue 10 "2".toList = 99
          ∧ digitsValue 10 "3".toList = 99 ∧ some 'a' = some 'i' ∧ some 1 = none) :=
  ⟨⟨by decide, by decide, by decide, by decide, by decide, by decide, by decide, by decide⟩,
    versionToInt_git_bound "1".toList "2".toList "3".toList (some 'a') (some 1)
      (by decide) (by decide) (by decide) (by decide) (by decide) (by decide) (by decide)
      (by decide)⟩

/-- C16: the weighted sum. For dotted numerals (one to three), an optional lower-case
letter and an optional -rcN (N from 0 to 8) whose weighted sum fits in an `int`,
versionToInt is 1000000*X + 10000*Y + 100*Z + 10*micro + rc, missing numerals counting as
0, micro being the position of the letter (0 without) and rc being 9 without suffix; so
"1", "1.0" and "1.0.0" have the same value and "1.2.3" has 1020309. -/
theorem versionToInt_weighted_sum (comps : List (List Char)) (letter : Option Char)
    (rc : Option Nat) (h1 : 1 ≤ comps.length) (h3 : comps.length ≤ 3)
    (hnum : ∀ x ∈ comps, isNumeral x) (hletter : ∀ ch ∈ letter, 'a' ≤ ch ∧ ch ≤ 'z')
    (hrc : ∀ n ∈ rc, n ≤ 8)
    (hfit : 1000000 * compValue comps 0 + 10000 * compValue comps 1 + 100 * compValue comps 2
      + 10 * microValue letter + rcValue rc < 2 ^ 31) :
    versionToInt (versionString comps letter rc)
        = some (1000000 * compValue comps 0 + 10000 * compValue comps 1
            + 100 * compValue comps 2 + 10 * microValue letter + rcValue rc)
    ∧ versionToInt "1".toList = versionToInt "1.0".toList
    ∧ versionToInt "1.0".toList = versionToInt "1.0.0".toList
    ∧ versionToInt "1.2.3".toList = some 1020309 :=
  ⟨versionToInt_sum comps letter rc h1 h3 hnum hletter hrc hfit, by decide, by decide,
    by decide⟩

/-- Witness of C16: versionToInt("1.2.3b-rc1") = 1020321. -/
theorem versionToInt_weighted_sum_witness :
    (1 ≤ ["1".toList, "2".toList, "3".toList].length
      ∧ ["1".toList, "2".toList, "3".toList].length ≤ 3
      ∧ (∀ x ∈ ["1".toList, "2".toList, "3".toList], isNumeral x)
      ∧ (∀ ch ∈ some 'b', 'a' ≤ ch ∧ ch ≤ 'z') ∧ (∀ n ∈ some 1, n ≤ 8))
    ∧ versionString ["1".toList, "2".toList, "3".toList] (some 'b') (some 1)
        = "1.2.3b-rc1".toList
    ∧ versionToInt (versionString ["1".toList, "2".toList, "3".toList] (some 'b') (some 1))
        = some 1020321 :=
  ⟨⟨by decide, by decide, by decide, by decide, by decide⟩, by decide,
    ((versionToInt_weighted_sum ["1".toList, "2".toList, "3".toList] (some 'b') (some 1)
      (by decide) (by decide) (by decide) (by decide) (by decide) (by decide)).1).trans
      (by decide)⟩

/-- C17, refuted as stated: the components of 1.0.100 and 1.1.0 are at most 999 and
(1, 0, 100) is lexicographically below (1, 1, 0), but both strings have the value
1010009. -/
theorem versionToInt_order_fails :
    versionString ["1".toList, "0".toList, "100".toList] none none = "1.0.100".toList
    ∧ versionString ["1".toList, "1".toList, "0".toList] none none = "1.1.0".toList
    ∧ digitsValue 10 "100".toList ≤ 999
    ∧ (digitsValue 10 "1".toList = digitsValue 10 "1".toList
        ∧ digitsValue 10 "0".toList < digitsValue 10 "1".toList)
    ∧ versionToInt "1.0.100".toList = some 1010009
    ∧ versionToInt "1.1.0".toList = some 1010009
    ∧ ¬ ((1010009 : Int) < 1010009) := by
  decide

/-- C17, amended: for X.Y.Z and X2.Y2.Z2 with major numbers at most 999 and minor and
patch numbers at most 99, a lexicographically smaller triple gives a strictly smaller
versionToInt. -/
theorem versionToInt_order (X Y Z X2 Y2 Z2 : List Char)
    (hX : isNumeral X) (hY : isNumeral Y) (hZ : isNumeral Z)
    (hX2 : isNumeral X2) (hY2 : isNumeral Y2) (hZ2 : isNumeral Z2)
    (hx : digitsValue 10 X ≤ 999) (hy : digitsValue 10 Y ≤ 99) (hz : digitsValue 10 Z ≤ 99)
    (hx2 : digitsValue 10 X2 ≤ 999) (hy2 : digitsValue 10 Y2 ≤ 99)
    (hz2 : digitsValue 10 Z2 ≤ 99)
    (hlex : digitsValue 10 X < digitsValue 10 X2
      ∨ (digitsValue 10 X = digitsValue 10 X2
          ∧ (digitsValue 10 Y < digitsValue 10 Y2
              ∨ (digitsValue 10 Y = digitsValue 10 Y2
                  ∧ digitsValue 10 Z < digitsValue 10 Z2)))) :
    ∃ a b : Int,
      versionToInt (versionString [X, Y, Z] none none) = some a
      ∧ versionToInt (versionString [X2, Y2, Z2] none none) = some b ∧ a < b := by
  have hnum : ∀ A B C : List Char, isNumeral A → isNumeral B → isNumeral C →
      ∀ x ∈ [A, B, C], isNumeral x := by
    intro A B C hA hB hC x hx'
    simp only [List.mem_cons, List.mem_singleton, List.not_mem_nil, or_false] at hx'
    rcases hx' with rfl | rfl | rfl <;> assumption
  have e : ∀ A B C : List Char,
      compValue [A, B, C] 0 = (digitsValue 10 A : Int)
      ∧ compValue [A, B, C] 1 = (digitsValue 10 B : Int)
      ∧ compValue [A, B, C] 2 = (digitsValue 10 C : Int) := fun _ _ _ => ⟨rfl, rfl, rfl⟩
  have ha := versionToInt_sum [X, Y, Z] none none (by simp) (by simp) (hnum X Y Z hX hY hZ)
    (by simp) (by simp)
    (by rw [(e X Y Z).1, (e X Y Z).2.1, (e X Y Z).2.2]; simp only [microValue, rcValue]; omega)
  have hb := versionToInt_sum [X2, Y2, Z2] none none (by simp) (by simp)
    (hnum X2 Y2 Z2 hX2 hY2 hZ2) (by simp) (by simp)
    (by rw [(e X2 Y2 Z2).1, (e X2 Y2 Z2).2.1, (e X2 Y2 Z2).2.2]
        simp only [microValue, rcValue]; omega)
  refine ⟨_, _, ha, hb, ?_⟩
  rw [(e X Y Z).1, (e X Y Z).2.1, (e X Y Z).2.2, (e X2 Y2 Z2).1, (e X2 Y2 Z2).2.1,
    (e X2 Y2 Z2).2.2]
  simp only [microValue, rcValue]
  omega

/-- Witness of the amended C17: versionToInt("1.2.99") < versionToInt("1.3.0"). -/
theorem versionToInt_order_witness :
    (isNumeral "1".toList ∧ isNumeral "2".toList ∧ isNumeral "99".toList
      ∧ isNumeral "1".toList ∧ isNumeral "3".toList ∧ isNumeral "0".toList
      ∧ (digitsValue 10 "1".toList = digitsValue 10 "1".toList
          ∧ digitsValue 10 "2".toList < digitsValue 10 "3".toList))
    ∧ ∃ a b : Int,
      versionToInt (versionString ["1".toList, "2".toList, "99".toList] none none) = some a
      ∧ versionToInt (versionString ["1".toList, "3".toList, "0".toList] none none) = some b
      ∧ a < b :=
  ⟨⟨by decide, by decide, by decide, by decide, by decide, by decide, by decide⟩,
    versionToInt_order "1".toList "2".toList "99".toList "1".toList "3".toList "0".toList
      (by decide) (by decide) (by decide) (by decide) (by decide) (by decide)
      (by decide) (by decide) (by decide) (by decide) (by decide) (by decide)
      (Or.inr ⟨by decide, Or.inl (by decide)⟩)⟩

/-- C18, at the input ("aab", "ab", "b"): `from` is not empty and `to` does not contain it;
replace returns "b", because it searches again from the start and finds the "ab" made of
the `a` before and the inserted `b`, while findAndReplace returns "ab". -/
theorem replace_rescans_inserted_text :
    ("ab".toList ≠ [] ∧ findStr "b".toList "ab".toList 0 = none)
    ∧ (∀ fuel, 3 ≤ fuel → replace fuel "aab".toList "ab".toList "b".toList = some "b".toList)
    ∧ (∀ fuel, 3 ≤ fuel →
        findAndReplace fuel "aab".toList "ab".toList "b".toList = some "ab".toList) := by
  refine ⟨by decide, ?_, ?_⟩
  · intro fuel hfuel
    have h3 : replace 3 "aab".toList "ab".toList "b".toList = some "b".toList := by decide
    have := replaceLoop_mono "ab".toList "b".toList 3 _ _ h3 (fuel - 3)
    rw [show 3 + (fuel - 3) = fuel by omega] at this
    exact this
  · intro fuel hfuel
    have h3 : findAndReplace 3 "aab".toList "ab".toList "b".toList = some "ab".toList := by
      decide
    have := findAndReplaceLoop_mono "ab".toList "b".toList 3 _ _ 0 h3 (fuel - 3)
    rw [show 3 + (fuel - 3) = fuel by omega] at this
    exact this

/-- C19, refuted by the code: when `other` contains `from` and `to` contains `from`, the
loop of replace finds the pattern again in the text it has just inserted and never
returns, whatever the fuel. -/
theorem replace_does_not_return (other frm to' : List Char)
    (hother : ∃ a b, other = a ++ frm ++ b) (hto : ∃ c d, to' = c ++ frm ++ d) :
    ∀ fuel, replace fuel other frm to' = none := by
  intro fuel
  exact replaceLoop_none frm to' hto fuel other hother

/-- Witness of C19 at replace("a", "a", "a"), which never returns, while
findAndReplace("a", "a", "a") returns "a". -/
theorem replace_does_not_return_witness :
    ("a".toList ≠ [] ∧ (∃ a b, "a".toList = a ++ "a".toList ++ b))
    ∧ (∀ fuel, replace fuel "a".toList "a".toList "a".toList = none)
    ∧ findAndReplace 2 "a".toList "a".toList "a".toList = some "a".toList :=
  ⟨⟨by decide, [], [], by decide⟩,
    replace_does_not_return "a".toList "a".toList "a".toList ⟨[], [], by decide⟩
      ⟨[], [], by decide⟩,
    by decide⟩

/-- C20: findAndReplace terminates for every non-empty `find`: with more fuel than the
length of `source` the loop returns, and always the same string; every substitution leaves
a strictly shorter unsearched remainder, and moves the cursor strictly forward when
`replace` is not empty (in particular when it contains `find`). -/
theorem findAndReplace_terminates (source find replace : List Char) (hfind : find ≠ []) :
    (∃ r, ∀ fuel, source.length < fuel → findAndReplace fuel source find replace = some r)
    ∧ (∀ (destination : List Char) (pos found : Nat),
        findStr destination find pos = some found →
        ∃ d, strReplace destination found find.length replace = some d
          ∧ d.length - (found + replace.length) < destination.length - pos
          ∧ (replace ≠ [] → pos < found + replace.length)) := by
  constructor
  · obtain ⟨r, hr⟩ := findAndReplaceLoop_terminates find replace hfind source.length source 0
      (by omega) (by omega)
    exact ⟨r, fun fuel hfuel => hr fuel hfuel⟩
  · intro d pos found h
    obtain ⟨d2, h1, _, h3, _, h5⟩ := findAndReplace_step find replace d pos found hfind h
    exact ⟨d2, h1, h3, h5⟩

/-- Witness of C20 with a replacement that contains the pattern:
findAndReplace("banana", "a", "aa") is "baanaanaa". -/
theorem findAndReplace_terminates_witness :
    "a".toList ≠ []
    ∧ ((∃ r, ∀ fuel, "banana".toList.length < fuel →
          findAndReplace fuel "banana".toList "a".toList "aa".toList = some r)
      ∧ findAndReplace 7 "banana".toList "a".toList "aa".toList = some "baanaanaa".toList) :=
  ⟨by decide,
    (findAndReplace_terminates "banana".toList "a".toList "aa".toList (by decide)).1,
    by decide⟩

/-- C21: for a non-empty `find`, findAndReplace (with fuel above the length of the source)
returns the reference substitution of the source; so it returns the source unchanged when
`find` does not occur in it, and also when `replace` is `find` itself. -/
theorem findAndReplace_reference (source find replace : List Char) (hfind : find ≠ [])
    (fuel : Nat) (hfuel : source.length < fuel) :
    findAndReplace fuel source find replace
        = some (referenceSubstitution find replace source 0)
      ∧ ((∀ a b, source ≠ a ++ find ++ b) →
          findAndReplace fuel source find replace = some source)
      ∧ findAndReplace fuel source find find = some source := by
  refine ⟨findAndReplace_eq_reference source find replace hfind fuel hfuel, ?_, ?_⟩
  · intro hno
    rw [findAndReplace_eq_reference source find replace hfind fuel hfuel,
      referenceSubstitution_no_occurrence find replace hfind source hno]
  · rw [findAndReplace_eq_reference source find find hfind fuel hfuel,
      referenceSubstitution_same find hfind source.length source (le_refl _)]

/-- Witness of C21: findAndReplace("aababb", "ab", "X") is "aXXb". -/
theorem findAndReplace_reference_witness :
    "ab".toList ≠ [] ∧ "aababb".toList.length < 7
      ∧ findAndReplace 7 "aababb".toList "ab".toList "X".toList = some "aXXb".toList :=
  ⟨by decide, by decide,
    (findAndReplace_reference "aababb".toList "ab".toList "X".toList (by decide) 7
      (by decide)).1.trans (by decide)⟩

/-- C22: removeWhitespaces keeps, in their order, exactly the characters that are not a
space, a tab, a newline or a carriage return; so its result holds none of the four, a
second application changes nothing, and `" a\tb\nc\r "` becomes `"abc"`. -/
theorem removeWhitespaces_filter (s : List Char) :
    removeWhitespaces s = s.filter (fun c => !isBlank c)
      ∧ (∀ c ∈ removeWhitespaces s, c ≠ ' ' ∧ c ≠ '\t' ∧ c ≠ '\n' ∧ c ≠ '\r')
      ∧ removeWhitespaces (removeWhitespaces s) = removeWhitespaces s
      ∧ removeWhitespaces " a\tb\nc\r ".toList = "abc".toList := by
  refine ⟨removeWhitespaces_eq s, ?_, ?_, by decide⟩
  · intro c hc
    rw [removeWhitespaces_eq, List.mem_filter] at hc
    have hb : ¬ (c = ' ' ∨ c = '\t' ∨ c = '\n' ∨ c = '\r') := by
      simpa [isBlank] using hc.2
    exact ⟨fun e => hb (Or.inl e), fun e => hb (Or.inr (Or.inl e)),
      fun e => hb (Or.inr (Or.inr (Or.inl e))), fun e => hb (Or.inr (Or.inr (Or.inr e)))⟩
  · rw [removeWhitespaces_eq, removeWhitespaces_eq, List.filter_filter]
    simp

/-- C23: for a string that contains neither `/` nor `\`, getPath returns the empty string
and getBasename returns the string itself. -/
theorem getPath_getBasename_no_separator (s : List Char) (h1 : '/' ∉ s) (h2 : '\\' ∉ s) :
    getPath s = some [] ∧ getBasename s = some s := by
  have hno : ∀ j, j < s.length → isSeparator (charAt s j) = false := by
    intro j hj
    have hm := charAt_mem s j hj
    simp only [isSeparator, decide_eq_false_iff_not, not_or]
    exact ⟨fun e => h1 (e ▸ hm), fun e => h2 (e ▸ hm)⟩
  exact ⟨getPathLoop_none s _ hno, getBasenameLoop_none s _ hno⟩

/-- Witness of C23 at `"kart.xml"`. -/
theorem getPath_getBasename_no_separator_witness :
    '/' ∉ "kart.xml".toList ∧ '\\' ∉ "kart.xml".toList
      ∧ getPath "kart.xml".toList = some [] ∧ getBasename "kart.xml".toList = some "kart.xml".toList :=
  ⟨by decide, by decide,
    getPath_getBasename_no_separator "kart.xml".toList (by decide) (by decide)⟩

/-- C24: for a string that contains no `.`, removeExtension and getExtension both return
the string itself. -/
theorem removeExtension_getExtension_no_dot (s : List Char) (h : '.' ∉ s) :
    removeExtension s = some s ∧ getExtension s = some s := by
  have hno : ∀ j, j < s.length → charAt s j ≠ '.' :=
    fun j hj e => h (e ▸ charAt_mem s j hj)
  exact ⟨removeExtensionLoop_none s _ hno, getExtensionLoop_none s _ hno⟩

/-- Witness of C24 at `"README"`. -/
theorem removeExtension_getExtension_no_dot_witness :
    '.' ∉ "README".toList
      ∧ removeExtension "README".toList = some "README".toList
      ∧ getExtension "README".toList = some "README".toList :=
  ⟨by decide, removeExtension_getExtension_no_dot "README".toList (by decide)⟩

/-- C25: xmlEncode maps each character on its own. For a wide string of character codes
in `[0, 2^31)` the result is the concatenation, in order, of `&#x`, the digits of the code
in base 16 and `;` for a code from 128 on and for `&`, `<`, `>`, `"` and the space, and of
the one character with that code otherwise; the digits are upper-case hexadecimal digits
that spell the code, without a leading zero. -/
theorem xmlEncode_per_character (w : List Int) (h : ∀ ch ∈ w, 0 ≤ ch ∧ ch < 2 ^ 31) :
    xmlEncode w
        = (w.map fun ch =>
            if ch ≥ 128 ∨ ch = wch '&' ∨ ch = wch '<' ∨ ch = wch '>'
                ∨ ch = wch (Char.ofNat 34) ∨ ch = wch ' ' then
              ['&', '#', 'x'] ++ toDigits 16 ch.toNat ++ [';']
            else [Char.ofNat ch.toNat]).flatten
      ∧ (∀ ch ∈ w, ch < 128 → ((Char.ofNat ch.toNat).toNat : Int) = ch)
      ∧ ∀ ch ∈ w, (∀ c ∈ toDigits 16 ch.toNat, c ∈ hexChars)
          ∧ (digitsValue 16 (toDigits 16 ch.toNat) : Int) = ch
          ∧ (0 < ch → (toDigits 16 ch.toNat).head? ≠ some '0') := by
  refine ⟨?_, ?_, ?_⟩
  · induction w with
    | nil => rfl
    | cons ch rest ih =>
      have hch := h ch (by simp)
      have hrest : ∀ x ∈ rest, 0 ≤ x ∧ x < 2 ^ 31 := fun x hx => h x (by simp [hx])
      have hstream : streamHexUpper ch = toDigits 16 ch.toNat := by
        unfold streamHexUpper
        congr 2
        omega
      rw [xmlEncode, ih hrest, List.map_cons, List.flatten_cons]
      congr 1
      unfold xmlEncodeChar
      by_cases hesc : ch ≥ 128 ∨ ch = wch '&' ∨ ch = wch '<' ∨ ch = wch '>'
          ∨ ch = wch (Char.ofNat 34) ∨ ch = wch ' '
      · rw [if_pos hesc, if_pos hesc, hstream]
      · rw [if_neg hesc, if_neg hesc]
        have hlt : ch < 128 := by
          by_contra hge
          exact hesc (Or.inl (by omega))
        have hmod : (ch % 256).toNat = ch.toNat := by omega
        rw [hmod]
  · intro ch hch hlt
    have h0 := (h ch hch).1
    rw [char_ofNat_toNat _ (by omega)]
    omega
  · intro ch hch
    have h0 := (h ch hch).1
    obtain ⟨h1, h2, _, h4⟩ := toDigits_hex ch.toNat
    refine ⟨h1, ?_, fun hpos => h4 (by omega)⟩
    rw [h2]
    omega

/-- Witness of C25: the codes of `é`, `a`, `&` are written as `&#xE9;a&#x26;`. -/
theorem xmlEncode_per_character_witness :
    (∀ ch ∈ ([233, 97, 38] : List Int), 0 ≤ ch ∧ ch < 2 ^ 31)
      ∧ xmlEncode [233, 97, 38] = "&#xE9;a&#x26;".toList :=
  ⟨by decide, (xmlEncode_per_character [233, 97, 38] (by decide)).1.trans (by decide)⟩

/-- C26, at the input `"a&"`: the text is ASCII and no `&` in it is followed by `#`, yet
xmlDecode returns `"a"`; the `&` at the end of the input is not written out. -/
theorem xmlDecode_drops_trailing_ampersand :
    (∀ c ∈ "a&".toList, isAscii c = true) ∧ noEntityStart "a&".toList = true
      ∧ xmlDecode "a&".toList = widen "a".toList
      ∧ xmlDecode "a&".toList ≠ widen "a&".toList := by
  decide

/-- C27, at the input `"&#010;"`: the body `010` is a decimal numeral of value 10, and
xmlDecode returns the character with code 8, the body read in base 8; likewise `&#039;`,
of value 39, gives the character with code 3, while the hexadecimal entity `&#x010;` gives
the character with code 16, its leading zero being of no effect. -/
theorem xmlDecode_decimal_leading_zero :
    isNumeral "010".toList ∧ digitsValue 10 "010".toList = 10
      ∧ xmlDecode "&#010;".toList = [8]
      ∧ isNumeral "039".toList ∧ digitsValue 10 "039".toList = 39
      ∧ xmlDecode "&#039;".toList = [3]
      ∧ digitsValue 16 "010".toList = 16 ∧ xmlDecode "&#x010;".toList = [16] := by
  decide

/-- Numeric entities that xmlDecode reads as they are written: for a decimal numeral `D`
without a leading zero (or `D` = `0`) of value at most 0x10FFFF, xmlDecode of `&#D;` is the
one character with that code; and for a non-empty string `H` of hexadecimal digits (either
case, leading zeros allowed) of value at most 0x10FFFF, xmlDecode of `&#xH;` is the one
character with that code. -/
theorem xmlDecode_numeric_entity (D H : List Char) (hD : isNumeral D)
    (hD0 : D.head? ≠ some '0' ∨ D = ['0']) (hDv : digitsValue 10 D ≤ 0x10FFFF)
    (hH : H ≠ []) (hHall : ∀ c ∈ H, c ∈ hexDigitChars) (hHv : digitsValue 16 H ≤ 0x10FFFF) :
    xmlDecode (['&', '#'] ++ D ++ [';']) = [(digitsValue 10 D : Int)]
      ∧ xmlDecode (['&', '#', 'x'] ++ H ++ [';']) = [(digitsValue 16 H : Int)] := by
  constructor
  · have hscan : sscanfInt false D = some (digitsValue 10 D : Int) := by
      rcases hD0 with h0 | h0
      · exact sscanfInt_decimal D hD h0 (by omega)
      · subst h0
        decide
    have hbody : ∀ c ∈ D, c ≠ 'x' ∧ c ≠ ';' := fun c hc =>
      have := decChars_body c (decimal_mem c (hD.2 c hc))
      ⟨this.1, this.2.1⟩
    have hstep := xmlDecode_entity_body D false [] _ hbody hscan
    simp only [xmlDecode, List.cons_append, List.nil_append]
    rw [xmlDecodeLoop, if_pos rfl, xmlDecodeLoop]
    simp only [ne_eq, not_true_eq_false, if_false]
    simpa using hstep
  · have hscan := sscanfInt_hexDigits H hHall hH (by omega)
    have hbody : ∀ c ∈ H, c ≠ 'x' ∧ c ≠ ';' := fun c hc =>
      have := hexDigitChars_facts c (hHall c hc)
      ⟨this.2.2.2.2.1, this.2.2.2.2.2.1⟩
    have hstep := xmlDecode_entity_body H true [] _ hbody hscan
    simp only [xmlDecode, List.cons_append, List.nil_append]
    rw [xmlDecodeLoop, if_pos rfl, xmlDecodeLoop]
    simp only [ne_eq, not_true_eq_false, if_false]
    rw [xmlDecodeLoop]
    simp only [List.length_nil, and_self, if_true]
    simpa using hstep

/-- The entities `&#233;` and `&#xe9;` both decode to the character with code 233. -/
theorem xmlDecode_numeric_entity_witness :
    (isNumeral "233".toList ∧ ("233".toList.head? ≠ some '0' ∨ "233".toList = ['0'])
        ∧ digitsValue 10 "233".toList ≤ 0x10FFFF ∧ "e9".toList ≠ []
        ∧ (∀ c ∈ "e9".toList, c ∈ hexDigitChars) ∧ digitsValue 16 "e9".toList ≤ 0x10FFFF)
      ∧ xmlDecode "&#233;".toList = [233] ∧ xmlDecode "&#xe9;".toList = [233] :=
  ⟨by decide,
    (xmlDecode_numeric_entity "233".toList "e9".toList (by decide) (by decide) (by decide)
      (by decide) (by decide) (by decide)).1.trans (by decide),
    (xmlDecode_numeric_entity "233".toList "e9".toList (by decide) (by decide) (by decide)
      (by decide) (by decide) (by decide)).2.trans (by decide)⟩

/-- C28: without WIN32, splitPath returns the segments of `split(path, ':')` with all
trailing `/` removed from each and the segments left empty discarded, in their order;
every returned element is non-empty, does not end with `/` and contains no `:`. -/
theorem splitPath_segments (path : List Char) :
    ∃ segs r, split path ':' keepSplitCharDefault = some segs
      ∧ r = ((segs.map fun d => d.rdropWhile fun c => decide (c = '/')).filter
          fun d => !d.isEmpty)
      ∧ splitPath path = some r
      ∧ (∀ e ∈ r, e ≠ [] ∧ e.getLast? ≠ some '/' ∧ ':' ∉ e)
      ∧ splitPath "/usr/:://:a/b//:c".toList
          = some ["/usr".toList, "a/b".toList, "c".toList] := by
  refine ⟨fields ':' false path, _, split_eq_fields path ':' false, rfl, splitPath_eq path,
    ?_, by decide⟩
  intro e he
  rw [List.mem_filter, List.mem_map] at he
  obtain ⟨⟨d, hd, hde⟩, hne⟩ := he
  subst hde
  refine ⟨by simpa using hne, ?_, ?_⟩
  · intro hl
    have := rdropWhile_getLast? _ d _ hl
    simp at this
  · intro hm
    exact fields_false_notin ':' path d hd (mem_rdropWhile _ d _ hm)

/-- C29, at the inputs `"a "` and `""`: split at the blank returns the one segment `"a"`
for `"a "`, which holds one blank, and no segment for the empty string. -/
theorem split_count_differs :
    split "a ".toList ' ' false = some ["a".toList] ∧ "a ".toList.count ' ' + 1 = 2
      ∧ split [] ' ' false = some [] ∧ ([] : List Char).count ' ' + 1 = 1 := by
  decide

/-- C29 amended: with keepSplitChar = false, split returns segments none of which contains
the delimiter; for a non-empty string that does not end with the delimiter their number is
one more than the number of delimiters in the string, and joined with the delimiter they
give the string back, empty segments included; `"a b=c d=e"` split at the blank is
`["a", "b=c", "d=e"]`. -/
theorem split_fields_count (s : List Char) (c : Char) :
    ∃ segs, split s c false = some segs
      ∧ (∀ seg ∈ segs, c ∉ seg)
      ∧ (s ≠ [] → s.getLast? ≠ some c →
          segs.length = s.count c + 1 ∧ List.intercalate [c] segs = s)
      ∧ split "a b=c d=e".toList ' ' false
          = some ["a".toList, "b=c".toList, "d=e".toList]
      ∧ split "a,,b".toList ',' false = some ["a".toList, [], "b".toList] := by
  refine ⟨fields c false s, split_eq_fields s c false,
    fun seg h => fields_false_notin c s seg h, ?_, by decide, by decide⟩
  intro hne hlast
  refine ⟨?_, fields_intercalate c s hlast⟩
  rw [fields_length, if_neg hne, if_neg hlast]

/-- C30: a string that contains `/` or `\` has a last separator, at some index `i`; and
for the index `i` of the last separator getPath returns the first `i` characters,
getBasename returns the characters after index `i`, the two with the separator between
them make up the string, and the basename contains no separator. -/
theorem getPath_getBasename_last_separator (s : List Char) (h : '/' ∈ s ∨ '\\' ∈ s) :
    (∃ i, i < s.length ∧ isSeparator (charAt s i) = true
        ∧ ∀ j, i < j → j < s.length → isSeparator (charAt s j) = false)
    ∧ ∀ i, i < s.length → isSeparator (charAt s i) = true →
        (∀ j, i < j → j < s.length → isSeparator (charAt s j) = false) →
        getPath s = some (s.take i) ∧ getBasename s = some (s.drop (i + 1))
          ∧ s.take i ++ [charAt s i] ++ s.drop (i + 1) = s
          ∧ '/' ∉ s.drop (i + 1) ∧ '\\' ∉ s.drop (i + 1) := by
  constructor
  · apply exists_last_index (fun j => isSeparator (charAt s j)) s.length
    rcases h with h | h
    · obtain ⟨j, hj, he⟩ := charAt_of_mem s _ h
      exact ⟨j, hj, by simp [isSeparator, he]⟩
    · obtain ⟨j, hj, he⟩ := charAt_of_mem s _ h
      exact ⟨j, hj, by simp [isSeparator, he]⟩
  · intro i hi hsep hlast
    have hb := not_mem_drop_of_last s i isSeparator hlast
    refine ⟨getPathLoop_last s i _ hi (le_refl _) hsep hlast,
      getBasenameLoop_last s i _ hi (le_refl _) hsep hlast, take_charAt_drop s i hi, ?_, ?_⟩
    · intro hm
      have := hb _ hm
      simp [isSeparator] at this
    · intro hm
      have := hb _ hm
      simp [isSeparator] at this

/-- Witness of C30 at `"a/b\\c.d"`, whose last separator is at index 3. -/
theorem getPath_getBasename_last_separator_witness :
    ('/' ∈ "a/b\\c.d".toList ∨ '\\' ∈ "a/b\\c.d".toList)
      ∧ getPath "a/b\\c.d".toList = some "a/b".toList
      ∧ getBasename "a/b\\c.d".toList = some "c.d".toList :=
  have hlast : ∀ j, 3 < j → j < "a/b\\c.d".toList.length →
      isSeparator (charAt "a/b\\c.d".toList j) = false := by
    intro j h1 h2
    have h3 : j < 7 := h2
    interval_cases j <;> decide
  ⟨by decide,
    ((getPath_getBasename_last_separator "a/b\\c.d".toList (by decide)).2 3
      (by decide) (by decide) hlast).1.trans (by decide),
    ((getPath_getBasename_last_separator "a/b\\c.d".toList (by decide)).2 3
      (by decide) (by decide) hlast).2.1.trans (by decide)⟩

/-- C31: for a string that contains a `.`, removeExtension and getExtension return the
text before and the text after the last `.`; the two with a `.` between them make up the
string, and the extension contains no `.`. -/
theorem removeExtension_getExtension_last_dot (s : List Char) (h : '.' ∈ s) :
    ∃ r e, removeExtension s = some r ∧ getExtension s = some e
      ∧ r ++ ['.'] ++ e = s ∧ '.' ∉ e := by
  obtain ⟨i, hi, hdot, hlast⟩ := exists_last_dot s h
  refine ⟨s.take i, s.drop (i + 1), removeExtensionLoop_last s i _ hi (le_refl _) hdot hlast,
    getExtensionLoop_last s i _ hi (le_refl _) hdot hlast, ?_, ?_⟩
  · have := take_charAt_drop s i hi
    rw [hdot] at this
    exact this
  · intro hm
    have := not_mem_drop_of_last s i (fun c => decide (c = '.'))
      (fun j h1 h2 => by simpa using hlast j h1 h2) _ hm
    simp at this

/-- Witness of C31 at `"tux.tar.gz"`. -/
theorem removeExtension_getExtension_last_dot_witness :
    '.' ∈ "tux.tar.gz".toList
      ∧ (∃ r e, removeExtension "tux.tar.gz".toList = some r
          ∧ getExtension "tux.tar.gz".toList = some e
          ∧ r ++ ['.'] ++ e = "tux.tar.gz".toList ∧ '.' ∉ e)
      ∧ removeExtension "tux.tar.gz".toList = some "tux.tar".toList
      ∧ getExtension "tux.tar.gz".toList = some "gz".toList :=
  ⟨by decide, removeExtension_getExtension_last_dot "tux.tar.gz".toList (by decide),
    by decide, by decide⟩

/-- C32: in the wide insertValues, for a template `L %d$t R` whose parts `L` and `R` hold
no `%` and whose type character `t` is not `%`: for a digit `d` from 1 to 9 and at least
`d` values the result is `L ++ values[d-1] ++ R`; for the digit 0 the index is out of
range (fewer than 2^32 values) and the result is `L ++ "??" ++ R`. -/
theorem insertValuesW_dollar_placeholder (L R : List Int) (t : Int)
    (all_vals : List (List Int)) (hL : wch '%' ∉ L) (hR : wch '%' ∉ R) (ht : t ≠ wch '%') :
    (∀ d, 1 ≤ d → d ≤ 9 → d ≤ all_vals.length →
        insertValuesW (L ++ [wch '%', wch (digitChar d), wch '$', t] ++ R) all_vals
          = some (L ++ all_vals.getD (d - 1) [] ++ R))
    ∧ (all_vals.length < 2 ^ 32 →
        insertValuesW (L ++ [wch '%', wch '0', wch '$', t] ++ R) all_vals
          = some (L ++ widen qq ++ R)) := by
  have hgen : ∀ d, d ≤ 9 →
      insertValuesW (L ++ [wch '%', wch (digitChar d), wch '$', t] ++ R) all_vals
        = some (if ((((d : Int) - 1) % 2 ^ 32).toNat) ≥ all_vals.length then
              L ++ widen qq ++ R
            else L ++ (all_vals.getD ((((d : Int) - 1) % 2 ^ 32).toNat) [] ++ R)) := by
    intro d hd
    have hdc := wch_digitChar d hd
    have hbody : wch '%' ∉ wch (digitChar d) :: wch '$' :: t :: R := by
      have h37 : wch '%' = 37 := rfl
      have h36 : wch '$' = 36 := rfl
      simp only [List.mem_cons, not_or, hdc, h37, h36]
      refine ⟨by omega, by omega, ?_, ?_⟩
      · exact fun e => ht (by rw [h37]; exact e.symm)
      · exact fun e => hR (by rw [h37]; exact e)
    have hshape : L ++ [wch '%', wch (digitChar d), wch '$', t] ++ R
        = L ++ wch '%' :: (wch (digitChar d) :: wch '$' :: t :: R) := by simp
    rw [insertValuesW, splitW_eq_fields, hshape,
      fields_one_placeholder (wch '%') L _ hL (by simp) hbody]
    simp only [Option.map_some']
    rw [insertValuesWLoop, if_pos (wcharAt_zero_of_notin L hL), List.nil_append,
      insertValuesWLoop_dollar all_vals d t R L 0 hd]
  constructor
  · intro d h1 h9 hlen
    have hidx : ((((d : Int) - 1) % 2 ^ 32).toNat) = d - 1 := by omega
    have hlt : ¬ (d - 1 ≥ all_vals.length) := by omega
    rw [hgen d h9, hidx, if_neg hlt]
    simp
  · intro hlen
    have hidx : ((((0 : Nat) : Int) - 1) % 2 ^ 32).toNat = 4294967295 := by decide
    have hge : 4294967295 ≥ all_vals.length := by omega
    have h := hgen 0 (by omega)
    rw [hidx, if_pos hge] at h
    exact h

/-- Witness of C32: the wide insertValues("a%2$sb", ["X", "Y"]) is "aYb", and with the
digit 0 it is "a??b". -/
theorem insertValuesW_dollar_placeholder_witness :
    (wch '%' ∉ widen "a".toList ∧ wch '%' ∉ widen "b".toList ∧ wch 's' ≠ wch '%')
      ∧ insertValuesW (widen "a%2$sb".toList) [widen "X".toList, widen "Y".toList]
          = some (widen "aYb".toList)
      ∧ insertValuesW (widen "a%0$sb".toList) [widen "X".toList, widen "Y".toList]
          = some (widen "a??b".toList) :=
  ⟨by decide,
    ((insertValuesW_dollar_placeholder (widen "a".toList) (widen "b".toList) (wch 's')
      [widen "X".toList, widen "Y".toList] (by decide) (by decide) (by decide)).1 2
        (by decide) (by decide) (by decide)).trans (by decide),
    ((insertValuesW_dollar_placeholder (widen "a".toList) (widen "b".toList) (wch 's')
      [widen "X".toList, widen "Y".toList] (by decide) (by decide) (by decide)).2
        (by decide)).trans (by decide)⟩

/-- C33: within the widths the weights leave room for (minor and patch at most 99, micro
at most 9, rc at most 9 with 9 for no suffix, no overflow), versionToInt is strictly
order-preserving and injective on the tuples (major, minor, patch, micro, rc): a
lexicographically smaller tuple has a strictly smaller value, and equal values come from
equal tuples. -/
theorem versionToInt_lexicographic (comps comps2 : List (List Char))
    (letter letter2 : Option Char) (rc rc2 : Option Nat)
    (hw : withinWidths comps letter rc) (hw2 : withinWidths comps2 letter2 rc2) :
    ∃ a b : Int,
      versionToInt (versionString comps letter rc) = some a
      ∧ versionToInt (versionString comps2 letter2 rc2) = some b
      ∧ (lexLess (versionTuple comps letter rc) (versionTuple comps2 letter2 rc2) = true →
          a < b)
      ∧ (a = b → versionTuple comps letter rc = versionTuple comps2 letter2 rc2) := by
  obtain ⟨ha, hx, hy, hz, hm, hr⟩ := versionToInt_withinWidths comps letter rc hw
  obtain ⟨hb, hx2, hy2, hz2, hm2, hr2⟩ := versionToInt_withinWidths comps2 letter2 rc2 hw2
  refine ⟨_, _, ha, hb, ?_, ?_⟩
  · intro hlex
    simp only [lexLess, versionTuple, Bool.or_eq_true, Bool.and_eq_true, decide_eq_true_eq,
      Bool.or_false, Bool.and_false, or_false] at hlex
    omega
  · intro hab
    have e0 : compValue comps 0 = compValue comps2 0 := by omega
    have e1 : compValue comps 1 = compValue comps2 1 := by omega
    have e2 : compValue comps 2 = compValue comps2 2 := by omega
    have e3 : microValue letter = microValue letter2 := by omega
    have e4 : rcValue rc = rcValue rc2 := by omega
    simp only [versionTuple, e0, e1, e2, e3, e4]

/-- Witness of C33: versionToInt("1.2.3a-rc8") < versionToInt("1.2.3a"), the tuple
(1, 2, 3, 1, 8) being below (1, 2, 3, 1, 9). -/
theorem versionToInt_lexicographic_witness :
    (withinWidths ["1".toList, "2".toList, "3".toList] (some 'a') (some 8)
      ∧ withinWidths ["1".toList, "2".toList, "3".toList] (some 'a') none
      ∧ lexLess (versionTuple ["1".toList, "2".toList, "3".toList] (some 'a') (some 8))
          (versionTuple ["1".toList, "2".toList, "3".toList] (some 'a') none) = true)
      ∧ versionString ["1".toList, "2".toList, "3".toList] (some 'a') (some 8)
          = "1.2.3a-rc8".toList
      ∧ ∃ a b : Int, versionToInt "1.2.3a-rc8".toList = some a
          ∧ versionToInt "1.2.3a".toList = some b ∧ a < b :=
  ⟨⟨by decide, by decide, by decide⟩, by decide,
    match versionToInt_lexicographic ["1".toList, "2".toList, "3".toList]
      ["1".toList, "2".toList, "3".toList] (some 'a') (some 'a') (some 8) none
      (by decide) (by decide) with
    | ⟨a, b, ha, hb, hlt, _⟩ => ⟨a, b, ha, hb, hlt (by decide)⟩⟩

end StringUtils
